import Mathlib

/-!
# Limit order book matching core: embedding and verification

Shallow embedding of `domain/Order.h`, `infrastructure/ObjectPool.h`,
`orderbook/Level.h`, `orderbook/OrderBook.h` and `engines/MatchingEngine.h`.

Modelling conventions.

* `Price`, `OrderId` (uint64_t) and `Quantity` (uint32_t) are natural numbers.
  Quantity arithmetic that the source performs on `uint32_t` is written with
  `add32` / `sub32`, which reduce modulo `2 ^ 32`.
* A `RestingOrder*` is the index of the node in the pool's `store` (a handle).
  The null pointer is `none`.
* The intrusive doubly linked list of a `Level` (the nodes strictly between
  `dummy_head` and `dummy_tail`, followed through `next`) is the list `queue`
  of handles, oldest node first.
* `std::unordered_map<OrderId, RestingOrder*>` is a finite map, written as a
  function `OrderId → Option handle`.
* Behaviour that the source leaves undefined or that aborts (indexing a vector
  beyond its size, reading through a null pointer or through the tail
  sentinel, a failing `assert`) and the exception thrown by
  `ObjectPool::allocate` are reported as a `Fault`.
* Listener callbacks are recorded as the list of `Event`s, in call order.
* A `Level&` argument is the index of the level in `bids` or `asks`.
* The `while` loops are recursive functions. The cursor loops recurse on the
  distance the cursor can still travel; the loop of `match` takes a bound on
  its iterations, which `match` sets from the number of nodes it can consume
  (`matchFuel`); the theorems on `submitOrder` and `modifyOrder` show that the
  bound is never reached on the books considered.
* Where the source subtracts a quantity that a preceding `std::min` or
  comparison has shown not to exceed the minuend, the subtraction is the one
  of `Nat`.
-/

/-! ## domain/Order.h -/

inductive Side where
  | Buy
  | Sell
deriving DecidableEq

structure Order where
  id : Nat
  quantity : Nat
  price : Nat
  side : Side
deriving DecidableEq

instance : Inhabited Order := ⟨⟨0, 0, 0, Side.Buy⟩⟩

/-- Addition on `uint32_t`. -/
def add32 (a b : Nat) : Nat := (a + b) % 2 ^ 32

/-- Subtraction on `uint32_t` (wraps around below zero). -/
def sub32 (a b : Nat) : Nat := (a + (2 ^ 32 - b % 2 ^ 32)) % 2 ^ 32

/-- The ways in which a call can fail to return normally. -/
inductive Fault where
  /-- `std::runtime_error("Pool exhausted!")` thrown by `ObjectPool::allocate`. -/
  | PoolExhausted
  /-- A member is read through the `nullptr` returned by `OrderBook::find`. -/
  | NullDereference
  /-- `bids[i]` or `asks[i]` with `i` not below the vector's size. -/
  | OutOfRange
  /-- `Level::top()` of an empty level: the node returned is `dummy_tail`. -/
  | SentinelRead
  /-- An `assert` of `Level::pop` does not hold. -/
  | AssertionFailed
  /-- The iteration bound of the model of a `while` loop was reached. -/
  | FuelExhausted
deriving DecidableEq

/-! ## infrastructure/ObjectPool.h -/

structure ObjectPool (α : Type) where
  store : List α
  free_indices : List Nat

namespace ObjectPool

/-- Constructor `ObjectPool(size)`: `size` value-initialised slots, free list `0, …, size - 1`. -/
def init {α : Type} [Inhabited α] (size : Nat) : ObjectPool α :=
  { store := List.replicate size default, free_indices := List.range size }

/-- `allocate()`: throws when the free list is empty, else pops its back. -/
def allocate {α : Type} (pool : ObjectPool α) : Except Fault (Nat × ObjectPool α) :=
  match pool.free_indices.getLast? with
  | none => Except.error Fault.PoolExhausted
  | some index => Except.ok (index, { pool with free_indices := pool.free_indices.dropLast })

/-- `deallocate(object)`: pushes the slot index of `object` on the free list. -/
def deallocate {α : Type} (pool : ObjectPool α) (index : Nat) : ObjectPool α :=
  { pool with free_indices := pool.free_indices ++ [index] }

/-- Read of `*object` for a handle into the store. -/
def read {α : Type} [Inhabited α] (pool : ObjectPool α) (index : Nat) : α :=
  pool.store.getD index default

/-- Write of `*object = value` for a handle into the store. -/
def write {α : Type} (pool : ObjectPool α) (index : Nat) (value : α) : ObjectPool α :=
  { pool with store := pool.store.set index value }

end ObjectPool

/-! ## infrastructure/LockFreeQueue.h

The queue is run sequentially: the atomic loads and stores of `head` and `tail` are plain
reads and writes, whatever their memory order. The size given to the constructor is at
least 1 (`% buffer.size()` is undefined for an empty buffer). -/

structure LockFreeQueue (α : Type) where
  buffer : List α
  head : Nat
  tail : Nat

namespace LockFreeQueue

/-- Constructor `LockFreeQueue(size)`: `size` value-initialised cells, `head = tail = 0`. -/
def init {α : Type} [Inhabited α] (size : Nat) : LockFreeQueue α :=
  { buffer := List.replicate size default, head := 0, tail := 0 }

/-- `push(item)`: the value returned and the queue after the call. -/
def push {α : Type} (q : LockFreeQueue α) (item : α) : Bool × LockFreeQueue α :=
  let current_head := q.head
  let next_head := (current_head + 1) % q.buffer.length
  if next_head = q.tail then (false, q)
  else (true, { q with buffer := q.buffer.set current_head item, head := next_head })

/-- `pop(item)`: the value returned, the output argument `item` after the call (its value
before the call is the argument), and the queue after the call. -/
def pop {α : Type} [Inhabited α] (q : LockFreeQueue α) (item : α) :
    Bool × α × LockFreeQueue α :=
  let current_tail := q.tail
  if current_tail = q.head then (false, item, q)
  else
    let item1 := q.buffer.getD current_tail default
    let next_tail := (current_tail + 1) % q.buffer.length
    (true, item1, { q with tail := next_tail })

end LockFreeQueue

/-! ## orderbook/Level.h -/

structure Level where
  /-- Handles of the nodes from `dummy_head->next` up to `dummy_tail->prev`. -/
  queue : List Nat
  total_quantity : Nat
deriving DecidableEq

namespace Level

/-- Constructor `Level()`. -/
def init : Level := { queue := [], total_quantity := 0 }

/-- `add(resting_order)`, where `quantity` is `resting_order->order.quantity`. -/
def add (l : Level) (resting_order : Nat) (quantity : Nat) : Level :=
  { queue := l.queue ++ [resting_order], total_quantity := add32 l.total_quantity quantity }

/-- `empty()`. -/
def empty (l : Level) : Bool := l.queue.isEmpty

/-- `erase(resting_order)`, where `quantity` is `resting_order->order.quantity`. The callers
(`removeBid`, `removeAsk`) pass the level at the price and side of the node. -/
def erase (l : Level) (resting_order : Nat) (quantity : Nat) : Level :=
  { queue := l.queue.erase resting_order, total_quantity := sub32 l.total_quantity quantity }

/-- `pop()`; `quantityOf h` is `h->order.quantity`. Both asserts are checked, as in a build
without `NDEBUG`; the node unlinked is the head of the queue. -/
def pop (l : Level) (quantityOf : Nat → Nat) : Except Fault Level :=
  match l.queue with
  | [] => Except.error Fault.AssertionFailed
  | head :: rest =>
    if quantityOf head = 0 then Except.ok { l with queue := rest }
    else Except.error Fault.AssertionFailed

/-- `reduceQuantity(delta)`. -/
def reduceQuantity (l : Level) (delta : Nat) : Level :=
  { l with total_quantity := sub32 l.total_quantity delta }

/-- `getTotalQuantity()`. -/
def getTotalQuantity (l : Level) : Nat := l.total_quantity

/-- `top()`: `none` stands for the tail sentinel of an empty level. -/
def top (l : Level) : Option Nat := l.queue.head?

end Level

/-! ## orderbook/OrderBook.h -/

structure OrderBook where
  resting_orders_pool : ObjectPool Order
  resting_orders : Nat → Option Nat
  bids : List Level
  max_bid : Nat
  asks : List Level
  min_ask : Nat

/-- `levels[price]` on a `std::vector<Level>`. -/
def levelAt (levels : List Level) (price : Nat) : Except Fault Level :=
  match levels[price]? with
  | some l => Except.ok l
  | none => Except.error Fault.OutOfRange

/-- Loop of `decrementBidCursor`, by recursion on the cursor. -/
def decrementBidCursorLoop (bids : List Level) : Nat → Except Fault Nat
  | 0 => Except.ok 0
  | max_bid + 1 =>
    match bids[max_bid + 1]? with
    | none => Except.error Fault.OutOfRange
    | some l => if l.empty then decrementBidCursorLoop bids max_bid else Except.ok (max_bid + 1)

/-- Loop of `incrementAskCursor`; the first argument bounds the iterations
by the distance from the cursor to `asks.size()`. -/
def incrementAskCursorLoop (asks : List Level) : Nat → Nat → Nat
  | 0, min_ask => min_ask
  | fuel + 1, min_ask =>
    match asks[min_ask]? with
    | none => min_ask
    | some l => if l.empty then incrementAskCursorLoop asks fuel (min_ask + 1) else min_ask

namespace OrderBook

/-- Constructor `OrderBook(capacity, max_price)`. -/
def init (capacity max_price : Nat) : OrderBook :=
  { resting_orders_pool := ObjectPool.init capacity
    resting_orders := fun _ => none
    bids := List.replicate (max_price + 1) Level.init
    max_bid := 0
    asks := List.replicate (max_price + 1) Level.init
    min_ask := max_price + 1 }

def hasBids (b : OrderBook) : Bool := decide (b.max_bid > 0)
def bestBid (b : OrderBook) : Nat := b.max_bid
def bestBidLevel (b : OrderBook) : Except Fault Level := levelAt b.bids b.max_bid
def bidLevel (b : OrderBook) (price : Nat) : Except Fault Level := levelAt b.bids price

def hasAsks (b : OrderBook) : Bool := decide (b.min_ask < b.asks.length)
def bestAsk (b : OrderBook) : Nat := b.min_ask
def bestAskLevel (b : OrderBook) : Except Fault Level := levelAt b.asks b.min_ask
def askLevel (b : OrderBook) (price : Nat) : Except Fault Level := levelAt b.asks price

def decrementBidCursor (b : OrderBook) : Except Fault OrderBook :=
  match decrementBidCursorLoop b.bids b.max_bid with
  | Except.error f => Except.error f
  | Except.ok m => Except.ok { b with max_bid := m }

def incrementAskCursor (b : OrderBook) : OrderBook :=
  { b with min_ask := incrementAskCursorLoop b.asks (b.asks.length - b.min_ask) b.min_ask }

/-- `find(order_id)`: `none` is `nullptr`. -/
def find (b : OrderBook) (order_id : Nat) : Option Nat := b.resting_orders order_id

/-- The node `*resting_order`. -/
def node (b : OrderBook) (resting_order : Nat) : Order := b.resting_orders_pool.read resting_order

/-- `clean(resting_order)`: erase the node's id from the index, free the slot. -/
def clean (b : OrderBook) (resting_order : Nat) : OrderBook :=
  { b with
    resting_orders := fun id => if id = (b.node resting_order).id then none else b.resting_orders id
    resting_orders_pool := b.resting_orders_pool.deallocate resting_order }

/-- `resting_orders.emplace(id, resting_order)`: no effect when the key is present. -/
def emplace (index : Nat → Option Nat) (id resting_order : Nat) : Nat → Option Nat :=
  match index id with
  | some _ => index
  | none => fun k => if k = id then some resting_order else index k

def insertBid (b : OrderBook) (order : Order) : Except Fault OrderBook :=
  match b.resting_orders_pool.allocate with
  | Except.error f => Except.error f
  | Except.ok (resting_order, pool) =>
    let pool := pool.write resting_order order
    match levelAt b.bids order.price with
    | Except.error f => Except.error f
    | Except.ok level =>
      let level := level.add resting_order (pool.read resting_order).quantity
      Except.ok
        { resting_orders_pool := pool
          resting_orders := emplace b.resting_orders order.id resting_order
          bids := b.bids.set order.price level
          max_bid := if order.price > b.max_bid then order.price else b.max_bid
          asks := b.asks
          min_ask := b.min_ask }

def insertAsk (b : OrderBook) (order : Order) : Except Fault OrderBook :=
  match b.resting_orders_pool.allocate with
  | Except.error f => Except.error f
  | Except.ok (resting_order, pool) =>
    let pool := pool.write resting_order order
    match levelAt b.asks order.price with
    | Except.error f => Except.error f
    | Except.ok level =>
      let level := level.add resting_order (pool.read resting_order).quantity
      Except.ok
        { resting_orders_pool := pool
          resting_orders := emplace b.resting_orders order.id resting_order
          bids := b.bids
          max_bid := b.max_bid
          asks := b.asks.set order.price level
          min_ask := if order.price < b.min_ask then order.price else b.min_ask }

/-- `fillAskOrder(ask_level, ask, trade_quantity)`; the reference `ask_level`
is given by its index `ask_price` in `asks`. -/
def fillAskOrder (b : OrderBook) (ask_price : Nat) (ask : Nat) (trade_quantity : Nat) :
    Except Fault OrderBook :=
  match levelAt b.asks ask_price with
  | Except.error f => Except.error f
  | Except.ok ask_level =>
    let order := b.node ask
    let pool := b.resting_orders_pool.write ask { order with quantity := sub32 order.quantity trade_quantity }
    let ask_level := ask_level.reduceQuantity trade_quantity
    if (pool.read ask).quantity = 0 then
      match ask_level.pop (fun h => (pool.read h).quantity) with
      | Except.error f => Except.error f
      | Except.ok ask_level =>
        let b1 : OrderBook := { b with resting_orders_pool := pool, asks := b.asks.set ask_price ask_level }
        Except.ok (b1.clean ask).incrementAskCursor
    else
      Except.ok { b with resting_orders_pool := pool, asks := b.asks.set ask_price ask_level }

/-- `fillBidOrder(bid_level, bid, trade_quantity)`; the reference `bid_level`
is given by its index `bid_price` in `bids`. -/
def fillBidOrder (b : OrderBook) (bid_price : Nat) (bid : Nat) (trade_quantity : Nat) :
    Except Fault OrderBook :=
  match levelAt b.bids bid_price with
  | Except.error f => Except.error f
  | Except.ok bid_level =>
    let order := b.node bid
    let pool := b.resting_orders_pool.write bid { order with quantity := sub32 order.quantity trade_quantity }
    let bid_level := bid_level.reduceQuantity trade_quantity
    if (pool.read bid).quantity = 0 then
      match bid_level.pop (fun h => (pool.read h).quantity) with
      | Except.error f => Except.error f
      | Except.ok bid_level =>
        let b1 : OrderBook := { b with resting_orders_pool := pool, bids := b.bids.set bid_price bid_level }
        (b1.clean bid).decrementBidCursor
    else
      Except.ok { b with resting_orders_pool := pool, bids := b.bids.set bid_price bid_level }

def removeAsk (b : OrderBook) (ask : Nat) : Except Fault OrderBook :=
  match levelAt b.asks (b.node ask).price with
  | Except.error f => Except.error f
  | Except.ok ask_level =>
    let ask_level := ask_level.erase ask (b.node ask).quantity
    let b1 : OrderBook := { b with asks := b.asks.set (b.node ask).price ask_level }
    Except.ok (b1.clean ask).incrementAskCursor

def removeBid (b : OrderBook) (bid : Nat) : Except Fault OrderBook :=
  match levelAt b.bids (b.node bid).price with
  | Except.error f => Except.error f
  | Except.ok bid_level =>
    let bid_level := bid_level.erase bid (b.node bid).quantity
    let b1 : OrderBook := { b with bids := b.bids.set (b.node bid).price bid_level }
    (b1.clean bid).decrementBidCursor

end OrderBook

/-! ## engines/MatchingEngine.h -/

/-- A call received by the listener. -/
inductive Event where
  | trade (incoming_id resting_id price qty : Nat)
  | added (order : Order)
  | canceled (id : Nat)
  | modified (order : Order)
deriving DecidableEq

/-- What a public call leaves behind: the fault that ended it (`none` when it
returned normally), the book, and the listener calls made, in order. When the
fault is `PoolExhausted` the book is the one at the `throw`. -/
structure Outcome where
  fault : Option Fault
  book : OrderBook
  events : List Event

inductive Policy where
  | BuyPolicy
  | SellPolicy
deriving DecidableEq

namespace Policy

def hasMatchingOrders : Policy → OrderBook → Bool
  | BuyPolicy, book => book.hasAsks
  | SellPolicy, book => book.hasBids

def canMatch : Policy → Order → OrderBook → Bool
  | BuyPolicy, buy_order, book => decide (buy_order.price ≥ book.bestAsk)
  | SellPolicy, sell_order, book => decide (sell_order.price ≤ book.bestBid)

/-- `matchLevel()`: the index of the level referred to, and the level. -/
def matchLevel : Policy → OrderBook → Except Fault (Nat × Level)
  | BuyPolicy, book => (book.bestAskLevel).map (fun l => (book.min_ask, l))
  | SellPolicy, book => (book.bestBidLevel).map (fun l => (book.max_bid, l))

/-- `getRestingLevel(price)`: the index of the level referred to, and the level. -/
def getRestingLevel : Policy → OrderBook → Nat → Except Fault (Nat × Level)
  | BuyPolicy, book, price => (book.bidLevel price).map (fun l => (price, l))
  | SellPolicy, book, price => (book.askLevel price).map (fun l => (price, l))

def insert : Policy → OrderBook → Order → Except Fault OrderBook
  | BuyPolicy, book, buy_order => book.insertBid buy_order
  | SellPolicy, book, sell_order => book.insertAsk sell_order

def fillRestingOrder : Policy → OrderBook → Nat → Nat → Nat → Except Fault OrderBook
  | BuyPolicy, book, bid_level, bid, trade_quantity => book.fillBidOrder bid_level bid trade_quantity
  | SellPolicy, book, ask_level, ask, trade_quantity => book.fillAskOrder ask_level ask trade_quantity

def fillOppositeOrder : Policy → OrderBook → Nat → Nat → Nat → Except Fault OrderBook
  | BuyPolicy, book, ask_level, ask, trade_quantity => book.fillAskOrder ask_level ask trade_quantity
  | SellPolicy, book, bid_level, bid, trade_quantity => book.fillBidOrder bid_level bid trade_quantity

def cancel : Policy → OrderBook → Nat → Except Fault OrderBook
  | BuyPolicy, book, bid => book.removeBid bid
  | SellPolicy, book, ask => book.removeAsk ask

/-- The levels the policy matches against. -/
def oppositeLevels : Policy → OrderBook → List Level
  | BuyPolicy, book => book.asks
  | SellPolicy, book => book.bids

end Policy

/-- Number of nodes linked in the levels of one side. -/
def sideSize (levels : List Level) : Nat := (levels.map (fun l => l.queue.length)).sum

/-- State of the `while` loop of `match` when it is left. -/
structure LoopResult where
  fault : Option Fault
  order : Order
  book : OrderBook
  events : List Event

namespace MatchingEngine

/-- The `while` loop of `match`. The first argument bounds the number of
evaluations of the loop condition. -/
def matchLoop (book_policy : Policy) : Nat → Order → OrderBook → LoopResult
  | 0, order, book => { fault := some Fault.FuelExhausted, order := order, book := book, events := [] }
  | fuel + 1, order, book =>
    if order.quantity > 0 ∧ book_policy.canMatch order book = true
        ∧ book_policy.hasMatchingOrders book = true then
      match book_policy.matchLevel book with
      | Except.error f => { fault := some f, order := order, book := book, events := [] }
      | Except.ok (level_index, match_level) =>
        match match_level.top with
        | none => { fault := some Fault.SentinelRead, order := order, book := book, events := [] }
        | some matching_order =>
          let trade_quantity := min order.quantity (book.node matching_order).quantity
          let order1 := { order with quantity := order.quantity - trade_quantity }
          match book_policy.fillOppositeOrder book level_index matching_order trade_quantity with
          | Except.error f => { fault := some f, order := order1, book := book, events := [] }
          | Except.ok book1 =>
            let ev := Event.trade order1.id (book1.node matching_order).id
              (book1.node matching_order).price trade_quantity
            let r := matchLoop book_policy fuel order1 book1
            { r with events := ev :: r.events }
    else
      { fault := none, order := order, book := book, events := [] }

/-- Iterations of the loop of `match` never exceed the number of nodes on the
opposite side plus one; one more evaluation of the condition ends the loop. -/
def matchFuel (book_policy : Policy) (book : OrderBook) : Nat :=
  sideSize (book_policy.oppositeLevels book) + 2

/-- `match(order, book_policy, listener)`. -/
def matchOrder (order : Order) (book_policy : Policy) (book : OrderBook) : Outcome :=
  let r := matchLoop book_policy (matchFuel book_policy book) order book
  match r.fault with
  | some f => { fault := some f, book := r.book, events := r.events }
  | none =>
    if r.order.quantity > 0 then
      match book_policy.insert r.book r.order with
      | Except.error f => { fault := some f, book := r.book, events := r.events }
      | Except.ok book1 => { fault := none, book := book1, events := r.events ++ [Event.added r.order] }
    else
      { fault := none, book := r.book, events := r.events }

/-- `cancel(resting_order, book_policy, listener)`. -/
def cancel (resting_order : Nat) (book_policy : Policy) (book : OrderBook) : Outcome :=
  let id := (book.node resting_order).id
  match book_policy.cancel book resting_order with
  | Except.error f => { fault := some f, book := book, events := [] }
  | Except.ok book1 => { fault := none, book := book1, events := [Event.canceled id] }

/-- `modify(resting_order, price, quantity, book_policy, listener)`. -/
def modify (resting_order : Nat) (price quantity : Nat) (book_policy : Policy) (book : OrderBook) :
    Outcome :=
  if price = (book.node resting_order).price ∧ quantity < (book.node resting_order).quantity then
    match book_policy.getRestingLevel book (book.node resting_order).price with
    | Except.error f => { fault := some f, book := book, events := [] }
    | Except.ok (level_index, _) =>
      let delta := (book.node resting_order).quantity - quantity
      match book_policy.fillRestingOrder book level_index resting_order delta with
      | Except.error f => { fault := some f, book := book, events := [] }
      | Except.ok book1 =>
        { fault := none, book := book1, events := [Event.modified (book1.node resting_order)] }
  else
    let modified_order : Order :=
      { (book.node resting_order) with price := price, quantity := quantity }
    match book_policy.cancel book resting_order with
    | Except.error f => { fault := some f, book := book, events := [] }
    | Except.ok book1 => matchOrder modified_order book_policy book1

def policyOf : Side → Policy
  | Side.Buy => Policy.BuyPolicy
  | Side.Sell => Policy.SellPolicy

def submitOrder (order : Order) (book : OrderBook) : Outcome :=
  matchOrder order (policyOf order.side) book

def cancelOrder (order_id : Nat) (book : OrderBook) : Outcome :=
  match book.find order_id with
  | none => { fault := some Fault.NullDereference, book := book, events := [] }
  | some resting_order => cancel resting_order (policyOf (book.node resting_order).side) book

def modifyOrder (order_id : Nat) (price quantity : Nat) (book : OrderBook) : Outcome :=
  match book.find order_id with
  | none => { fault := some Fault.NullDereference, book := book, events := [] }
  | some resting_order =>
    modify resting_order price quantity (policyOf (book.node resting_order).side) book

end MatchingEngine

open MatchingEngine

/-! ## Auxiliary definitions for the verification -/

/-- The node stored in slot `h` of the pool. -/
def nodeOf (store : List Order) (h : Nat) : Order := store.getD h default

/-- Sum of the quantities of the nodes of a queue. -/
def queueSum (store : List Order) (q : List Nat) : Nat :=
  (q.map (fun h => (nodeOf store h).quantity)).sum

/-- Replace the level at price `p` of side `s`. -/
def setLevel (lv : Side → List Level) (s : Side) (p : Nat) (l : Level) : Side → List Level :=
  fun s1 => if s1 = s then (lv s).set p l else lv s1

/-- Slot `h` holds a well-formed resting order of side `s` at price `p`, known to the index. -/
structure NodeAt (store : List Order) (idx : Nat → Option Nat) (s : Side) (p h : Nat) : Prop where
  lt : h < store.length
  ppos : 0 < p
  price : (nodeOf store h).price = p
  side : (nodeOf store h).side = s
  qpos : 0 < (nodeOf store h).quantity
  qlt : (nodeOf store h).quantity < 2 ^ 32
  idx : idx (nodeOf store h).id = some h

/-- Invariant tying together the pool, the id index and the two vectors of levels. -/
structure Core (mp : Nat) (store : List Order) (free : List Nat) (idx : Nat → Option Nat)
    (lv : Side → List Level) : Prop where
  len : ∀ s : Side, (lv s).length = mp + 1
  free_nodup : free.Nodup
  free_lt : ∀ h ∈ free, h < store.length
  free_unlinked : ∀ (s : Side) (p : Nat) (l : Level), (lv s)[p]? = some l → ∀ h ∈ l.queue, h ∉ free
  count : free.length + sideSize (lv Side.Buy) + sideSize (lv Side.Sell) = store.length
  queue_nodup : ∀ (s : Side) (p : Nat) (l : Level), (lv s)[p]? = some l → l.queue.Nodup
  nodes : ∀ (s : Side) (p : Nat) (l : Level), (lv s)[p]? = some l → ∀ h ∈ l.queue, NodeAt store idx s p h
  index : ∀ (id h : Nat), idx id = some h → (nodeOf store h).id = id ∧
    ∃ l, (lv (nodeOf store h).side)[(nodeOf store h).price]? = some l ∧ h ∈ l.queue
  total : ∀ (s : Side) (p : Nat) (l : Level), (lv s)[p]? = some l → l.total_quantity = queueSum store l.queue % 2 ^ 32

/-- `max_bid` is the highest price with a non-empty bid level, or 0. -/
structure BidCursor (mp : Nat) (bids : List Level) (max_bid : Nat) : Prop where
  le : max_bid ≤ mp
  above : ∀ (p : Nat) (l : Level), bids[p]? = some l → max_bid < p → l.queue = []
  tight : 0 < max_bid → ∃ l, bids[max_bid]? = some l ∧ l.queue ≠ []

/-- `min_ask` is the lowest price with a non-empty ask level, or `max_price + 1`. -/
structure AskCursor (mp : Nat) (asks : List Level) (min_ask : Nat) : Prop where
  le : min_ask ≤ mp + 1
  below : ∀ (p : Nat) (l : Level), asks[p]? = some l → p < min_ask → l.queue = []
  tight : min_ask ≤ mp → ∃ l, asks[min_ask]? = some l ∧ l.queue ≠ []

/-- The vector of levels of one side. -/
def OrderBook.levels (b : OrderBook) : Side → List Level
  | Side.Buy => b.bids
  | Side.Sell => b.asks

/-- Invariant of the order book for price bound `mp` (`max_price`). -/
structure WF (mp : Nat) (b : OrderBook) : Prop where
  core : Core mp b.resting_orders_pool.store b.resting_orders_pool.free_indices
    b.resting_orders b.levels
  bid : BidCursor mp b.bids b.max_bid
  ask : AskCursor mp b.asks b.min_ask
  not_crossed : 0 < b.max_bid → b.min_ask ≤ mp → b.max_bid < b.min_ask

/-- Book after a fill that leaves the node linked: quantity of node `h` and total of the
level at `(s, p)` lowered by `t`. -/
def OrderBook.requantified (b : OrderBook) (s : Side) (p h t : Nat) (l : Level) : OrderBook :=
  { resting_orders_pool :=
      { store := b.resting_orders_pool.store.set h
          { b.node h with quantity := (b.node h).quantity - t }
        free_indices := b.resting_orders_pool.free_indices }
    resting_orders := b.resting_orders
    bids := match s with
      | Side.Buy => b.bids.set p (l.reduceQuantity t)
      | Side.Sell => b.bids
    max_bid := b.max_bid
    asks := match s with
      | Side.Buy => b.asks
      | Side.Sell => b.asks.set p (l.reduceQuantity t)
    min_ask := b.min_ask }

/-- Book after node `h` has been unlinked from the level at `(s, p)`, its id erased from the
index and its slot freed, before the cursor is re-tightened; `store1` is the store then. -/
def OrderBook.unlinked (b : OrderBook) (s : Side) (p h : Nat) (l : Level)
    (store1 : List Order) : OrderBook :=
  { resting_orders_pool :=
      { store := store1
        free_indices := b.resting_orders_pool.free_indices ++ [h] }
    resting_orders := fun id => if id = (b.node h).id then none else b.resting_orders id
    bids := match s with
      | Side.Buy => b.bids.set p (l.erase h (b.node h).quantity)
      | Side.Sell => b.bids
    max_bid := b.max_bid
    asks := match s with
      | Side.Buy => b.asks
      | Side.Sell => b.asks.set p (l.erase h (b.node h).quantity)
    min_ask := b.min_ask }

/-- Store after the quantity of node `h` has been set to zero by a fill. -/
def zeroed (b : OrderBook) (h : Nat) : List Order :=
  b.resting_orders_pool.store.set h { b.node h with quantity := 0 }

/-- The side a policy matches against. -/
def Policy.opp : Policy → Side
  | Policy.BuyPolicy => Side.Sell
  | Policy.SellPolicy => Side.Buy

/-- The cursor of the side a policy matches against. -/
def Policy.best : Policy → OrderBook → Nat
  | Policy.BuyPolicy, b => b.min_ask
  | Policy.SellPolicy, b => b.max_bid

/-- Two books differ at most in their cursors. -/
structure SameUpToCursors (b1 b2 : OrderBook) : Prop where
  pool : b1.resting_orders_pool = b2.resting_orders_pool
  index : b1.resting_orders = b2.resting_orders
  bids : b1.bids = b2.bids
  asks : b1.asks = b2.asks

/-- The cursor matched against only moves away from the other side; the other stays. -/
def CursorsAdvance (pol : Policy) (b b1 : OrderBook) : Prop :=
  match pol with
  | Policy.BuyPolicy => b.min_ask ≤ b1.min_ask ∧ b1.max_bid = b.max_bid
  | Policy.SellPolicy => b1.max_bid ≤ b.max_bid ∧ b1.min_ask = b.min_ask

/-- Book after `insertBid` / `insertAsk` (by the side of `o`) has linked `o` in slot `h`. -/
def OrderBook.inserted (b : OrderBook) (o : Order) (h : Nat) (fs : List Nat) (l : Level) :
    OrderBook :=
  { resting_orders_pool := { store := b.resting_orders_pool.store.set h o, free_indices := fs }
    resting_orders := OrderBook.emplace b.resting_orders o.id h
    bids := match o.side with
      | Side.Buy => b.bids.set o.price (l.add h o.quantity)
      | Side.Sell => b.bids
    max_bid := match o.side with
      | Side.Buy => if o.price > b.max_bid then o.price else b.max_bid
      | Side.Sell => b.max_bid
    asks := match o.side with
      | Side.Buy => b.asks
      | Side.Sell => b.asks.set o.price (l.add h o.quantity)
    min_ask := match o.side with
      | Side.Buy => b.min_ask
      | Side.Sell => if o.price < b.min_ask then o.price else b.min_ask }

/-- The incoming order does not cross the opposite side of the book. -/
def NonCrossing (mp : Nat) (b : OrderBook) (o : Order) : Prop :=
  match o.side with
  | Side.Buy => b.min_ask ≤ mp → o.price < b.min_ask
  | Side.Sell => 0 < b.max_bid → b.max_bid < o.price

/-- What the loop of `match` guarantees when it is left. -/
structure LoopPost (mp : Nat) (pol : Policy) (o : Order) (b : OrderBook) (r : LoopResult) :
    Prop where
  fault : r.fault = none
  wf : WF mp r.book
  done : ¬ (r.order.quantity > 0 ∧ pol.canMatch r.order r.book = true
    ∧ pol.hasMatchingOrders r.book = true)
  id : r.order.id = o.id
  price : r.order.price = o.price
  side : r.order.side = o.side
  qle : r.order.quantity ≤ o.quantity
  index : ∀ id : Nat, b.resting_orders id = none → r.book.resting_orders id = none
  free : b.resting_orders_pool.free_indices.length ≤ r.book.resting_orders_pool.free_indices.length

/-- A cursor only moves away from the other side when a node is unlinked. -/
def CursorsRetreat (b b1 : OrderBook) : Prop :=
  b1.max_bid ≤ b.max_bid ∧ b.min_ask ≤ b1.min_ask

/-- A call of the public interface of the engine. -/
inductive Call where
  | submit (order : Order)
  | cancel (order_id : Nat)
  | modify (order_id price quantity : Nat)

/-- Effect of a call on a book. -/
def Call.run : Call → OrderBook → Outcome
  | Call.submit order, book => submitOrder order book
  | Call.cancel order_id, book => cancelOrder order_id book
  | Call.modify order_id price quantity, book => modifyOrder order_id price quantity book

/-- Preconditions of a call on book `b` with price bound `mp`: a submitted order has a
quantity in `[1, 2^32)`, a price in `[1, mp]`, an id that is not live, and a pool slot is
available when its remainder rests; a cancel or modify names a live id, and the new
quantity and price of a modify are in the same ranges. -/
def Call.valid (mp : Nat) (b : OrderBook) : Call → Prop
  | Call.submit o =>
    0 < o.quantity ∧ o.quantity < 2 ^ 32 ∧ 1 ≤ o.price ∧ o.price ≤ mp ∧ b.find o.id = none
      ∧ (submitOrder o b).fault ≠ some Fault.PoolExhausted
  | Call.cancel id => (b.find id).isSome = true
  | Call.modify id p q =>
    (b.find id).isSome = true ∧ 0 < q ∧ q < 2 ^ 32 ∧ 1 ≤ p ∧ p ≤ mp

instance (mp : Nat) (b : OrderBook) (c : Call) : Decidable (c.valid mp b) := by
  cases c <;> unfold Call.valid <;> infer_instance

/-- Books reachable from the empty book of the given capacity and price bound by calls
that meet their preconditions. -/
inductive Reachable (capacity mp : Nat) : OrderBook → Prop where
  | init : Reachable capacity mp (OrderBook.init capacity mp)
  | step {b : OrderBook} (c : Call) : Reachable capacity mp b → c.valid mp b →
      Reachable capacity mp (c.run b).book

/-- Book of capacity 4 and price bound 5 after `Sell 10 @ 3` (id 1) and `Buy 10 @ 2` (id 2). -/
def twoSidedBook : OrderBook :=
  ((Call.submit ⟨2, 10, 2, Side.Buy⟩).run
    ((Call.submit ⟨1, 10, 3, Side.Sell⟩).run (OrderBook.init 4 5)).book).book

/-- Quantity of an `on_trade` event, 0 for the other events. -/
def Event.tradeQty : Event → Nat
  | Event.trade _ _ _ qty => qty
  | _ => 0

/-- Quantity carried by an `on_added` event, 0 for the other events. -/
def Event.addedQty : Event → Nat
  | Event.added order => order.quantity
  | _ => 0

/-- Sum of the quantities of the `on_trade` events. -/
def tradedQuantity (events : List Event) : Nat := (events.map Event.tradeQty).sum

/-- Quantity carried by the `on_added` events (0 when there is none). -/
def addedQuantity (events : List Event) : Nat := (events.map Event.addedQty).sum

/-- The event is an `on_trade` with the given incoming id. -/
def Event.isTradeOf (incoming_id : Nat) : Event → Bool
  | Event.trade i _ _ _ => decide (i = incoming_id)
  | _ => false

/-- Book of capacity 100 and price bound 200 with one order, `Sell 50 @ 100` (id 1). -/
def oneSellBook : OrderBook :=
  ((Call.submit ⟨1, 50, 100, Side.Sell⟩).run (OrderBook.init 100 200)).book

/-- Events of the loop of `match`: trades of the incoming id whose quantities, with the
quantity left on the order, add up to the quantity of the order. -/
structure LoopEvents (o : Order) (r : LoopResult) : Prop where
  trades : ∀ e ∈ r.events, e.isTradeOf o.id = true
  conserved : o.quantity = tradedQuantity r.events + r.order.quantity

/-- When the front order of the best opposite level has exactly the quantity of the incoming
order, the loop of `match` makes one trade and leaves nothing on the incoming order. -/
def ExactFill (pol : Policy) (o : Order) (b : OrderBook) (r : LoopResult) : Prop :=
  (o.quantity = 0 → r.events = [] ∧ r.order.quantity = 0)
    ∧ ∀ (l : Level) (h : Nat) (tl : List Nat), pol.canMatch o b = true →
        pol.hasMatchingOrders b = true → (b.levels pol.opp)[pol.best b]? = some l →
        l.queue = h :: tl → (b.node h).quantity = o.quantity → 0 < o.quantity →
        r.events = [Event.trade o.id (b.node h).id (b.node h).price o.quantity]
          ∧ r.order.quantity = 0

/-- Book of capacity 2 and price bound 1 after two orders `Sell 2^31 @ 1` (ids 1 and 2). -/
def overflowBook : OrderBook :=
  ((Call.submit ⟨2, 2147483648, 1, Side.Sell⟩).run
    ((Call.submit ⟨1, 2147483648, 1, Side.Sell⟩).run (OrderBook.init 2 1)).book).book

/-- Quantity of an `on_trade` event against the resting id `id`, 0 for any other event. -/
def Event.qtyAgainst (id : Nat) : Event → Nat
  | Event.trade _ resting_id _ qty => if resting_id = id then qty else 0
  | _ => 0

/-- Sum of the quantities of the trades against the resting id `id`. -/
def tradedAgainst (id : Nat) (events : List Event) : Nat :=
  (events.map (Event.qtyAgainst id)).sum

/-- Price reported by an `on_trade` event. -/
def Event.tradePrice : Event → Option Nat
  | Event.trade _ _ price _ => some price
  | _ => none

/-- Prices reported by the `on_trade` events, in order. -/
def tradePrices (events : List Event) : List Nat := events.filterMap Event.tradePrice

/-- Price `a` is strictly better than price `c` for the taker served by the policy. -/
def Policy.better : Policy → Nat → Nat → Prop
  | Policy.BuyPolicy, a, c => a < c
  | Policy.SellPolicy, a, c => c < a

/-- Price `a` is at least as good as price `c` for the taker served by the policy. -/
def Policy.noWorse : Policy → Nat → Nat → Prop
  | Policy.BuyPolicy, a, c => a ≤ c
  | Policy.SellPolicy, a, c => c ≤ a

/-- Node `x` has priority over node `c` on the side the policy matches against: it rests at
a strictly better price, or at the same price and earlier in the queue of the level. -/
def Precedes (b : OrderBook) (pol : Policy) (x c : Nat) : Prop :=
  ∃ (px pc : Nat) (lx lc : Level), (b.levels pol.opp)[px]? = some lx ∧ x ∈ lx.queue
    ∧ (b.levels pol.opp)[pc]? = some lc ∧ c ∈ lc.queue
    ∧ (pol.better px pc
      ∨ (px = pc ∧ ∃ (pre mid post : List Nat), lx.queue = pre ++ x :: mid ++ c :: post))

/-- Facts about the book after the front node `h` of the best level has been filled
entirely and unlinked. -/
structure AfterFull (b b1 : OrderBook) (pol : Policy) (h : Nat) (l : Level) : Prop where
  levels : b1.levels = setLevel b.levels pol.opp (pol.best b) (l.erase h (b.node h).quantity)
  find : ∀ id : Nat, b1.find id = if id = (b.node h).id then none else b.find id
  node : ∀ y : Nat, y ≠ h → b1.node y = b.node y

/-- Trades of the loop of `match` are made against orders that rest on the opposite side
when the loop starts, at their price, and in order of priority. -/
structure LoopPriority (pol : Policy) (b : OrderBook) (r : LoopResult) : Prop where
  live : ∀ (i rid pr q : Nat), Event.trade i rid pr q ∈ r.events →
    ∃ (x : Nat) (l : Level), b.find rid = some x ∧ (b.levels pol.opp)[pr]? = some l
      ∧ x ∈ l.queue
  prior : ∀ (x c : Nat), Precedes b pol x c →
    ∀ (ev1 : List Event) (i pr q : Nat) (ev2 : List Event),
      r.events = ev1 ++ Event.trade i (b.node c).id pr q :: ev2 →
      tradedAgainst (b.node x).id ev1 = (b.node x).quantity

/-- Prices of the trades of the loop of `match`: from the best opposite price on, never
getting better, never beyond the limit of the incoming order. -/
structure LoopPrices (pol : Policy) (o : Order) (b : OrderBook) (r : LoopResult) : Prop where
  sorted : (tradePrices r.events).Pairwise pol.noWorse
  bounds : ∀ pr ∈ tradePrices r.events, pol.noWorse (pol.best b) pr ∧ pol.noWorse pr o.price

/-- A front node that the loop of `match` has not filled entirely is still the front of its
level, with its quantity lowered by what was traded against it. -/
structure LoopFront (pol : Policy) (b : OrderBook) (r : LoopResult) : Prop where
  front : ∀ (p : Nat) (l : Level) (a : Nat) (tl : List Nat),
    (b.levels pol.opp)[p]? = some l → l.queue = a :: tl →
    tradedAgainst (b.node a).id r.events < (b.node a).quantity →
    ∃ l1, (r.book.levels pol.opp)[p]? = some l1 ∧ l1.queue = a :: tl
      ∧ (r.book.node a).quantity + tradedAgainst (b.node a).id r.events = (b.node a).quantity
      ∧ (r.book.node a).id = (b.node a).id

/-- Book of capacity 4 and price bound 5 with `Sell 5 @ 3` (id 1) then `Sell 5 @ 3` (id 2). -/
def fifoBook : OrderBook :=
  ((Call.submit ⟨2, 5, 3, Side.Sell⟩).run
    ((Call.submit ⟨1, 5, 3, Side.Sell⟩).run (OrderBook.init 4 5)).book).book

/-- Book of capacity 100 and price bound 200 with `Sell 10 @ 100` (id 1), `Sell 10 @ 101`
(id 2) and `Sell 10 @ 102` (id 3). -/
def sweepBook : OrderBook :=
  ((Call.submit ⟨3, 10, 102, Side.Sell⟩).run
    ((Call.submit ⟨2, 10, 101, Side.Sell⟩).run
      ((Call.submit ⟨1, 10, 100, Side.Sell⟩).run (OrderBook.init 100 200)).book).book).book

/-- Amend as the specification words it: cancel the resting order without emitting
`on_canceled` (`removeBid` / `removeAsk` by the side of the node), then submit a fresh order
with the same id, the new price, the new quantity and the original side. -/
def cancelThenSubmit (order_id price quantity : Nat) (book : OrderBook) : Outcome :=
  match book.find order_id with
  | none => { fault := some Fault.NullDereference, book := book, events := [] }
  | some resting_order =>
    let side := (book.node resting_order).side
    let removed :=
      match side with
      | Side.Buy => book.removeBid resting_order
      | Side.Sell => book.removeAsk resting_order
    match removed with
    | Except.error f => { fault := some f, book := book, events := [] }
    | Except.ok book1 =>
      submitOrder { id := order_id, quantity := quantity, price := price, side := side } book1

/-- Book of capacity 100 and price bound 200 with `Sell 50 @ 100` (id 1) and `Buy 50 @ 90`
(id 2). -/
def spreadBook : OrderBook :=
  ((Call.submit ⟨2, 50, 90, Side.Buy⟩).run
    ((Call.submit ⟨1, 50, 100, Side.Sell⟩).run (OrderBook.init 100 200)).book).book

/-- The error kinds of the taxonomy of the specification. -/
inductive ErrorKind where
  | PoolExhausted
  | UnknownOrder
  | InvalidOrder
deriving DecidableEq

/-- The error kind a fault surfaces to the caller: the exception thrown by
`ObjectPool::allocate` is the only error of the source a caller can observe; the other
faults are undefined behaviour or an abort, not an error kind. -/
def Fault.errorKind : Fault → Option ErrorKind
  | Fault.PoolExhausted => some ErrorKind.PoolExhausted
  | _ => none

/-- The error kind with which a call failed, if any. -/
def Outcome.errorKind (out : Outcome) : Option ErrorKind := out.fault.bind Fault.errorKind

/-- Book of capacity 100 and price bound 200 with one order, `Sell 100 @ 100` (id 1). -/
def restingSellBook : OrderBook :=
  ((Call.submit ⟨1, 100, 100, Side.Sell⟩).run (OrderBook.init 100 200)).book

/-- When the loop of `match` has traded and left a remainder, a slot is free. -/
def UntouchedOrSlot (o : Order) (b : OrderBook) (r : LoopResult) : Prop :=
  (r.events = [] ∧ r.book = b ∧ r.order = o) ∨ r.order.quantity = 0
    ∨ r.book.resting_orders_pool.free_indices ≠ []

/-- Book of capacity 1 and price bound 5 with one order, `Sell 10 @ 3` (id 1): the pool has
no free slot. -/
def fullPoolBook : OrderBook :=
  ((Call.submit ⟨1, 10, 3, Side.Sell⟩).run (OrderBook.init 1 5)).book

/-- `k` calls of `allocate()` in a row: the handles returned, in order, and the pool left;
the first exception ends the run. -/
def ObjectPool.allocateMany {α : Type} : Nat → ObjectPool α → Except Fault (List Nat × ObjectPool α)
  | 0, pool => Except.ok ([], pool)
  | k + 1, pool =>
    match pool.allocate with
    | Except.error f => Except.error f
    | Except.ok (h, pool1) =>
      match ObjectPool.allocateMany k pool1 with
      | Except.error f => Except.error f
      | Except.ok (hs, pool2) => Except.ok (h :: hs, pool2)

/-- Pools reached from a fresh pool of size `n` by `allocate`, `deallocate` and writes
through handles, with the list of the handles that are outstanding, under the discipline
that only an outstanding handle is released or written through. -/
inductive PoolReach {α : Type} [Inhabited α] (n : Nat) : ObjectPool α → List Nat → Prop where
  | fresh : PoolReach n (ObjectPool.init n) []
  | acquire {pool pool1 : ObjectPool α} {out : List Nat} {h : Nat} :
      PoolReach n pool out → pool.allocate = Except.ok (h, pool1) → PoolReach n pool1 (h :: out)
  | release {pool : ObjectPool α} {out : List Nat} {h : Nat} :
      PoolReach n pool out → h ∈ out → PoolReach n (pool.deallocate h) (out.erase h)
  | store {pool : ObjectPool α} {out : List Nat} {h : Nat} (v : α) :
      PoolReach n pool out → h ∈ out → PoolReach n (pool.write h v) out

/-- Invariant of the pool: the free list and the outstanding handles together hold every
slot index below `n` exactly once. -/
structure PoolInv {α : Type} (n : Nat) (pool : ObjectPool α) (out : List Nat) : Prop where
  size : pool.store.length = n
  nodup : (pool.free_indices ++ out).Nodup
  bound : ∀ h ∈ pool.free_indices ++ out, h < n
  count : pool.free_indices.length + out.length = n

/-- Pool of the reuse test: size 2, both slots acquired (handles 1 then 0), the value 1
written through the first handle. -/
def reusePool : ObjectPool Nat := { store := [0, 1], free_indices := [] }

/-- A call on the queue: `push(item)`, or `pop(item)` where `item` is the value the output
argument holds before the call. -/
inductive QueueOp (α : Type) where
  | push (item : α)
  | pop (item : α)

/-- Results of a sequence of calls on the ring buffer: for each call the value returned,
and the value of its argument `item` after the call. -/
def LockFreeQueue.run {α : Type} [Inhabited α] : LockFreeQueue α → List (QueueOp α) → List (Bool × α)
  | _, [] => []
  | q, QueueOp.push item :: ops => ((q.push item).1, item) :: LockFreeQueue.run (q.push item).2 ops
  | q, QueueOp.pop item :: ops =>
    ((q.pop item).1, (q.pop item).2.1) :: LockFreeQueue.run (q.pop item).2.2 ops

/-- `push` on a bounded FIFO queue of the given capacity, as the specification words it:
refused, with the contents unchanged, iff `capacity` values are stored; else the value is
appended. -/
def BoundedFifo.push {α : Type} (capacity : Nat) (s : List α) (item : α) : Bool × List α :=
  if s.length = capacity then (false, s) else (true, s ++ [item])

/-- `pop` on a bounded FIFO queue, as the specification words it: refused, with the output
argument untouched, iff the queue is empty; else the oldest value is returned and
removed. -/
def BoundedFifo.pop {α : Type} (s : List α) (item : α) : Bool × α × List α :=
  match s with
  | [] => (false, item, [])
  | oldest :: rest => (true, oldest, rest)

/-- Results of a sequence of calls on the bounded FIFO queue. -/
def BoundedFifo.run {α : Type} (capacity : Nat) : List α → List (QueueOp α) → List (Bool × α)
  | _, [] => []
  | s, QueueOp.push item :: ops =>
    ((BoundedFifo.push capacity s item).1, item)
      :: BoundedFifo.run capacity (BoundedFifo.push capacity s item).2 ops
  | s, QueueOp.pop item :: ops =>
    ((BoundedFifo.pop s item).1, (BoundedFifo.pop s item).2.1)
      :: BoundedFifo.run capacity (BoundedFifo.pop s item).2.2 ops

/-- Number of values stored in the ring buffer. -/
def LockFreeQueue.count {α : Type} (q : LockFreeQueue α) : Nat :=
  (q.head + q.buffer.length - q.tail) % q.buffer.length

/-- The values stored in the ring buffer, oldest first: the cells from `tail` up to
`head`, around the end of the buffer. -/
def LockFreeQueue.contents {α : Type} [Inhabited α] (q : LockFreeQueue α) : List α :=
  (List.range q.count).map (fun i => q.buffer.getD ((q.tail + i) % q.buffer.length) default)

/-- Invariant of the ring buffer of size `n`. -/
structure QueueInv {α : Type} (n : Nat) (q : LockFreeQueue α) : Prop where
  size : q.buffer.length = n
  head_lt : q.head < n
  tail_lt : q.tail < n

/-- Queues reached from a fresh ring buffer of size `n` by `push` and `pop` calls. -/
inductive QueueReach {α : Type} [Inhabited α] (n : Nat) : LockFreeQueue α → Prop where
  | fresh : QueueReach n (LockFreeQueue.init n)
  | pushed {q : LockFreeQueue α} (item : α) : QueueReach n q → QueueReach n (q.push item).2
  | popped {q : LockFreeQueue α} (item : α) : QueueReach n q → QueueReach n (q.pop item).2.2

/-- Preconditions of a call, the state of the pool left aside: a submitted order has a
quantity in `[1, 2^32)`, a price in `[1, mp]` and an id that is not live; a cancel or modify
names a live id, and the new quantity and price of a modify are in the same ranges. -/
def Call.precondition (mp : Nat) (b : OrderBook) : Call → Prop
  | Call.submit o =>
    0 < o.quantity ∧ o.quantity < 2 ^ 32 ∧ 1 ≤ o.price ∧ o.price ≤ mp ∧ b.find o.id = none
  | Call.cancel id => (b.find id).isSome = true
  | Call.modify id p q =>
    (b.find id).isSome = true ∧ 0 < q ∧ q < 2 ^ 32 ∧ 1 ≤ p ∧ p ≤ mp

instance (mp : Nat) (b : OrderBook) (c : Call) : Decidable (c.precondition mp b) := by
  cases c <;> unfold Call.precondition <;> infer_instance

/-- An `on_trade` event names a node that is a resting order of book `b`: its id is found in
the index, the node found carries that id and the price reported, the price is an index of
the vectors of levels, and the quantity traded is positive and at most the quantity of the
node. Holds of every event that is not a trade. -/
def Event.matchesLive (mp : Nat) (b : OrderBook) : Event → Prop
  | Event.trade _ resting_id price qty =>
    match b.find resting_id with
    | none => False
    | some h =>
      (b.node h).id = resting_id ∧ (b.node h).price = price ∧ 1 ≤ price ∧ price ≤ mp
        ∧ 0 < qty ∧ qty ≤ (b.node h).quantity
  | _ => True

instance (mp : Nat) (b : OrderBook) (e : Event) : Decidable (e.matchesLive mp b) := by
  cases e with
  | trade i rid price qty =>
    simp only [Event.matchesLive]
    split <;> infer_instance
  | added o => exact instDecidableTrue
  | canceled id => exact instDecidableTrue
  | modified o => exact instDecidableTrue

/-- Number of resting orders of the book: the nodes linked in the levels of both sides. -/
def OrderBook.restingCount (b : OrderBook) : Nat := sideSize b.bids + sideSize b.asks

/-! # Verification -/

/-! ## Arithmetic on `uint32_t` -/

theorem sub32_of_le {a b : Nat} (hb : b ≤ a) (ha : a < 2 ^ 32) : sub32 a b = a - b := by
  unfold sub32
  have hb2 : b % 2 ^ 32 = b := Nat.mod_eq_of_lt (by omega)
  rw [hb2]
  have : a + (2 ^ 32 - b) = (a - b) + 2 ^ 32 := by omega
  rw [this, Nat.add_mod_right]
  exact Nat.mod_eq_of_lt (by omega)

theorem sub32_mod_of_le {n t : Nat} (ht : t ≤ n) (ht2 : t < 2 ^ 32) :
    sub32 (n % 2 ^ 32) t = (n - t) % 2 ^ 32 := by
  unfold sub32
  have hb2 : t % 2 ^ 32 = t := Nat.mod_eq_of_lt ht2
  rw [hb2, Nat.mod_add_mod]
  have : n + (2 ^ 32 - t) = (n - t) + 2 ^ 32 := by omega
  rw [this, Nat.add_mod_right]

theorem add32_mod (n q : Nat) : add32 (n % 2 ^ 32) q = (n + q) % 2 ^ 32 := by
  unfold add32
  rw [Nat.mod_add_mod]

theorem sub32_add32_cancel {t q : Nat} (ht : t < 2 ^ 32) : sub32 (add32 t q) q = t := by
  unfold sub32 add32
  rw [Nat.mod_add_mod]
  have h1 : q % 2 ^ 32 ≤ q := Nat.mod_le _ _
  have h2 : q % 2 ^ 32 < 2 ^ 32 := Nat.mod_lt _ (by norm_num)
  have h3 : t + q + (2 ^ 32 - q % 2 ^ 32) = t + (2 ^ 32 + (q - q % 2 ^ 32)) := by omega
  rw [h3]
  have h4 : (2 ^ 32 : Nat) ∣ q - q % 2 ^ 32 := Nat.dvd_sub_mod q
  obtain ⟨k, hk⟩ := h4
  rw [hk]
  have h5 : t + (2 ^ 32 + 2 ^ 32 * k) = t + 2 ^ 32 * (k + 1) := by ring
  rw [h5, Nat.add_mul_mod_self_left]
  exact Nat.mod_eq_of_lt ht

/-! ## Vectors of levels -/

theorem levelAt_eq_ok {levels : List Level} {p : Nat} {l : Level} :
    levelAt levels p = Except.ok l ↔ levels[p]? = some l := by
  unfold levelAt
  cases h : levels[p]? <;> simp

theorem levelAt_of_get {levels : List Level} {p : Nat} {l : Level} (h : levels[p]? = some l) :
    levelAt levels p = Except.ok l := levelAt_eq_ok.mpr h

theorem sideSize_set {levels : List Level} {p : Nat} {l k : Level} (h : levels[p]? = some l) :
    sideSize (levels.set p k) + l.queue.length = sideSize levels + k.queue.length := by
  induction levels generalizing p with
  | nil => simp at h
  | cons x xs ih =>
    cases p with
    | zero =>
      simp at h
      subst h
      simp [sideSize]
      omega
    | succ n =>
      simp at h
      have := ih h
      simp [sideSize] at this ⊢
      omega

theorem sideSize_replicate (n : Nat) : sideSize (List.replicate n Level.init) = 0 := by
  induction n with
  | zero => simp [sideSize]
  | succ n ih => simp [sideSize, List.replicate_succ, Level.init] at ih ⊢

theorem getD_set_ne {α : Type} (xs : List α) {i j : Nat} (h : i ≠ j) (a d : α) :
    (xs.set i a).getD j d = xs.getD j d := by
  simp [List.getD_eq_getElem?_getD, List.getElem?_set_ne h]

theorem getD_set_self {α : Type} (xs : List α) {i : Nat} (h : i < xs.length) (a d : α) :
    (xs.set i a).getD i d = a := by
  simp [List.getD_eq_getElem?_getD, List.getElem?_set, h]

/-! ## Well-formedness of the node store, the free list, the index and the levels -/

theorem setLevel_get_self {lv : Side → List Level} {s : Side} {p : Nat} {l l1 : Level}
    (h : (lv s)[p]? = some l) : (setLevel lv s p l1 s)[p]? = some l1 := by
  have hlt : p < (lv s).length := (List.getElem?_eq_some.mp h).1
  simp [setLevel, List.getElem?_set, hlt]

theorem setLevel_get_other {lv : Side → List Level} {s s1 : Side} {p p1 : Nat} {l1 : Level}
    (h : ¬ (s1 = s ∧ p1 = p)) : (setLevel lv s p l1 s1)[p1]? = (lv s1)[p1]? := by
  unfold setLevel
  by_cases hs : s1 = s
  · subst hs
    have hp : p ≠ p1 := fun e => h ⟨rfl, e.symm⟩
    simp [List.getElem?_set_ne hp]
  · simp [hs]

theorem setLevel_cases {lv : Side → List Level} {s s1 : Side} {p p1 : Nat} {l l1 l2 : Level}
    (h : (lv s)[p]? = some l) (h2 : (setLevel lv s p l1 s1)[p1]? = some l2) :
    (s1 = s ∧ p1 = p ∧ l2 = l1) ∨ (¬ (s1 = s ∧ p1 = p) ∧ (lv s1)[p1]? = some l2) := by
  by_cases hc : s1 = s ∧ p1 = p
  · obtain ⟨rfl, rfl⟩ := hc
    rw [setLevel_get_self h] at h2
    exact Or.inl ⟨rfl, rfl, (Option.some.inj h2).symm⟩
  · rw [setLevel_get_other hc] at h2
    exact Or.inr ⟨hc, h2⟩

theorem setLevel_length (lv : Side → List Level) (s : Side) (p : Nat) (l1 : Level) (s1 : Side) :
    (setLevel lv s p l1 s1).length = (lv s1).length := by
  unfold setLevel
  split
  · next h => subst h; simp
  · rfl

theorem setLevel_size {lv : Side → List Level} {s : Side} {p : Nat} {l k : Level}
    (h : (lv s)[p]? = some l) :
    sideSize (setLevel lv s p k Side.Buy) + sideSize (setLevel lv s p k Side.Sell)
      + l.queue.length
      = sideSize (lv Side.Buy) + sideSize (lv Side.Sell) + k.queue.length := by
  have := sideSize_set (k := k) h
  cases s <;> simp [setLevel] <;> omega

theorem nodeOf_set_ne (store : List Order) {h h1 : Nat} (hne : h1 ≠ h) (o : Order) :
    nodeOf (store.set h o) h1 = nodeOf store h1 := by
  unfold nodeOf
  exact getD_set_ne store (Ne.symm hne) o default

theorem nodeOf_set_self (store : List Order) {h : Nat} (hlt : h < store.length) (o : Order) :
    nodeOf (store.set h o) h = o := by
  unfold nodeOf
  exact getD_set_self store hlt o default

theorem queueSum_congr {store store1 : List Order} {q : List Nat}
    (h : ∀ x ∈ q, nodeOf store1 x = nodeOf store x) : queueSum store1 q = queueSum store q := by
  unfold queueSum
  congr 1
  apply List.map_congr_left
  intro x hx
  rw [h x hx]

theorem queueSum_append (store : List Order) (q1 q2 : List Nat) :
    queueSum store (q1 ++ q2) = queueSum store q1 + queueSum store q2 := by
  simp [queueSum]

theorem queueSum_erase (store : List Order) {q : List Nat} {h : Nat} (hm : h ∈ q) :
    (nodeOf store h).quantity + queueSum store (q.erase h) = queueSum store q := by
  induction q with
  | nil => simp at hm
  | cons x xs ih =>
    by_cases hx : x = h
    · subst hx
      simp [queueSum]
    · have hm2 : h ∈ xs := by
        rcases List.mem_cons.mp hm with e | e
        · exact absurd e.symm hx
        · exact e
      have := ih hm2
      rw [List.erase_cons_tail (by simpa using hx)]
      simp [queueSum] at this ⊢
      omega

/-- A linked node lies in the level given by its own side and price, so in one level only. -/
theorem Core.level_unique {mp : Nat} {store : List Order} {free : List Nat}
    {idx : Nat → Option Nat} {lv : Side → List Level} (hc : Core mp store free idx lv)
    {s s1 : Side} {p p1 : Nat} {l l1 : Level} {h : Nat}
    (hl : (lv s)[p]? = some l) (hh : h ∈ l.queue)
    (hl1 : (lv s1)[p1]? = some l1) (hh1 : h ∈ l1.queue) : s1 = s ∧ p1 = p := by
  have n := hc.nodes s p l hl h hh
  have n1 := hc.nodes s1 p1 l1 hl1 h hh1
  exact ⟨n1.side.symm.trans n.side, n1.price.symm.trans n.price⟩

theorem emplace_self {idx : Nat → Option Nat} {id h : Nat} (hn : idx id = none) :
    OrderBook.emplace idx id h id = some h := by
  simp [OrderBook.emplace, hn]

theorem emplace_other {idx : Nat → Option Nat} {id h k : Nat} (hne : k ≠ id) :
    OrderBook.emplace idx id h k = idx k := by
  unfold OrderBook.emplace
  cases idx id <;> simp [hne]

/-- Linking a fresh node at the tail of the level of its price keeps the invariant
(`insertBid` / `insertAsk` without the cursor update). -/
theorem Core.insert {mp : Nat} {store : List Order} {free fs : List Nat}
    {idx : Nat → Option Nat} {lv : Side → List Level} (hc : Core mp store free idx lv)
    {h : Nat} (hfree : free = fs ++ [h]) {o : Order} {l : Level}
    (hp : 0 < o.price) (hq : 0 < o.quantity) (hq2 : o.quantity < 2 ^ 32)
    (hid : idx o.id = none) (hl : (lv o.side)[o.price]? = some l) :
    Core mp (store.set h o) fs (OrderBook.emplace idx o.id h)
      (setLevel lv o.side o.price (l.add h o.quantity)) := by
  have hhfree : h ∈ free := by simp [hfree]
  have hhlt : h < store.length := hc.free_lt h hhfree
  have hnd : (fs ++ [h]).Nodup := hfree ▸ hc.free_nodup
  have hhfs : h ∉ fs := by
    intro hm
    have := List.nodup_append.mp hnd
    exact this.2.2 hm (by simp)
  have hsub : ∀ x ∈ fs, x ∈ free := by intro x hx; simp [hfree, hx]
  have hunl : ∀ (s : Side) (p : Nat) (l0 : Level), (lv s)[p]? = some l0 → h ∉ l0.queue :=
    fun s p l0 h0 hm => hc.free_unlinked s p l0 h0 h hm hhfree
  have hold : ∀ (s : Side) (p : Nat) (l0 : Level), (lv s)[p]? = some l0 → ∀ x ∈ l0.queue,
      nodeOf (store.set h o) x = nodeOf store x := by
    intro s p l0 h0 x hx
    apply nodeOf_set_ne
    intro e
    exact hunl s p l0 h0 (e ▸ hx)
  have hnode : ∀ (s : Side) (p : Nat) (l0 : Level), (lv s)[p]? = some l0 → ∀ x ∈ l0.queue,
      NodeAt (store.set h o) (OrderBook.emplace idx o.id h) s p x := by
    intro s p l0 h0 x hx
    have n := hc.nodes s p l0 h0 x hx
    have e := hold s p l0 h0 x hx
    refine ⟨by simpa using n.lt, n.ppos, by rw [e]; exact n.price, by rw [e]; exact n.side,
      by rw [e]; exact n.qpos, by rw [e]; exact n.qlt, ?_⟩
    rw [e, emplace_other]
    · exact n.idx
    · intro eq
      have := n.idx
      rw [eq, hid] at this
      exact Option.noConfusion this
  have hnew : NodeAt (store.set h o) (OrderBook.emplace idx o.id h) o.side o.price h := by
    have e := nodeOf_set_self store hhlt o
    refine ⟨by simpa using hhlt, hp, by rw [e], by rw [e], by rw [e]; exact hq,
      by rw [e]; exact hq2, ?_⟩
    rw [e]
    exact emplace_self hid
  constructor
  · intro s
    rw [setLevel_length]
    exact hc.len s
  · exact (List.nodup_append.mp hnd).1
  · intro x hx
    simpa using hc.free_lt x (hsub x hx)
  · intro s p l2 h2 x hx hxf
    rcases setLevel_cases hl h2 with ⟨rfl, rfl, rfl⟩ | ⟨_, h3⟩
    · simp [Level.add] at hx
      rcases hx with hx | rfl
      · exact hc.free_unlinked _ _ l hl x hx (hsub x hxf)
      · exact hhfs hxf
    · exact hc.free_unlinked s p l2 h3 x hx (hsub x hxf)
  · have h1 := setLevel_size (k := l.add h o.quantity) hl
    have h2 := hc.count
    simp [hfree, Level.add] at h1 h2 ⊢
    omega
  · intro s p l2 h2
    rcases setLevel_cases hl h2 with ⟨rfl, rfl, rfl⟩ | ⟨_, h3⟩
    · simp only [Level.add]
      apply List.Nodup.append (hc.queue_nodup _ _ l hl) (by simp)
      simp
      exact hunl _ _ l hl
    · exact hc.queue_nodup s p l2 h3
  · intro s p l2 h2 x hx
    rcases setLevel_cases hl h2 with ⟨rfl, rfl, rfl⟩ | ⟨_, h3⟩
    · simp [Level.add] at hx
      rcases hx with hx | rfl
      · exact hnode _ _ l hl x hx
      · exact hnew
    · exact hnode s p l2 h3 x hx
  · intro id x hx
    by_cases hidx : id = o.id
    · subst hidx
      rw [emplace_self hid] at hx
      have hx2 : h = x := Option.some.inj hx
      subst hx2
      rw [nodeOf_set_self store hhlt o]
      refine ⟨rfl, l.add h o.quantity, setLevel_get_self hl, ?_⟩
      simp [Level.add]
    · rw [emplace_other hidx] at hx
      obtain ⟨h1, l0, h2, h3⟩ := hc.index id x hx
      have e := hold _ _ l0 h2 x h3
      rw [e]
      refine ⟨h1, ?_⟩
      by_cases hcase : (nodeOf store x).side = o.side ∧ (nodeOf store x).price = o.price
      · rw [hcase.1, hcase.2] at h2 ⊢
        rw [hl] at h2
        have : l = l0 := Option.some.inj h2
        subst this
        refine ⟨l.add h o.quantity, setLevel_get_self hl, ?_⟩
        simp [Level.add, h3]
      · refine ⟨l0, ?_, h3⟩
        rw [setLevel_get_other hcase]
        exact h2
  · intro s p l2 h2
    rcases setLevel_cases hl h2 with ⟨rfl, rfl, rfl⟩ | ⟨_, h3⟩
    · simp only [Level.add]
      rw [hc.total _ _ l hl, add32_mod, queueSum_append]
      rw [queueSum_congr (hold _ _ l hl)]
      simp [queueSum, nodeOf_set_self store hhlt o]
    · rw [hc.total s p l2 h3, queueSum_congr (hold _ _ l2 h3)]

theorem queueSum_le_of_mem (store : List Order) {q : List Nat} {h : Nat} (hm : h ∈ q) :
    (nodeOf store h).quantity ≤ queueSum store q := by
  have := queueSum_erase store hm
  omega

/-- Lowering the quantity of a linked node by `t`, less than its quantity, together with the
total of its level keeps the invariant (`fillBidOrder` / `fillAskOrder`, node left linked). -/
theorem Core.requantify {mp : Nat} {store : List Order} {free : List Nat}
    {idx : Nat → Option Nat} {lv : Side → List Level} (hc : Core mp store free idx lv)
    {s : Side} {p h : Nat} {l : Level} (hl : (lv s)[p]? = some l) (hh : h ∈ l.queue)
    {t : Nat} (ht : t < (nodeOf store h).quantity) :
    Core mp (store.set h { nodeOf store h with quantity := (nodeOf store h).quantity - t })
      free idx (setLevel lv s p (l.reduceQuantity t)) := by
  have nh := hc.nodes s p l hl h hh
  have hself := nodeOf_set_self store nh.lt
    { nodeOf store h with quantity := (nodeOf store h).quantity - t }
  have hother : ∀ x, x ≠ h → nodeOf (store.set h
      { nodeOf store h with quantity := (nodeOf store h).quantity - t }) x = nodeOf store x :=
    fun x hx => nodeOf_set_ne store hx _
  have hnode : ∀ (s0 : Side) (p0 : Nat) (l0 : Level), (lv s0)[p0]? = some l0 → ∀ x ∈ l0.queue,
      NodeAt (store.set h { nodeOf store h with quantity := (nodeOf store h).quantity - t })
        idx s0 p0 x := by
    intro s0 p0 l0 h0 x hx
    have n := hc.nodes s0 p0 l0 h0 x hx
    by_cases hxh : x = h
    · subst hxh
      refine ⟨by simpa using n.lt, n.ppos, by rw [hself]; exact n.price,
        by rw [hself]; exact n.side, by rw [hself]; simp; omega,
        by rw [hself]; simp; have := n.qlt; omega, by rw [hself]; exact n.idx⟩
    · have e := hother x hxh
      exact ⟨by simpa using n.lt, n.ppos, by rw [e]; exact n.price, by rw [e]; exact n.side,
        by rw [e]; exact n.qpos, by rw [e]; exact n.qlt, by rw [e]; exact n.idx⟩
  constructor
  · intro s0
    rw [setLevel_length]
    exact hc.len s0
  · exact hc.free_nodup
  · intro x hx
    simpa using hc.free_lt x hx
  · intro s0 p0 l2 h2 x hx
    rcases setLevel_cases hl h2 with ⟨rfl, rfl, rfl⟩ | ⟨_, h3⟩
    · exact hc.free_unlinked _ _ l hl x hx
    · exact hc.free_unlinked s0 p0 l2 h3 x hx
  · have h1 := setLevel_size (k := l.reduceQuantity t) hl
    have h2 := hc.count
    simp [Level.reduceQuantity] at h1 h2 ⊢
    omega
  · intro s0 p0 l2 h2
    rcases setLevel_cases hl h2 with ⟨rfl, rfl, rfl⟩ | ⟨_, h3⟩
    · exact hc.queue_nodup _ _ l hl
    · exact hc.queue_nodup s0 p0 l2 h3
  · intro s0 p0 l2 h2 x hx
    rcases setLevel_cases hl h2 with ⟨rfl, rfl, rfl⟩ | ⟨_, h3⟩
    · exact hnode _ _ l hl x hx
    · exact hnode s0 p0 l2 h3 x hx
  · intro id x hx
    obtain ⟨h1, l0, h2, h3⟩ := hc.index id x hx
    have hfields : (nodeOf (store.set h { nodeOf store h with
        quantity := (nodeOf store h).quantity - t }) x).id = (nodeOf store x).id
        ∧ (nodeOf (store.set h { nodeOf store h with
        quantity := (nodeOf store h).quantity - t }) x).side = (nodeOf store x).side
        ∧ (nodeOf (store.set h { nodeOf store h with
        quantity := (nodeOf store h).quantity - t }) x).price = (nodeOf store x).price := by
      by_cases hxh : x = h
      · subst hxh
        rw [hself]
        exact ⟨rfl, rfl, rfl⟩
      · rw [hother x hxh]
        exact ⟨rfl, rfl, rfl⟩
    rw [hfields.1, hfields.2.1, hfields.2.2]
    refine ⟨h1, ?_⟩
    by_cases hcase : (nodeOf store x).side = s ∧ (nodeOf store x).price = p
    · rw [hcase.1, hcase.2] at h2 ⊢
      rw [hl] at h2
      have : l = l0 := Option.some.inj h2
      subst this
      exact ⟨l.reduceQuantity t, setLevel_get_self hl, h3⟩
    · refine ⟨l0, ?_, h3⟩
      rw [setLevel_get_other hcase]
      exact h2
  · intro s0 p0 l2 h2
    rcases setLevel_cases hl h2 with ⟨rfl, rfl, rfl⟩ | ⟨hne, h3⟩
    · simp only [Level.reduceQuantity]
      rw [hc.total _ _ l hl]
      have hle := queueSum_le_of_mem store hh
      rw [sub32_mod_of_le (by omega) (by have := nh.qlt; omega)]
      congr 1
      have e1 := queueSum_erase store hh
      have e2 := queueSum_erase (store.set h
        { nodeOf store h with quantity := (nodeOf store h).quantity - t }) hh
      have e3 : queueSum (store.set h
          { nodeOf store h with quantity := (nodeOf store h).quantity - t }) (l.queue.erase h)
          = queueSum store (l.queue.erase h) := by
        apply queueSum_congr
        intro x hx
        apply hother
        exact ((hc.queue_nodup _ _ l hl).mem_erase_iff.mp hx).1
      rw [hself, e3] at e2
      simp at e2
      omega
    · rw [hc.total s0 p0 l2 h3]
      congr 1
      symm
      apply queueSum_congr
      intro x hx
      apply hother
      intro e
      subst e
      exact hne (hc.level_unique hl hh h3 hx)

/-- Unlinking a node from its level, dropping its id from the index and freeing its slot
keeps the invariant (`removeBid` / `removeAsk`, and the fill of a front node to zero),
whatever is written into the freed slot. -/
theorem Core.unlink {mp : Nat} {store : List Order} {free : List Nat}
    {idx : Nat → Option Nat} {lv : Side → List Level} (hc : Core mp store free idx lv)
    {s : Side} {p h : Nat} {l : Level} (hl : (lv s)[p]? = some l) (hh : h ∈ l.queue)
    {store1 : List Order} (hlen : store1.length = store.length)
    (hsame : ∀ x, x ≠ h → nodeOf store1 x = nodeOf store x) :
    Core mp store1 (free ++ [h])
      (fun id => if id = (nodeOf store h).id then none else idx id)
      (setLevel lv s p (l.erase h (nodeOf store h).quantity)) := by
  have nh := hc.nodes s p l hl h hh
  have hnd := hc.queue_nodup s p l hl
  have hnf : h ∉ free := hc.free_unlinked s p l hl h hh
  -- a node of the book after the unlink is a node of the book before, other than `h`
  have hmem : ∀ (s0 : Side) (p0 : Nat) (l2 : Level),
      (setLevel lv s p (l.erase h (nodeOf store h).quantity) s0)[p0]? = some l2 →
      ∀ x ∈ l2.queue, x ≠ h ∧ ∃ l0, (lv s0)[p0]? = some l0 ∧ x ∈ l0.queue := by
    intro s0 p0 l2 h2 x hx
    rcases setLevel_cases hl h2 with ⟨rfl, rfl, rfl⟩ | ⟨hne, h3⟩
    · have := hnd.mem_erase_iff.mp hx
      exact ⟨this.1, l, hl, this.2⟩
    · refine ⟨?_, l2, h3, hx⟩
      intro e
      subst e
      exact hne (hc.level_unique hl hh h3 hx)
  constructor
  · intro s0
    rw [setLevel_length]
    exact hc.len s0
  · apply List.Nodup.append hc.free_nodup (by simp)
    simpa using hnf
  · intro x hx
    rw [hlen]
    rcases List.mem_append.mp hx with hx | hx
    · exact hc.free_lt x hx
    · simp at hx
      subst hx
      exact nh.lt
  · intro s0 p0 l2 h2 x hx hxf
    obtain ⟨hxh, l0, h0, hx0⟩ := hmem s0 p0 l2 h2 x hx
    rcases List.mem_append.mp hxf with hxf | hxf
    · exact hc.free_unlinked s0 p0 l0 h0 x hx0 hxf
    · simp at hxf
      exact hxh hxf
  · have h1 := setLevel_size (k := l.erase h (nodeOf store h).quantity) hl
    have h2 := hc.count
    have h3 : (l.queue.erase h).length = l.queue.length - 1 := List.length_erase_of_mem hh
    have h4 : 0 < l.queue.length := List.length_pos_of_mem hh
    simp [Level.erase] at h1 ⊢
    omega
  · intro s0 p0 l2 h2
    rcases setLevel_cases hl h2 with ⟨rfl, rfl, rfl⟩ | ⟨_, h3⟩
    · exact hnd.erase h
    · exact hc.queue_nodup s0 p0 l2 h3
  · intro s0 p0 l2 h2 x hx
    obtain ⟨hxh, l0, h0, hx0⟩ := hmem s0 p0 l2 h2 x hx
    have n := hc.nodes s0 p0 l0 h0 x hx0
    have e := hsame x hxh
    refine ⟨by rw [hlen]; exact n.lt, n.ppos, by rw [e]; exact n.price, by rw [e]; exact n.side,
      by rw [e]; exact n.qpos, by rw [e]; exact n.qlt, ?_⟩
    rw [e]
    have hidne : (nodeOf store x).id ≠ (nodeOf store h).id := by
      intro eq
      have h1 := n.idx
      rw [eq, nh.idx] at h1
      exact hxh (Option.some.inj h1).symm
    simp [hidne, n.idx]
  · intro id x hx
    by_cases hid : id = (nodeOf store h).id
    · simp [hid] at hx
    · simp [hid] at hx
      obtain ⟨h1, l0, h2, h3⟩ := hc.index id x hx
      have hxh : x ≠ h := by
        intro e
        subst e
        exact hid h1.symm
      rw [hsame x hxh]
      refine ⟨h1, ?_⟩
      by_cases hcase : (nodeOf store x).side = s ∧ (nodeOf store x).price = p
      · rw [hcase.1, hcase.2] at h2 ⊢
        rw [hl] at h2
        have : l = l0 := Option.some.inj h2
        subst this
        refine ⟨_, setLevel_get_self hl, ?_⟩
        exact (List.mem_erase_of_ne hxh).mpr h3
      · refine ⟨l0, ?_, h3⟩
        rw [setLevel_get_other hcase]
        exact h2
  · intro s0 p0 l2 h2
    rcases setLevel_cases hl h2 with ⟨rfl, rfl, rfl⟩ | ⟨hne, h3⟩
    · simp only [Level.erase]
      rw [hc.total _ _ l hl]
      have hle := queueSum_le_of_mem store hh
      rw [sub32_mod_of_le hle nh.qlt]
      congr 1
      have e1 := queueSum_erase store hh
      have e3 : queueSum store1 (l.queue.erase h) = queueSum store (l.queue.erase h) := by
        apply queueSum_congr
        intro x hx
        exact hsame x (hnd.mem_erase_iff.mp hx).1
      omega
    · rw [hc.total s0 p0 l2 h3]
      congr 1
      symm
      apply queueSum_congr
      intro x hx
      apply hsame
      intro e
      subst e
      exact hne (hc.level_unique hl hh h3 hx)

/-! ## Best-price cursors -/

theorem Level.empty_iff (l : Level) : l.empty = true ↔ l.queue = [] := by
  simp [Level.empty, List.isEmpty_iff]

theorem decrementBidCursorLoop_spec {mp : Nat} {bids : List Level} (hlen : bids.length = mp + 1) :
    ∀ m : Nat, m ≤ mp → (∀ (p : Nat) (l : Level), bids[p]? = some l → m < p → l.queue = []) →
      ∃ m1, decrementBidCursorLoop bids m = Except.ok m1 ∧ m1 ≤ m ∧ BidCursor mp bids m1 := by
  intro m
  induction m with
  | zero =>
    intro _ habove
    exact ⟨0, rfl, le_refl _, ⟨Nat.zero_le _, habove, fun h => absurd h (lt_irrefl _)⟩⟩
  | succ n ih =>
    intro hle habove
    have hlt : n + 1 < bids.length := by omega
    have hget : bids[n + 1]? = some bids[n + 1] := List.getElem?_eq_getElem hlt
    unfold decrementBidCursorLoop
    rw [hget]
    simp only
    by_cases he : (bids[n + 1]).empty = true
    · rw [if_pos he]
      have hq := (Level.empty_iff _).mp he
      obtain ⟨m1, h1, h2, h3⟩ := ih (by omega) (by
        intro p l hl hp
        by_cases hpn : p = n + 1
        · subst hpn
          rw [hget] at hl
          rw [← Option.some.inj hl]
          exact hq
        · exact habove p l hl (by omega))
      exact ⟨m1, h1, by omega, h3⟩
    · rw [if_neg he]
      refine ⟨n + 1, rfl, le_refl _, ⟨hle, habove, fun _ => ⟨bids[n + 1], hget, ?_⟩⟩⟩
      intro hq
      exact he ((Level.empty_iff _).mpr hq)

theorem decrementBidCursorLoop_tight {bids : List Level} {m : Nat}
    (h : 0 < m → ∃ l, bids[m]? = some l ∧ l.queue ≠ []) :
    decrementBidCursorLoop bids m = Except.ok m := by
  cases m with
  | zero => rfl
  | succ n =>
    obtain ⟨l, hl, hq⟩ := h (Nat.succ_pos n)
    unfold decrementBidCursorLoop
    rw [hl]
    simp only
    rw [if_neg]
    intro he
    exact hq ((Level.empty_iff _).mp he)

theorem incrementAskCursorLoop_spec {mp : Nat} {asks : List Level} (hlen : asks.length = mp + 1) :
    ∀ (fuel m : Nat), m + fuel = mp + 1 →
      (∀ (p : Nat) (l : Level), asks[p]? = some l → p < m → l.queue = []) →
      m ≤ incrementAskCursorLoop asks fuel m ∧
        AskCursor mp asks (incrementAskCursorLoop asks fuel m) := by
  intro fuel
  induction fuel with
  | zero =>
    intro m hm hbelow
    simp only [incrementAskCursorLoop]
    exact ⟨le_refl _, ⟨by omega, hbelow, fun h => by omega⟩⟩
  | succ n ih =>
    intro m hm hbelow
    have hlt : m < asks.length := by omega
    have hget : asks[m]? = some asks[m] := List.getElem?_eq_getElem hlt
    unfold incrementAskCursorLoop
    rw [hget]
    simp only
    by_cases he : (asks[m]).empty = true
    · rw [if_pos he]
      have hq := (Level.empty_iff _).mp he
      obtain ⟨h1, h2⟩ := ih (m + 1) (by omega) (by
        intro p l hl hp
        by_cases hpn : p = m
        · subst hpn
          rw [hget] at hl
          rw [← Option.some.inj hl]
          exact hq
        · exact hbelow p l hl (by omega))
      exact ⟨by omega, h2⟩
    · rw [if_neg he]
      refine ⟨le_refl _, ⟨by omega, hbelow, fun _ => ⟨asks[m], hget, ?_⟩⟩⟩
      intro hq
      exact he ((Level.empty_iff _).mpr hq)

theorem incrementAskCursorLoop_tight {asks : List Level} {m : Nat} (fuel : Nat)
    (h : m < asks.length → ∃ l, asks[m]? = some l ∧ l.queue ≠ []) :
    incrementAskCursorLoop asks fuel m = m := by
  cases fuel with
  | zero => rfl
  | succ n =>
    unfold incrementAskCursorLoop
    cases hget : asks[m]? with
    | none => rfl
    | some l0 =>
      simp only
      have hlt : m < asks.length := (List.getElem?_eq_some.mp hget).1
      obtain ⟨l, hl, hq⟩ := h hlt
      rw [hget] at hl
      have : l0 = l := Option.some.inj hl
      subst this
      rw [if_neg]
      intro he
      exact hq ((Level.empty_iff _).mp he)

/-- The cursor invariants only look at which levels are empty. -/
theorem BidCursor.congr_bids {mp : Nat} {bids bids1 : List Level} {m : Nat}
    (hc : BidCursor mp bids m)
    (h : ∀ p : Nat, (bids1[p]?).map Level.queue = (bids[p]?).map Level.queue) :
    BidCursor mp bids1 m := by
  refine ⟨hc.le, ?_, ?_⟩
  · intro p l hl hp
    have := h p
    rw [hl] at this
    cases hb : bids[p]? with
    | none => rw [hb] at this; simp at this
    | some l0 =>
      rw [hb] at this
      simp at this
      rw [this]
      exact hc.above p l0 hb hp
  · intro hpos
    obtain ⟨l, hl, hq⟩ := hc.tight hpos
    have := h m
    rw [hl] at this
    cases hb : bids1[m]? with
    | none => rw [hb] at this; simp at this
    | some l1 =>
      rw [hb] at this
      simp at this
      exact ⟨l1, rfl, by rw [this]; exact hq⟩

theorem AskCursor.congr_asks {mp : Nat} {asks asks1 : List Level} {m : Nat}
    (hc : AskCursor mp asks m)
    (h : ∀ p : Nat, (asks1[p]?).map Level.queue = (asks[p]?).map Level.queue) :
    AskCursor mp asks1 m := by
  refine ⟨hc.le, ?_, ?_⟩
  · intro p l hl hp
    have := h p
    rw [hl] at this
    cases hb : asks[p]? with
    | none => rw [hb] at this; simp at this
    | some l0 =>
      rw [hb] at this
      simp at this
      rw [this]
      exact hc.below p l0 hb hp
  · intro hpos
    obtain ⟨l, hl, hq⟩ := hc.tight hpos
    have := h m
    rw [hl] at this
    cases hb : asks1[m]? with
    | none => rw [hb] at this; simp at this
    | some l1 =>
      rw [hb] at this
      simp at this
      exact ⟨l1, rfl, by rw [this]; exact hq⟩

/-! ## The book invariant -/

theorem OrderBook.node_eq (b : OrderBook) (h : Nat) :
    b.node h = nodeOf b.resting_orders_pool.store h := rfl

theorem WF.bids_len {mp : Nat} {b : OrderBook} (hwf : WF mp b) : b.bids.length = mp + 1 :=
  hwf.core.len Side.Buy

theorem WF.asks_len {mp : Nat} {b : OrderBook} (hwf : WF mp b) : b.asks.length = mp + 1 :=
  hwf.core.len Side.Sell

theorem WF.min_ask_pos {mp : Nat} {b : OrderBook} (hwf : WF mp b) : 0 < b.min_ask := by
  by_contra hz
  have h0 : b.min_ask = 0 := by omega
  obtain ⟨l, hl, hq⟩ := hwf.ask.tight (by omega)
  rw [h0] at hl
  obtain ⟨h, hh⟩ := List.exists_mem_of_ne_nil _ hq
  have := (hwf.core.nodes Side.Sell 0 l hl h hh).ppos
  omega

theorem WF.init (capacity mp : Nat) : WF mp (OrderBook.init capacity mp) := by
  have hget : ∀ (s : Side) (p : Nat) (l : Level),
      ((OrderBook.init capacity mp).levels s)[p]? = some l → l = Level.init := by
    intro s p l hl
    cases s <;>
    · simp [OrderBook.levels, OrderBook.init, List.getElem?_replicate] at hl
      exact hl.2.symm
  refine ⟨⟨?_, ?_, ?_, ?_, ?_, ?_, ?_, ?_, ?_⟩, ⟨?_, ?_, ?_⟩, ⟨?_, ?_, ?_⟩, ?_⟩
  · intro s
    cases s <;> simp [OrderBook.levels, OrderBook.init]
  · simp [OrderBook.init, ObjectPool.init, List.nodup_range]
  · intro h hh
    simpa [OrderBook.init, ObjectPool.init] using hh
  · intro s p l hl h hh
    rw [hget s p l hl] at hh
    simp [Level.init] at hh
  · simp [OrderBook.levels, OrderBook.init, ObjectPool.init, sideSize_replicate]
  · intro s p l hl
    rw [hget s p l hl]
    simp [Level.init]
  · intro s p l hl h hh
    rw [hget s p l hl] at hh
    simp [Level.init] at hh
  · intro id h hh
    simp [OrderBook.init] at hh
  · intro s p l hl
    rw [hget s p l hl]
    simp [Level.init, queueSum]
  · simp [OrderBook.init]
  · intro p l hl _
    rw [hget Side.Buy p l hl]
    rfl
  · intro h
    simp [OrderBook.init] at h
  · simp [OrderBook.init]
  · intro p l hl _
    rw [hget Side.Sell p l hl]
    rfl
  · intro h
    simp [OrderBook.init] at h
  · intro h
    simp [OrderBook.init] at h

/-! ### Insertion -/

theorem allocate_of_free {α : Type} {pool : ObjectPool α} {fs : List Nat} {h : Nat}
    (hf : pool.free_indices = fs ++ [h]) :
    pool.allocate = Except.ok (h, { pool with free_indices := fs }) := by
  unfold ObjectPool.allocate
  rw [hf, List.getLast?_concat]
  simp

theorem insertBid_ok {b : OrderBook} {o : Order} {fs : List Nat} {h : Nat} {l : Level}
    (hf : b.resting_orders_pool.free_indices = fs ++ [h])
    (hlt : h < b.resting_orders_pool.store.length) (hl : b.bids[o.price]? = some l) :
    b.insertBid o = Except.ok
      { resting_orders_pool := { store := b.resting_orders_pool.store.set h o, free_indices := fs }
        resting_orders := OrderBook.emplace b.resting_orders o.id h
        bids := b.bids.set o.price (l.add h o.quantity)
        max_bid := if o.price > b.max_bid then o.price else b.max_bid
        asks := b.asks
        min_ask := b.min_ask } := by
  unfold OrderBook.insertBid
  rw [allocate_of_free hf]
  simp only [levelAt_of_get hl, ObjectPool.write, ObjectPool.read]
  rw [getD_set_self _ hlt]

theorem insertAsk_ok {b : OrderBook} {o : Order} {fs : List Nat} {h : Nat} {l : Level}
    (hf : b.resting_orders_pool.free_indices = fs ++ [h])
    (hlt : h < b.resting_orders_pool.store.length) (hl : b.asks[o.price]? = some l) :
    b.insertAsk o = Except.ok
      { resting_orders_pool := { store := b.resting_orders_pool.store.set h o, free_indices := fs }
        resting_orders := OrderBook.emplace b.resting_orders o.id h
        bids := b.bids
        max_bid := b.max_bid
        asks := b.asks.set o.price (l.add h o.quantity)
        min_ask := if o.price < b.min_ask then o.price else b.min_ask } := by
  unfold OrderBook.insertAsk
  rw [allocate_of_free hf]
  simp only [levelAt_of_get hl, ObjectPool.write, ObjectPool.read]
  rw [getD_set_self _ hlt]

theorem levels_set_bid (b : OrderBook) (p : Nat) (l : Level) (pool : ObjectPool Order)
    (idx : Nat → Option Nat) (m a : Nat) :
    OrderBook.levels (OrderBook.mk pool idx (b.bids.set p l) m b.asks a)
      = setLevel b.levels Side.Buy p l := by
  funext s
  cases s <;> simp [OrderBook.levels, setLevel]

theorem levels_set_ask (b : OrderBook) (p : Nat) (l : Level) (pool : ObjectPool Order)
    (idx : Nat → Option Nat) (m a : Nat) :
    OrderBook.levels (OrderBook.mk pool idx b.bids m (b.asks.set p l) a)
      = setLevel b.levels Side.Sell p l := by
  funext s
  cases s <;> simp [OrderBook.levels, setLevel]

theorem get_set_queue_subset {levels : List Level} {p p1 : Nat} {l l1 l2 : Level}
    (hl : levels[p]? = some l) (h : (levels.set p l1)[p1]? = some l2) :
    (p1 = p ∧ l2 = l1) ∨ (p1 ≠ p ∧ levels[p1]? = some l2) := by
  have hlt : p < levels.length := (List.getElem?_eq_some.mp hl).1
  rw [List.getElem?_set] at h
  by_cases hp : p = p1
  · subst hp
    simp [hlt] at h
    exact Or.inl ⟨rfl, h.symm⟩
  · simp [hp] at h
    exact Or.inr ⟨fun e => hp e.symm, h⟩

theorem WF.insertBid {mp : Nat} {b : OrderBook} (hwf : WF mp b) {o : Order} {fs : List Nat}
    {h : Nat} {l : Level} (hf : b.resting_orders_pool.free_indices = fs ++ [h])
    (hl : b.bids[o.price]? = some l) (hs : o.side = Side.Buy) (hp : 0 < o.price)
    (hq : 0 < o.quantity) (hq2 : o.quantity < 2 ^ 32) (hid : b.resting_orders o.id = none)
    (hnc : b.min_ask ≤ mp → o.price < b.min_ask) :
    WF mp
      { resting_orders_pool := { store := b.resting_orders_pool.store.set h o, free_indices := fs }
        resting_orders := OrderBook.emplace b.resting_orders o.id h
        bids := b.bids.set o.price (l.add h o.quantity)
        max_bid := if o.price > b.max_bid then o.price else b.max_bid
        asks := b.asks
        min_ask := b.min_ask } := by
  have hlt : o.price < b.bids.length := (List.getElem?_eq_some.mp hl).1
  have hlen := hwf.bids_len
  refine ⟨?_, ⟨?_, ?_, ?_⟩, hwf.ask, ?_⟩
  · rw [levels_set_bid]
    have hl2 : (b.levels o.side)[o.price]? = some l := by rw [hs]; exact hl
    have := hwf.core.insert hf hp hq hq2 hid hl2
    rw [hs] at this
    exact this
  · simp only
    have := hwf.bid.le
    split <;> omega
  · intro p l2 h2 hp2
    simp only at h2 hp2
    rcases get_set_queue_subset hl h2 with ⟨rfl, _⟩ | ⟨_, h3⟩
    · split at hp2 <;> omega
    · apply hwf.bid.above p l2 h3
      split at hp2 <;> omega
  · intro _
    simp only
    by_cases hgt : o.price > b.max_bid
    · rw [if_pos hgt]
      refine ⟨l.add h o.quantity, ?_, ?_⟩
      · simp [List.getElem?_set, hlt]
      · simp [Level.add]
    · rw [if_neg hgt]
      obtain ⟨l0, h0, hq0⟩ := hwf.bid.tight (by omega)
      by_cases hpe : o.price = b.max_bid
      · rw [← hpe]
        refine ⟨l.add h o.quantity, ?_, ?_⟩
        · simp [List.getElem?_set, hlt]
        · simp [Level.add]
      · refine ⟨l0, ?_, hq0⟩
        rw [List.getElem?_set_ne hpe]
        exact h0
  · intro h1 h2
    simp only at h1 h2 ⊢
    have := hnc h2
    have := hwf.not_crossed
    split <;> omega

theorem WF.insertAsk {mp : Nat} {b : OrderBook} (hwf : WF mp b) {o : Order} {fs : List Nat}
    {h : Nat} {l : Level} (hf : b.resting_orders_pool.free_indices = fs ++ [h])
    (hl : b.asks[o.price]? = some l) (hs : o.side = Side.Sell) (hp : 0 < o.price)
    (hq : 0 < o.quantity) (hq2 : o.quantity < 2 ^ 32) (hid : b.resting_orders o.id = none)
    (hnc : 0 < b.max_bid → b.max_bid < o.price) :
    WF mp
      { resting_orders_pool := { store := b.resting_orders_pool.store.set h o, free_indices := fs }
        resting_orders := OrderBook.emplace b.resting_orders o.id h
        bids := b.bids
        max_bid := b.max_bid
        asks := b.asks.set o.price (l.add h o.quantity)
        min_ask := if o.price < b.min_ask then o.price else b.min_ask } := by
  have hlt : o.price < b.asks.length := (List.getElem?_eq_some.mp hl).1
  have hlen := hwf.asks_len
  refine ⟨?_, hwf.bid, ⟨?_, ?_, ?_⟩, ?_⟩
  · rw [levels_set_ask]
    have hl2 : (b.levels o.side)[o.price]? = some l := by rw [hs]; exact hl
    have := hwf.core.insert hf hp hq hq2 hid hl2
    rw [hs] at this
    exact this
  · simp only
    have := hwf.ask.le
    split <;> omega
  · intro p l2 h2 hp2
    simp only at h2 hp2
    rcases get_set_queue_subset hl h2 with ⟨rfl, _⟩ | ⟨_, h3⟩
    · split at hp2 <;> omega
    · apply hwf.ask.below p l2 h3
      split at hp2 <;> omega
  · intro hle
    simp only at hle ⊢
    by_cases hgt : o.price < b.min_ask
    · rw [if_pos hgt]
      refine ⟨l.add h o.quantity, ?_, ?_⟩
      · simp [List.getElem?_set, hlt]
      · simp [Level.add]
    · rw [if_neg hgt] at hle ⊢
      obtain ⟨l0, h0, hq0⟩ := hwf.ask.tight hle
      by_cases hpe : o.price = b.min_ask
      · rw [← hpe]
        refine ⟨l.add h o.quantity, ?_, ?_⟩
        · simp [List.getElem?_set, hlt]
        · simp [Level.add]
      · refine ⟨l0, ?_, hq0⟩
        rw [List.getElem?_set_ne hpe]
        exact h0
  · intro h1 h2
    simp only at h1 h2 ⊢
    have := hnc h1
    have := hwf.not_crossed h1
    split <;> omega

/-! ### Fills and removals -/

theorem levels_requantified (b : OrderBook) (s : Side) (p h t : Nat) (l : Level) :
    (b.requantified s p h t l).levels = setLevel b.levels s p (l.reduceQuantity t) := by
  funext s1
  cases s <;> cases s1 <;> simp [OrderBook.levels, setLevel, OrderBook.requantified]

theorem levels_unlinked (b : OrderBook) (s : Side) (p h : Nat) (l : Level)
    (store1 : List Order) :
    (b.unlinked s p h l store1).levels = setLevel b.levels s p (l.erase h (b.node h).quantity) := by
  funext s1
  cases s <;> cases s1 <;> simp [OrderBook.levels, setLevel, OrderBook.unlinked]

theorem fillAskOrder_rest {b : OrderBook} {p h t : Nat} {l : Level}
    (hl : b.asks[p]? = some l) (hlt : h < b.resting_orders_pool.store.length)
    (ht : t < (b.node h).quantity) (hq : (b.node h).quantity < 2 ^ 32) :
    b.fillAskOrder p h t = Except.ok (b.requantified Side.Sell p h t l) := by
  unfold OrderBook.fillAskOrder
  simp only [levelAt_of_get hl, ObjectPool.write, ObjectPool.read]
  rw [getD_set_self _ hlt]
  simp only
  rw [sub32_of_le (le_of_lt ht) hq]
  rw [if_neg (by omega)]
  rfl

theorem fillBidOrder_rest {b : OrderBook} {p h t : Nat} {l : Level}
    (hl : b.bids[p]? = some l) (hlt : h < b.resting_orders_pool.store.length)
    (ht : t < (b.node h).quantity) (hq : (b.node h).quantity < 2 ^ 32) :
    b.fillBidOrder p h t = Except.ok (b.requantified Side.Buy p h t l) := by
  unfold OrderBook.fillBidOrder
  simp only [levelAt_of_get hl, ObjectPool.write, ObjectPool.read]
  rw [getD_set_self _ hlt]
  simp only
  rw [sub32_of_le (le_of_lt ht) hq]
  rw [if_neg (by omega)]
  rfl

theorem fillAskOrder_full {b : OrderBook} {p h : Nat} {l : Level} {rest : List Nat}
    (hl : b.asks[p]? = some l) (hlt : h < b.resting_orders_pool.store.length)
    (hq : (b.node h).quantity < 2 ^ 32) (hhead : l.queue = h :: rest) :
    b.fillAskOrder p h (b.node h).quantity
      = Except.ok (b.unlinked Side.Sell p h l (zeroed b h)).incrementAskCursor := by
  unfold OrderBook.fillAskOrder
  simp only [levelAt_of_get hl, ObjectPool.write, ObjectPool.read]
  rw [getD_set_self _ hlt]
  simp only
  rw [sub32_of_le (le_refl _) hq]
  simp only [Nat.sub_self, if_true]
  simp only [Level.pop, Level.reduceQuantity, hhead]
  rw [getD_set_self _ hlt]
  simp only [if_true]
  simp only [OrderBook.unlinked, OrderBook.clean, OrderBook.node, ObjectPool.read,
    ObjectPool.deallocate, zeroed, Level.erase, hhead, List.erase_cons_head]
  rw [getD_set_self _ hlt]

theorem fillBidOrder_full {b : OrderBook} {p h : Nat} {l : Level} {rest : List Nat}
    (hl : b.bids[p]? = some l) (hlt : h < b.resting_orders_pool.store.length)
    (hq : (b.node h).quantity < 2 ^ 32) (hhead : l.queue = h :: rest) :
    b.fillBidOrder p h (b.node h).quantity
      = (b.unlinked Side.Buy p h l (zeroed b h)).decrementBidCursor := by
  unfold OrderBook.fillBidOrder
  simp only [levelAt_of_get hl, ObjectPool.write, ObjectPool.read]
  rw [getD_set_self _ hlt]
  simp only
  rw [sub32_of_le (le_refl _) hq]
  simp only [Nat.sub_self, if_true]
  simp only [Level.pop, Level.reduceQuantity, hhead]
  rw [getD_set_self _ hlt]
  simp only [if_true]
  simp only [OrderBook.unlinked, OrderBook.clean, OrderBook.node, ObjectPool.read,
    ObjectPool.deallocate, zeroed, Level.erase, hhead, List.erase_cons_head]
  rw [getD_set_self _ hlt]

theorem removeAsk_eq {b : OrderBook} {h : Nat} {l : Level}
    (hl : b.asks[(b.node h).price]? = some l) :
    b.removeAsk h = Except.ok
      (b.unlinked Side.Sell (b.node h).price h l b.resting_orders_pool.store).incrementAskCursor := by
  unfold OrderBook.removeAsk
  simp only [levelAt_of_get hl]
  rfl

theorem removeBid_eq {b : OrderBook} {h : Nat} {l : Level}
    (hl : b.bids[(b.node h).price]? = some l) :
    b.removeBid h =
      (b.unlinked Side.Buy (b.node h).price h l b.resting_orders_pool.store).decrementBidCursor := by
  unfold OrderBook.removeBid
  simp only [levelAt_of_get hl]
  rfl

theorem WF.requantified {mp : Nat} {b : OrderBook} (hwf : WF mp b) {s : Side} {p h t : Nat}
    {l : Level} (hl : (b.levels s)[p]? = some l) (hh : h ∈ l.queue)
    (ht : t < (b.node h).quantity) : WF mp (b.requantified s p h t l) := by
  refine ⟨?_, ?_, ?_, ?_⟩
  · rw [levels_requantified]
    exact hwf.core.requantify hl hh ht
  · cases s
    · apply hwf.bid.congr_bids
      intro p1
      simp only [OrderBook.requantified]
      by_cases hp : p = p1
      · subst hp
        have hl2 : b.bids[p]? = some l := hl
        have hlt : p < b.bids.length := (List.getElem?_eq_some.mp hl2).1
        simp [List.getElem?_set, hlt, hl2, Level.reduceQuantity]
      · rw [List.getElem?_set_ne hp]
    · exact hwf.bid
  · cases s
    · exact hwf.ask
    · apply hwf.ask.congr_asks
      intro p1
      simp only [OrderBook.requantified]
      by_cases hp : p = p1
      · subst hp
        have hl2 : b.asks[p]? = some l := hl
        have hlt : p < b.asks.length := (List.getElem?_eq_some.mp hl2).1
        simp [List.getElem?_set, hlt, hl2, Level.reduceQuantity]
      · rw [List.getElem?_set_ne hp]
  · exact hwf.not_crossed

theorem unlinked_core {mp : Nat} {b : OrderBook} (hwf : WF mp b) {s : Side} {p h : Nat}
    {l : Level} (hl : (b.levels s)[p]? = some l) (hh : h ∈ l.queue) {store1 : List Order}
    (hlen : store1.length = b.resting_orders_pool.store.length)
    (hsame : ∀ x, x ≠ h → nodeOf store1 x = nodeOf b.resting_orders_pool.store x) :
    Core mp store1 (b.resting_orders_pool.free_indices ++ [h])
      (b.unlinked s p h l store1).resting_orders (b.unlinked s p h l store1).levels := by
  rw [levels_unlinked]
  exact hwf.core.unlink hl hh hlen hsame

theorem WF.unlinked_ask {mp : Nat} {b : OrderBook} (hwf : WF mp b) {p h : Nat}
    {l : Level} (hl : b.asks[p]? = some l) (hh : h ∈ l.queue) {store1 : List Order}
    (hlen : store1.length = b.resting_orders_pool.store.length)
    (hsame : ∀ x, x ≠ h → nodeOf store1 x = nodeOf b.resting_orders_pool.store x) :
    WF mp (b.unlinked Side.Sell p h l store1).incrementAskCursor
      ∧ b.min_ask ≤ (b.unlinked Side.Sell p h l store1).incrementAskCursor.min_ask := by
  have hcore := unlinked_core hwf (s := Side.Sell) hl hh hlen hsame
  have hlen2 : (b.asks.set p (l.erase h (b.node h).quantity)).length = mp + 1 := by
    rw [List.length_set]
    exact hwf.asks_len
  have hspec := incrementAskCursorLoop_spec hlen2 (mp + 1 - b.min_ask) b.min_ask
    (by have := hwf.ask.le; omega) (by
      intro p1 l1 h1 hp1
      rcases get_set_queue_subset hl h1 with ⟨rfl, rfl⟩ | ⟨_, h3⟩
      · have := hwf.ask.below p1 l hl hp1
        simp [Level.erase, this]
      · exact hwf.ask.below p1 l1 h3 hp1)
  have hmin : (b.unlinked Side.Sell p h l store1).incrementAskCursor.min_ask
      = incrementAskCursorLoop (b.asks.set p (l.erase h (b.node h).quantity))
          (mp + 1 - b.min_ask) b.min_ask := by
    simp only [OrderBook.incrementAskCursor, OrderBook.unlinked]
    rw [hlen2]
  refine ⟨⟨hcore, hwf.bid, ?_, ?_⟩, ?_⟩
  · show AskCursor mp (b.asks.set p (l.erase h (b.node h).quantity)) _
    rw [hmin]
    exact hspec.2
  · intro h1 h2
    rw [hmin] at h2 ⊢
    have h1b : 0 < b.max_bid := h1
    have := hwf.not_crossed h1b (by omega)
    show b.max_bid < _
    omega
  · rw [hmin]
    exact hspec.1

theorem WF.unlinked_bid {mp : Nat} {b : OrderBook} (hwf : WF mp b) {p h : Nat}
    {l : Level} (hl : b.bids[p]? = some l) (hh : h ∈ l.queue) {store1 : List Order}
    (hlen : store1.length = b.resting_orders_pool.store.length)
    (hsame : ∀ x, x ≠ h → nodeOf store1 x = nodeOf b.resting_orders_pool.store x) :
    ∃ m, (b.unlinked Side.Buy p h l store1).decrementBidCursor
        = Except.ok { b.unlinked Side.Buy p h l store1 with max_bid := m }
      ∧ m ≤ b.max_bid ∧ WF mp { b.unlinked Side.Buy p h l store1 with max_bid := m } := by
  have hcore := unlinked_core hwf (s := Side.Buy) hl hh hlen hsame
  have hlen2 : (b.bids.set p (l.erase h (b.node h).quantity)).length = mp + 1 := by
    rw [List.length_set]
    exact hwf.bids_len
  obtain ⟨m, h1, h2, h3⟩ := decrementBidCursorLoop_spec hlen2 b.max_bid hwf.bid.le (by
      intro p1 l1 h1 hp1
      rcases get_set_queue_subset hl h1 with ⟨rfl, rfl⟩ | ⟨_, h3⟩
      · have := hwf.bid.above p1 l hl hp1
        simp [Level.erase, this]
      · exact hwf.bid.above p1 l1 h3 hp1)
  refine ⟨m, ?_, h2, ⟨hcore, h3, hwf.ask, ?_⟩⟩
  · simp only [OrderBook.decrementBidCursor, OrderBook.unlinked]
    rw [h1]
  · intro h4 h5
    have h4b : 0 < m := h4
    have h5b : b.min_ask ≤ mp := h5
    have := hwf.not_crossed (by omega) h5b
    show m < b.min_ask
    omega

/-! ## One iteration of the matching loop -/

theorem oppositeLevels_eq (pol : Policy) (b : OrderBook) :
    pol.oppositeLevels b = b.levels pol.opp := by
  cases pol <;> rfl

theorem match_front {mp : Nat} {b : OrderBook} (hwf : WF mp b) {pol : Policy}
    (hm : pol.hasMatchingOrders b = true) :
    ∃ (l : Level) (h : Nat) (rest : List Nat), (b.levels pol.opp)[pol.best b]? = some l
      ∧ l.queue = h :: rest ∧ pol.matchLevel b = Except.ok (pol.best b, l) := by
  cases pol with
  | BuyPolicy =>
    have h1 : b.min_ask < b.asks.length := by
      simpa [Policy.hasMatchingOrders, OrderBook.hasAsks] using hm
    rw [hwf.asks_len] at h1
    obtain ⟨l, hl, hq⟩ := hwf.ask.tight (by omega)
    obtain ⟨h, rest, hr⟩ := List.exists_cons_of_ne_nil hq
    refine ⟨l, h, rest, hl, hr, ?_⟩
    simp [Policy.matchLevel, OrderBook.bestAskLevel, levelAt_of_get hl, Policy.best, Except.map]
  | SellPolicy =>
    have h1 : 0 < b.max_bid := by
      simpa [Policy.hasMatchingOrders, OrderBook.hasBids] using hm
    obtain ⟨l, hl, hq⟩ := hwf.bid.tight h1
    obtain ⟨h, rest, hr⟩ := List.exists_cons_of_ne_nil hq
    refine ⟨l, h, rest, hl, hr, ?_⟩
    simp [Policy.matchLevel, OrderBook.bestBidLevel, levelAt_of_get hl, Policy.best, Except.map]

theorem fillOpposite_rest {mp : Nat} {b : OrderBook} (hwf : WF mp b) {pol : Policy}
    {p h t : Nat} {l : Level} (hl : (b.levels pol.opp)[p]? = some l) (hh : h ∈ l.queue)
    (ht : t < (b.node h).quantity) :
    pol.fillOppositeOrder b p h t = Except.ok (b.requantified pol.opp p h t l) := by
  have n := hwf.core.nodes pol.opp p l hl h hh
  cases pol with
  | BuyPolicy => exact fillAskOrder_rest hl n.lt ht n.qlt
  | SellPolicy => exact fillBidOrder_rest hl n.lt ht n.qlt

theorem zeroed_length (b : OrderBook) (h : Nat) :
    (zeroed b h).length = b.resting_orders_pool.store.length := by
  simp [zeroed]

theorem zeroed_other (b : OrderBook) (h : Nat) :
    ∀ x, x ≠ h → nodeOf (zeroed b h) x = nodeOf b.resting_orders_pool.store x :=
  fun _ hx => nodeOf_set_ne _ hx _

theorem fillOpposite_full {mp : Nat} {b : OrderBook} (hwf : WF mp b) {pol : Policy}
    {p h : Nat} {l : Level} {rest : List Nat} (hl : (b.levels pol.opp)[p]? = some l)
    (hq : l.queue = h :: rest) :
    ∃ b1, pol.fillOppositeOrder b p h (b.node h).quantity = Except.ok b1 ∧ WF mp b1
      ∧ SameUpToCursors b1 (b.unlinked pol.opp p h l (zeroed b h))
      ∧ CursorsAdvance pol b b1 := by
  have hh : h ∈ l.queue := by simp [hq]
  have n := hwf.core.nodes pol.opp p l hl h hh
  cases pol with
  | BuyPolicy =>
    have hl2 : b.asks[p]? = some l := hl
    have := hwf.unlinked_ask hl2 hh (zeroed_length b h) (zeroed_other b h)
    exact ⟨_, fillAskOrder_full hl2 n.lt n.qlt hq, this.1, ⟨rfl, rfl, rfl, rfl⟩, this.2, rfl⟩
  | SellPolicy =>
    have hl2 : b.bids[p]? = some l := hl
    obtain ⟨m, h1, h2, h3⟩ := hwf.unlinked_bid hl2 hh (zeroed_length b h) (zeroed_other b h)
    refine ⟨_, ?_, h3, ⟨rfl, rfl, rfl, rfl⟩, h2, rfl⟩
    show b.fillBidOrder p h (b.node h).quantity = _
    rw [fillBidOrder_full hl2 n.lt n.qlt hq, h1]

theorem sideSize_unlinked {b b1 : OrderBook} {s : Side} {p h : Nat}
    {l : Level} (hl : (b.levels s)[p]? = some l) (hh : h ∈ l.queue) {store1 : List Order}
    (hsame : SameUpToCursors b1 (b.unlinked s p h l store1)) :
    sideSize (b1.levels s) + 1 = sideSize (b.levels s) := by
  have e : b1.levels s = (b.unlinked s p h l store1).levels s := by
    cases s
    · exact hsame.bids
    · exact hsame.asks
  rw [e, levels_unlinked]
  have h1 : setLevel b.levels s p (l.erase h (b.node h).quantity) s
      = (b.levels s).set p (l.erase h (b.node h).quantity) := by simp [setLevel]
  rw [h1]
  have h2 := sideSize_set (k := l.erase h (b.node h).quantity) hl
  have h3 : (l.erase h (b.node h).quantity).queue.length = l.queue.length - 1 :=
    List.length_erase_of_mem hh
  have h4 : 0 < l.queue.length := List.length_pos_of_mem hh
  omega

theorem node_requantified {b : OrderBook} {s : Side} {p h t : Nat} {l : Level}
    (hlt : h < b.resting_orders_pool.store.length) :
    (b.requantified s p h t l).node h = { b.node h with quantity := (b.node h).quantity - t } := by
  simp only [OrderBook.node, ObjectPool.read, OrderBook.requantified]
  rw [getD_set_self _ hlt]

theorem node_zeroed {b b1 : OrderBook} {h : Nat}
    (hlt : h < b.resting_orders_pool.store.length) {fr : List Nat}
    (hp : b1.resting_orders_pool = { store := zeroed b h, free_indices := fr }) :
    b1.node h = { b.node h with quantity := 0 } := by
  simp only [OrderBook.node, ObjectPool.read, hp, zeroed]
  rw [getD_set_self _ hlt]

theorem matchLoop_stop (pol : Policy) (fuel : Nat) (o : Order) (b : OrderBook)
    (hc : ¬ (o.quantity > 0 ∧ pol.canMatch o b = true ∧ pol.hasMatchingOrders b = true)) :
    matchLoop pol (fuel + 1) o b = { fault := none, order := o, book := b, events := [] } := by
  rw [matchLoop, if_neg hc]

/-- Induction principle for the loop of `match` on a well-formed book: the loop stops, or
fills the front order of the best opposite level in part and stops, or fills that order
entirely, unlinks it and goes on. -/
theorem matchLoop_induct {mp : Nat} (pol : Policy)
    (R : Order → OrderBook → LoopResult → Prop)
    (stop : ∀ (o : Order) (b : OrderBook), WF mp b →
      ¬ (o.quantity > 0 ∧ pol.canMatch o b = true ∧ pol.hasMatchingOrders b = true) →
      R o b { fault := none, order := o, book := b, events := [] })
    (rest : ∀ (o : Order) (b : OrderBook) (l : Level) (h : Nat) (tl : List Nat), WF mp b →
      0 < o.quantity → pol.canMatch o b = true → pol.hasMatchingOrders b = true →
      (b.levels pol.opp)[pol.best b]? = some l → l.queue = h :: tl →
      o.quantity < (b.node h).quantity →
      R o b
        { fault := none
          order := { o with quantity := 0 }
          book := b.requantified pol.opp (pol.best b) h o.quantity l
          events := [Event.trade o.id (b.node h).id (b.node h).price o.quantity] })
    (full : ∀ (o : Order) (b : OrderBook) (l : Level) (h : Nat) (tl : List Nat)
      (b1 : OrderBook) (r : LoopResult), WF mp b →
      0 < o.quantity → pol.canMatch o b = true → pol.hasMatchingOrders b = true →
      (b.levels pol.opp)[pol.best b]? = some l → l.queue = h :: tl →
      (b.node h).quantity ≤ o.quantity → WF mp b1 →
      SameUpToCursors b1 (b.unlinked pol.opp (pol.best b) h l (zeroed b h)) →
      CursorsAdvance pol b b1 →
      R { o with quantity := o.quantity - (b.node h).quantity } b1 r →
      R o b
        { r with events :=
            Event.trade o.id (b.node h).id (b.node h).price (b.node h).quantity :: r.events }) :
    ∀ (fuel : Nat) (o : Order) (b : OrderBook), WF mp b →
      sideSize (b.levels pol.opp) + 2 ≤ fuel → R o b (matchLoop pol fuel o b) := by
  intro fuel
  induction fuel with
  | zero =>
    intro o b _ hf
    omega
  | succ n ih =>
    intro o b hwf hf
    by_cases hc : o.quantity > 0 ∧ pol.canMatch o b = true ∧ pol.hasMatchingOrders b = true
    · obtain ⟨hq, hcm, hm⟩ := hc
      obtain ⟨l, h, tl, hl, hqueue, hml⟩ := match_front hwf hm
      have hh : h ∈ l.queue := by simp [hqueue]
      have nd := hwf.core.nodes pol.opp (pol.best b) l hl h hh
      have htop : l.top = some h := by simp [Level.top, hqueue]
      rw [matchLoop, if_pos ⟨hq, hcm, hm⟩, hml]
      simp only [htop]
      by_cases hlt : o.quantity < (b.node h).quantity
      · have hmin : min o.quantity (b.node h).quantity = o.quantity := Nat.min_eq_left (le_of_lt hlt)
        rw [hmin, fillOpposite_rest hwf hl hh hlt]
        simp only [Nat.sub_self]
        obtain ⟨k, hk⟩ : ∃ k, n = k + 1 := ⟨n - 1, by omega⟩
        subst hk
        rw [matchLoop_stop pol k _ _ (by simp)]
        simp only [node_requantified nd.lt]
        exact rest o b l h tl hwf hq hcm hm hl hqueue hlt
      · have hle : (b.node h).quantity ≤ o.quantity := Nat.le_of_not_lt hlt
        have hmin : min o.quantity (b.node h).quantity = (b.node h).quantity :=
          Nat.min_eq_right hle
        obtain ⟨b1, hfill, hwf1, hsame, hadv⟩ := fillOpposite_full hwf hl hqueue
        rw [hmin, hfill]
        simp only
        have hsz := sideSize_unlinked hl hh hsame
        have hr := ih { o with quantity := o.quantity - (b.node h).quantity } b1 hwf1 (by omega)
        have hnode := node_zeroed nd.lt hsame.pool
        rw [hnode]
        exact full o b l h tl b1 _ hwf hq hcm hm hl hqueue hle hwf1 hsame hadv hr
    · obtain ⟨k, hk⟩ : ∃ k, n = k + 1 := ⟨n - 1, by omega⟩
      rw [matchLoop_stop pol n o b hc]
      exact stop o b hwf hc

/-! ## Insertion of the remainder -/

theorem insert_exhausted {b : OrderBook} (pol : Policy) (o : Order)
    (hf : b.resting_orders_pool.free_indices = []) :
    pol.insert b o = Except.error Fault.PoolExhausted := by
  cases pol <;>
  simp [Policy.insert, OrderBook.insertBid, OrderBook.insertAsk, ObjectPool.allocate, hf]

theorem insert_ok {mp : Nat} {b : OrderBook} (hwf : WF mp b) {o : Order}
    (hp : 0 < o.price) (hp2 : o.price ≤ mp) (hq : 0 < o.quantity) (hq2 : o.quantity < 2 ^ 32)
    (hid : b.resting_orders o.id = none) (hnc : NonCrossing mp b o)
    {fs : List Nat} {h : Nat} (hf : b.resting_orders_pool.free_indices = fs ++ [h]) :
    ∃ l, (b.levels o.side)[o.price]? = some l
      ∧ (policyOf o.side).insert b o = Except.ok (b.inserted o h fs l)
      ∧ WF mp (b.inserted o h fs l) := by
  have hlt : h < b.resting_orders_pool.store.length :=
    hwf.core.free_lt h (by simp [hf])
  have hlen : o.price < (b.levels o.side).length := by
    rw [hwf.core.len]
    omega
  refine ⟨(b.levels o.side)[o.price], List.getElem?_eq_getElem hlen, ?_⟩
  have hget : (b.levels o.side)[o.price]? = some (b.levels o.side)[o.price] :=
    List.getElem?_eq_getElem hlen
  generalize (b.levels o.side)[o.price] = l at hget
  unfold NonCrossing at hnc
  unfold OrderBook.inserted
  cases hs : o.side with
  | Buy =>
    rw [hs] at hget hnc
    simp only at hnc
    exact ⟨insertBid_ok hf hlt hget, hwf.insertBid hf hget hs hp hq hq2 hid hnc⟩
  | Sell =>
    rw [hs] at hget hnc
    simp only at hnc
    exact ⟨insertAsk_ok hf hlt hget, hwf.insertAsk hf hget hs hp hq hq2 hid hnc⟩

/-! ## The loop of `match` on a well-formed book -/

theorem matchLoop_post {mp : Nat} (pol : Policy) (fuel : Nat) (o : Order) (b : OrderBook)
    (hwf : WF mp b) (hfuel : sideSize (b.levels pol.opp) + 2 ≤ fuel) :
    LoopPost mp pol o b (matchLoop pol fuel o b) := by
  refine matchLoop_induct pol (LoopPost mp pol) ?_ ?_ ?_ fuel o b hwf hfuel
  · intro o b hwf hc
    exact ⟨rfl, hwf, hc, rfl, rfl, rfl, le_refl _, fun _ h => h, le_refl _⟩
  · intro o b l h tl hwf hq hcm hm hl hqueue hlt
    have hh : h ∈ l.queue := by simp [hqueue]
    exact ⟨rfl, hwf.requantified hl hh hlt, by simp, rfl, rfl, rfl, Nat.zero_le _,
      fun _ h => h, le_refl _⟩
  · intro o b l h tl b1 r hwf hq hcm hm hl hqueue hle hwf1 hsame hadv hr
    refine ⟨hr.fault, hr.wf, hr.done, hr.id, hr.price, hr.side, ?_, ?_, ?_⟩
    · have := hr.qle
      show r.order.quantity ≤ o.quantity
      simp only at this
      omega
    · intro id hid
      apply hr.index
      rw [hsame.index]
      simp [OrderBook.unlinked, hid]
    · have := hr.free
      rw [hsame.pool] at this
      simp [OrderBook.unlinked] at this
      show _ ≤ r.book.resting_orders_pool.free_indices.length
      omega

theorem nonCrossing_of_done {mp : Nat} {b : OrderBook} (hwf : WF mp b) {o : Order}
    (hq : 0 < o.quantity)
    (hd : ¬ (o.quantity > 0 ∧ (policyOf o.side).canMatch o b = true
      ∧ (policyOf o.side).hasMatchingOrders b = true)) : NonCrossing mp b o := by
  unfold NonCrossing
  cases hs : o.side with
  | Buy =>
    rw [hs] at hd
    simp only [policyOf, Policy.canMatch, Policy.hasMatchingOrders, OrderBook.hasAsks,
      OrderBook.bestAsk, decide_eq_true_eq, hwf.asks_len] at hd
    intro h1
    by_contra h2
    exact hd ⟨hq, by omega, by omega⟩
  | Sell =>
    rw [hs] at hd
    simp only [policyOf, Policy.canMatch, Policy.hasMatchingOrders, OrderBook.hasBids,
      OrderBook.bestBid, decide_eq_true_eq] at hd
    intro h1
    by_contra h2
    exact hd ⟨hq, by omega, by omega⟩

theorem matchFuel_eq (pol : Policy) (b : OrderBook) :
    matchFuel pol b = sideSize (b.levels pol.opp) + 2 := by
  unfold matchFuel
  rw [oppositeLevels_eq]

/-- The three ways `match` ends on a well-formed book: nothing left to rest, no free slot
for the remainder, or the remainder is linked at the tail of the level of its price. -/
theorem matchOrder_cases {mp : Nat} {b : OrderBook} (hwf : WF mp b) {o : Order}
    (hp : 0 < o.price) (hp2 : o.price ≤ mp) (hq2 : o.quantity < 2 ^ 32)
    (hid : b.resting_orders o.id = none) :
    LoopPost mp (policyOf o.side) o b
        (matchLoop (policyOf o.side) (matchFuel (policyOf o.side) b) o b)
      ∧ (((matchLoop (policyOf o.side) (matchFuel (policyOf o.side) b) o b).order.quantity = 0
          ∧ matchOrder o (policyOf o.side) b =
            { fault := none
              book := (matchLoop (policyOf o.side) (matchFuel (policyOf o.side) b) o b).book
              events := (matchLoop (policyOf o.side) (matchFuel (policyOf o.side) b) o b).events })
        ∨ (0 < (matchLoop (policyOf o.side) (matchFuel (policyOf o.side) b) o b).order.quantity
          ∧ (matchLoop (policyOf o.side) (matchFuel (policyOf o.side) b) o
              b).book.resting_orders_pool.free_indices = []
          ∧ matchOrder o (policyOf o.side) b =
            { fault := some Fault.PoolExhausted
              book := (matchLoop (policyOf o.side) (matchFuel (policyOf o.side) b) o b).book
              events := (matchLoop (policyOf o.side) (matchFuel (policyOf o.side) b) o b).events })
        ∨ (0 < (matchLoop (policyOf o.side) (matchFuel (policyOf o.side) b) o b).order.quantity
          ∧ ∃ (fs : List Nat) (h : Nat) (l : Level),
            (matchLoop (policyOf o.side) (matchFuel (policyOf o.side) b) o
              b).book.resting_orders_pool.free_indices = fs ++ [h]
            ∧ ((matchLoop (policyOf o.side) (matchFuel (policyOf o.side) b) o
              b).book.levels o.side)[o.price]? = some l
            ∧ WF mp ((matchLoop (policyOf o.side) (matchFuel (policyOf o.side) b) o
              b).book.inserted
                (matchLoop (policyOf o.side) (matchFuel (policyOf o.side) b) o b).order h fs l)
            ∧ matchOrder o (policyOf o.side) b =
              { fault := none
                book := (matchLoop (policyOf o.side) (matchFuel (policyOf o.side) b) o
                  b).book.inserted
                    (matchLoop (policyOf o.side) (matchFuel (policyOf o.side) b) o b).order h fs l
                events := (matchLoop (policyOf o.side) (matchFuel (policyOf o.side) b) o
                  b).events ++ [Event.added
                    (matchLoop (policyOf o.side) (matchFuel (policyOf o.side) b) o b).order] })) := by
  have hpost : LoopPost mp (policyOf o.side) o b _ :=
    matchLoop_post (policyOf o.side) (matchFuel (policyOf o.side) b) o b hwf
    (by rw [matchFuel_eq])
  refine ⟨hpost, ?_⟩
  unfold matchOrder
  generalize matchLoop (policyOf o.side) (matchFuel (policyOf o.side) b) o b = r at hpost ⊢
  simp only [hpost.fault]
  by_cases hz : r.order.quantity = 0
  · left
    refine ⟨hz, ?_⟩
    rw [if_neg (by omega)]
  · right
    have hpos : 0 < r.order.quantity := Nat.pos_of_ne_zero hz
    rw [if_pos hpos]
    rcases List.eq_nil_or_concat r.book.resting_orders_pool.free_indices with hf | ⟨fs, h, hf⟩
    rotate_left
    · rw [List.concat_eq_append] at hf
      right
      have hnc : NonCrossing mp r.book r.order := by
        apply nonCrossing_of_done hpost.wf hpos
        rw [hpost.side]
        exact hpost.done
      obtain ⟨l, hl, hins, hwf2⟩ := insert_ok hpost.wf (o := r.order)
        (by rw [hpost.price]; exact hp) (by rw [hpost.price]; exact hp2) hpos
        (by have := hpost.qle; omega) (by rw [hpost.id]; exact hpost.index _ hid) hnc hf
      rw [hpost.side] at hins
      rw [hpost.side, hpost.price] at hl
      refine ⟨hpos, fs, h, l, hf, hl, hwf2, ?_⟩
      rw [hins]
    · left
      refine ⟨hpos, hf, ?_⟩
      rw [insert_exhausted _ _ hf]

/-! ## Cancel -/

theorem remove_spec {mp : Nat} {b : OrderBook} (hwf : WF mp b) {h : Nat} {l : Level}
    (hl : (b.levels (b.node h).side)[(b.node h).price]? = some l) (hh : h ∈ l.queue) :
    ∃ b1, (policyOf (b.node h).side).cancel b h = Except.ok b1 ∧ WF mp b1
      ∧ SameUpToCursors b1
        (b.unlinked (b.node h).side (b.node h).price h l b.resting_orders_pool.store)
      ∧ CursorsRetreat b b1 := by
  cases hs : (b.node h).side with
  | Buy =>
    rw [hs] at hl
    have hl2 : b.bids[(b.node h).price]? = some l := hl
    obtain ⟨m, h1, h2, h3⟩ := hwf.unlinked_bid hl2 hh rfl (fun _ _ => rfl)
    refine ⟨_, ?_, h3, ⟨rfl, rfl, rfl, rfl⟩, h2, le_refl _⟩
    show b.removeBid h = _
    rw [removeBid_eq hl2, h1]
  | Sell =>
    rw [hs] at hl
    have hl2 : b.asks[(b.node h).price]? = some l := hl
    have := hwf.unlinked_ask hl2 hh rfl (fun _ _ => rfl)
    exact ⟨_, removeAsk_eq hl2, this.1, ⟨rfl, rfl, rfl, rfl⟩, le_refl _, this.2⟩

theorem cancelOrder_spec {mp : Nat} {b : OrderBook} (hwf : WF mp b) {id h : Nat}
    (hfind : b.find id = some h) :
    ∃ (l : Level) (b1 : OrderBook),
      (b.levels (b.node h).side)[(b.node h).price]? = some l ∧ h ∈ l.queue
      ∧ (b.node h).id = id
      ∧ cancelOrder id b = { fault := none, book := b1, events := [Event.canceled id] }
      ∧ WF mp b1
      ∧ SameUpToCursors b1
        (b.unlinked (b.node h).side (b.node h).price h l b.resting_orders_pool.store)
      ∧ CursorsRetreat b b1 := by
  obtain ⟨hid, l, hl, hh⟩ := hwf.core.index id h hfind
  obtain ⟨b1, h1, h2, h3, h4⟩ := remove_spec hwf hl hh
  refine ⟨l, b1, hl, hh, hid, ?_, h2, h3, h4⟩
  unfold cancelOrder
  rw [hfind]
  simp only [MatchingEngine.cancel, h1]
  rw [show (b.node h).id = id from hid]

/-! ## Modify -/

theorem fillResting_rest {mp : Nat} {b : OrderBook} (hwf : WF mp b) {h t : Nat} {l : Level}
    (hl : (b.levels (b.node h).side)[(b.node h).price]? = some l) (hh : h ∈ l.queue)
    (ht : t < (b.node h).quantity) :
    (policyOf (b.node h).side).getRestingLevel b (b.node h).price
        = Except.ok ((b.node h).price, l)
      ∧ (policyOf (b.node h).side).fillRestingOrder b (b.node h).price h t
        = Except.ok (b.requantified (b.node h).side (b.node h).price h t l) := by
  have n := hwf.core.nodes _ _ l hl h hh
  cases hs : (b.node h).side with
  | Buy =>
    rw [hs] at hl
    have hl2 : b.bids[(b.node h).price]? = some l := hl
    refine ⟨?_, fillBidOrder_rest hl2 n.lt ht n.qlt⟩
    simp [policyOf, Policy.getRestingLevel, OrderBook.bidLevel, levelAt_of_get hl2, Except.map]
  | Sell =>
    rw [hs] at hl
    have hl2 : b.asks[(b.node h).price]? = some l := hl
    refine ⟨?_, fillAskOrder_rest hl2 n.lt ht n.qlt⟩
    simp [policyOf, Policy.getRestingLevel, OrderBook.askLevel, levelAt_of_get hl2, Except.map]

/-- The in-place branch of `modify` on a well-formed book. -/
theorem modifyOrder_inplace {mp : Nat} {b : OrderBook} (hwf : WF mp b) {id h p q : Nat}
    (hfind : b.find id = some h) (hp : p = (b.node h).price) (hq0 : 0 < q)
    (hq : q < (b.node h).quantity) :
    ∃ l, (b.levels (b.node h).side)[(b.node h).price]? = some l ∧ h ∈ l.queue
      ∧ modifyOrder id p q b =
        { fault := none
          book := b.requantified (b.node h).side (b.node h).price h ((b.node h).quantity - q) l
          events := [Event.modified { b.node h with quantity := q }] } := by
  obtain ⟨_, l, hl, hh⟩ := hwf.core.index id h hfind
  have n := hwf.core.nodes _ _ l hl h hh
  refine ⟨l, hl, hh, ?_⟩
  have hpos : 0 < (b.node h).quantity := n.qpos
  obtain ⟨h1, h2⟩ := fillResting_rest hwf hl hh (t := (b.node h).quantity - q) (by omega)
  unfold modifyOrder
  rw [hfind]
  simp only [MatchingEngine.modify]
  rw [if_pos ⟨hp, hq⟩, h1]
  simp only [h2, node_requantified n.lt]
  have : (b.node h).quantity - ((b.node h).quantity - q) = q := by omega
  rw [this]

/-- The re-insert branch of `modify` on a well-formed book: the node is removed and the
amended order is matched against the book that results. -/
theorem modifyOrder_reinsert {mp : Nat} {b : OrderBook} (hwf : WF mp b) {id h p q : Nat}
    (hfind : b.find id = some h) (hc : ¬ (p = (b.node h).price ∧ q < (b.node h).quantity)) :
    ∃ (l : Level) (b1 : OrderBook),
      (b.levels (b.node h).side)[(b.node h).price]? = some l ∧ h ∈ l.queue
      ∧ WF mp b1
      ∧ SameUpToCursors b1
        (b.unlinked (b.node h).side (b.node h).price h l b.resting_orders_pool.store)
      ∧ CursorsRetreat b b1
      ∧ modifyOrder id p q b =
        matchOrder { b.node h with price := p, quantity := q } (policyOf (b.node h).side) b1 := by
  obtain ⟨_, l, hl, hh⟩ := hwf.core.index id h hfind
  obtain ⟨b1, h1, h2, h3, h4⟩ := remove_spec hwf hl hh
  refine ⟨l, b1, hl, hh, h2, h3, h4, ?_⟩
  unfold modifyOrder
  rw [hfind]
  simp only [MatchingEngine.modify]
  rw [if_neg hc, h1]

theorem matchOrder_wf {mp : Nat} {b : OrderBook} (hwf : WF mp b) {o : Order}
    (hp : 0 < o.price) (hp2 : o.price ≤ mp) (hq2 : o.quantity < 2 ^ 32)
    (hid : b.resting_orders o.id = none) :
    WF mp (matchOrder o (policyOf o.side) b).book
      ∧ ((matchOrder o (policyOf o.side) b).fault = none
        ∨ (matchOrder o (policyOf o.side) b).fault = some Fault.PoolExhausted)
      ∧ (b.resting_orders_pool.free_indices ≠ [] →
          (matchOrder o (policyOf o.side) b).fault = none) := by
  obtain ⟨hpost, hcase⟩ := matchOrder_cases hwf hp hp2 hq2 hid
  rcases hcase with ⟨_, h2⟩ | ⟨_, hf, h2⟩ | ⟨_, fs, h, l, _, _, hwf2, h2⟩
  · rw [h2]
    exact ⟨hpost.wf, Or.inl rfl, fun _ => rfl⟩
  · rw [h2]
    refine ⟨hpost.wf, Or.inr rfl, ?_⟩
    intro hne
    have := hpost.free
    rw [hf] at this
    simp at this
    exact absurd this hne
  · rw [h2]
    exact ⟨hwf2, Or.inl rfl, fun _ => rfl⟩

theorem modifyOrder_wf {mp : Nat} {b : OrderBook} (hwf : WF mp b) {id h p q : Nat}
    (hfind : b.find id = some h) (hp : 0 < p) (hp2 : p ≤ mp) (hq0 : 0 < q) (hq2 : q < 2 ^ 32) :
    (modifyOrder id p q b).fault = none ∧ WF mp (modifyOrder id p q b).book := by
  by_cases hc : p = (b.node h).price ∧ q < (b.node h).quantity
  · obtain ⟨l, hl, hh, heq⟩ := modifyOrder_inplace hwf hfind hc.1 hq0 hc.2
    rw [heq]
    have hlt := hc.2
    exact ⟨rfl, hwf.requantified hl hh (by omega)⟩
  · obtain ⟨l, b1, hl, hh, hwf1, hsame, _, heq⟩ := modifyOrder_reinsert hwf hfind hc
    rw [heq]
    have hside : (b.node h).side = ({ b.node h with price := p, quantity := q } : Order).side := rfl
    rw [hside]
    have hidx : b1.resting_orders ({ b.node h with price := p, quantity := q } : Order).id = none := by
      rw [hsame.index]
      simp [OrderBook.unlinked]
    have hfree : b1.resting_orders_pool.free_indices ≠ [] := by
      rw [hsame.pool]
      simp [OrderBook.unlinked]
    obtain ⟨h1, _, h3⟩ := matchOrder_wf hwf1 (o := { b.node h with price := p, quantity := q })
      hp hp2 hq2 hidx
    exact ⟨h3 hfree, h1⟩

/-! ## Sequences of calls -/

theorem Call.run_wf {mp : Nat} {b : OrderBook} (hwf : WF mp b) {c : Call}
    (hv : c.valid mp b) : (c.run b).fault = none ∧ WF mp (c.run b).book := by
  cases c with
  | submit o =>
    obtain ⟨_, hq2, hp, hp2, hid, hnf⟩ := hv
    obtain ⟨h1, h2, _⟩ := matchOrder_wf hwf (o := o) (by omega) hp2 hq2 hid
    refine ⟨?_, h1⟩
    rcases h2 with h2 | h2
    · exact h2
    · exact absurd h2 hnf
  | cancel id =>
    have hv2 : (b.find id).isSome = true := hv
    obtain ⟨h, hfind⟩ := Option.isSome_iff_exists.mp hv2
    obtain ⟨l, b1, _, _, _, heq, hwf1, _, _⟩ := cancelOrder_spec hwf hfind
    have hrun : (Call.cancel id).run b = cancelOrder id b := rfl
    rw [hrun, heq]
    exact ⟨rfl, hwf1⟩
  | modify id p q =>
    obtain ⟨hv2, hq0, hq2, hp, hp2⟩ := hv
    obtain ⟨h, hfind⟩ := Option.isSome_iff_exists.mp hv2
    exact modifyOrder_wf hwf hfind (by omega) hp2 hq0 hq2

theorem Reachable.wf {capacity mp : Nat} {b : OrderBook} (hr : Reachable capacity mp b) :
    WF mp b := by
  induction hr with
  | init => exact WF.init capacity mp
  | step c _ hv ih => exact (Call.run_wf ih hv).2

/-! ## Invariants of reachable books -/

theorem twoSidedBook_reachable : Reachable 4 5 twoSidedBook :=
  Reachable.step (Call.submit ⟨2, 10, 2, Side.Buy⟩)
    (Reachable.step (Call.submit ⟨1, 10, 3, Side.Sell⟩) Reachable.init (by decide)) (by decide)

/-- C1. In every book reached from the empty book by calls that meet their preconditions,
if `hasBids()` and `hasAsks()` both hold then `max_bid < min_ask`. -/
theorem no_crossed_book (capacity mp : Nat) (b : OrderBook) (hr : Reachable capacity mp b)
    (hb : b.hasBids = true) (ha : b.hasAsks = true) : b.max_bid < b.min_ask := by
  have hwf := hr.wf
  have h1 : 0 < b.max_bid := by simpa [OrderBook.hasBids] using hb
  have h2 : b.min_ask < b.asks.length := by simpa [OrderBook.hasAsks] using ha
  rw [hwf.asks_len] at h2
  exact hwf.not_crossed h1 (by omega)

theorem no_crossed_book_witness :
    twoSidedBook.hasBids = true ∧ twoSidedBook.hasAsks = true
      ∧ twoSidedBook.max_bid < twoSidedBook.min_ask :=
  ⟨by decide, by decide,
    no_crossed_book 4 5 twoSidedBook twoSidedBook_reachable (by decide) (by decide)⟩

/-- C6. Cursor tightness in every reachable book: no bid level above `max_bid` holds an
order, `bids[max_bid]` holds one iff `max_bid > 0`, and `max_bid` is 0 when no bid rests;
no ask level below `min_ask` holds an order, `min_ask` is at most `max_price + 1`,
`asks[min_ask]` holds one iff `min_ask <= max_price`, and `min_ask` is `max_price + 1`
when no ask rests. -/
theorem cursor_tightness (capacity mp : Nat) (b : OrderBook) (hr : Reachable capacity mp b) :
    (∀ (p : Nat) (l : Level), b.bids[p]? = some l → l.empty = false → p ≤ b.max_bid)
      ∧ ((∃ l, b.bids[b.max_bid]? = some l ∧ l.empty = false) ↔ 0 < b.max_bid)
      ∧ ((∀ (p : Nat) (l : Level), b.bids[p]? = some l → l.empty = true) → b.max_bid = 0)
      ∧ (∀ (p : Nat) (l : Level), b.asks[p]? = some l → l.empty = false → b.min_ask ≤ p)
      ∧ b.min_ask ≤ mp + 1
      ∧ ((∃ l, b.asks[b.min_ask]? = some l ∧ l.empty = false) ↔ b.min_ask ≤ mp)
      ∧ ((∀ (p : Nat) (l : Level), b.asks[p]? = some l → l.empty = true) →
          b.min_ask = mp + 1) := by
  have hwf := hr.wf
  have hne : ∀ l : Level, l.empty = false ↔ l.queue ≠ [] := by
    intro l
    unfold Level.empty
    cases l.queue <;> simp
  have hbid : (∃ l, b.bids[b.max_bid]? = some l ∧ l.empty = false) ↔ 0 < b.max_bid := by
    constructor
    · rintro ⟨l, hl, he⟩
      by_contra hz
      have h0 : b.max_bid = 0 := by omega
      rw [h0] at hl
      obtain ⟨h, hh⟩ := List.exists_mem_of_ne_nil _ ((hne l).mp he)
      have := (hwf.core.nodes Side.Buy 0 l hl h hh).ppos
      omega
    · intro hpos
      obtain ⟨l, hl, hq⟩ := hwf.bid.tight hpos
      exact ⟨l, hl, (hne l).mpr hq⟩
  have hask : (∃ l, b.asks[b.min_ask]? = some l ∧ l.empty = false) ↔ b.min_ask ≤ mp := by
    constructor
    · rintro ⟨l, hl, _⟩
      have := (List.getElem?_eq_some.mp hl).1
      rw [hwf.asks_len] at this
      omega
    · intro hle
      obtain ⟨l, hl, hq⟩ := hwf.ask.tight hle
      exact ⟨l, hl, (hne l).mpr hq⟩
  refine ⟨?_, hbid, ?_, ?_, hwf.ask.le, hask, ?_⟩
  · intro p l hl he
    by_contra hgt
    exact (hne l).mp he (hwf.bid.above p l hl (by omega))
  · intro hall
    by_contra hz
    obtain ⟨l, hl, he⟩ := hbid.mpr (by omega)
    rw [hall _ l hl] at he
    exact Bool.noConfusion he
  · intro p l hl he
    by_contra hgt
    exact (hne l).mp he (hwf.ask.below p l hl (by omega))
  · intro hall
    by_contra hz
    have hle := hwf.ask.le
    obtain ⟨l, hl, he⟩ := hask.mpr (by omega)
    rw [hall _ l hl] at he
    exact Bool.noConfusion he

theorem cursor_tightness_witness :
    twoSidedBook.max_bid = 2 ∧ twoSidedBook.min_ask = 3
      ∧ ((∃ l, twoSidedBook.bids[twoSidedBook.max_bid]? = some l ∧ l.empty = false)
          ↔ 0 < twoSidedBook.max_bid)
      ∧ ((∃ l, twoSidedBook.asks[twoSidedBook.min_ask]? = some l ∧ l.empty = false)
          ↔ twoSidedBook.min_ask ≤ 5) :=
  ⟨by decide, by decide,
    (cursor_tightness 4 5 twoSidedBook twoSidedBook_reachable).2.1,
    (cursor_tightness 4 5 twoSidedBook twoSidedBook_reachable).2.2.2.2.2.1⟩

/-- C8. Index fidelity in every reachable book: `find(id)` returns a node iff a node with
that id is linked in some level; the node found carries the id, is linked in the level at
its own price on its own side, exactly once, and in no other level; and two linked nodes
with the same id are the same node. -/
theorem index_fidelity (capacity mp : Nat) (b : OrderBook) (hr : Reachable capacity mp b) :
    (∀ id : Nat, (b.find id).isSome = true ↔
        ∃ (s : Side) (p : Nat) (l : Level) (h : Nat),
          (b.levels s)[p]? = some l ∧ h ∈ l.queue ∧ (b.node h).id = id)
      ∧ (∀ (id h : Nat), b.find id = some h →
          (b.node h).id = id
          ∧ (∃ l, (b.levels (b.node h).side)[(b.node h).price]? = some l
              ∧ l.queue.count h = 1)
          ∧ ∀ (s : Side) (p : Nat) (l : Level), (b.levels s)[p]? = some l → h ∈ l.queue →
              s = (b.node h).side ∧ p = (b.node h).price)
      ∧ (∀ (s1 s2 : Side) (p1 p2 : Nat) (l1 l2 : Level) (h1 h2 : Nat),
          (b.levels s1)[p1]? = some l1 → h1 ∈ l1.queue →
          (b.levels s2)[p2]? = some l2 → h2 ∈ l2.queue →
          (b.node h1).id = (b.node h2).id → h1 = h2 ∧ s1 = s2 ∧ p1 = p2) := by
  have hwf := hr.wf
  refine ⟨?_, ?_, ?_⟩
  · intro id
    constructor
    · intro hs
      obtain ⟨h, hfind⟩ := Option.isSome_iff_exists.mp hs
      obtain ⟨hid, l, hl, hh⟩ := hwf.core.index id h hfind
      exact ⟨_, _, l, h, hl, hh, hid⟩
    · rintro ⟨s, p, l, h, hl, hh, hid⟩
      have n := hwf.core.nodes s p l hl h hh
      have hi : b.find (b.node h).id = some h := n.idx
      rw [hid] at hi
      rw [hi]
      rfl
  · intro id h hfind
    obtain ⟨hid, l, hl, hh⟩ := hwf.core.index id h hfind
    refine ⟨hid, ⟨l, hl, ?_⟩, ?_⟩
    · exact List.count_eq_one_of_mem (hwf.core.queue_nodup _ _ l hl) hh
    · intro s p l2 hl2 hh2
      exact hwf.core.level_unique hl hh hl2 hh2
  · intro s1 s2 p1 p2 l1 l2 h1 h2 hl1 hh1 hl2 hh2 hid
    have n1 := hwf.core.nodes s1 p1 l1 hl1 h1 hh1
    have n2 := hwf.core.nodes s2 p2 l2 hl2 h2 hh2
    have e1 : b.resting_orders (b.node h1).id = some h1 := n1.idx
    have e2 : b.resting_orders (b.node h2).id = some h2 := n2.idx
    rw [hid, e2] at e1
    have e : h2 = h1 := Option.some.inj e1
    subst e
    have := hwf.core.level_unique hl1 hh1 hl2 hh2
    exact ⟨rfl, this.1.symm, this.2.symm⟩

theorem index_fidelity_witness :
    twoSidedBook.find 1 = some 3 ∧ twoSidedBook.find 2 = some 2
      ∧ ((twoSidedBook.find 7).isSome = true ↔
        ∃ (s : Side) (p : Nat) (l : Level) (h : Nat),
          (twoSidedBook.levels s)[p]? = some l ∧ h ∈ l.queue ∧ (twoSidedBook.node h).id = 7) :=
  ⟨by decide, by decide, (index_fidelity 4 5 twoSidedBook twoSidedBook_reachable).1 7⟩

/-! ## Events of a submit -/

set_option maxRecDepth 100000 in
theorem oneSellBook_reachable : Reachable 100 200 oneSellBook :=
  Reachable.step (Call.submit ⟨1, 50, 100, Side.Sell⟩) Reachable.init (by decide)

theorem matchLoop_events {mp : Nat} (pol : Policy) (fuel : Nat) (o : Order) (b : OrderBook)
    (hwf : WF mp b) (hfuel : sideSize (b.levels pol.opp) + 2 ≤ fuel) :
    LoopEvents o (matchLoop pol fuel o b) := by
  refine matchLoop_induct pol (fun o _ r => LoopEvents o r) ?_ ?_ ?_ fuel o b hwf hfuel
  · intro o b _ _
    exact ⟨by simp, by simp [tradedQuantity]⟩
  · intro o b l h tl _ _ _ _ _ _ _
    exact ⟨by simp [Event.isTradeOf], by simp [tradedQuantity, Event.tradeQty]⟩
  · intro o b l h tl b1 r _ _ _ _ _ _ hle _ _ _ hr
    refine ⟨?_, ?_⟩
    · intro e he
      rcases List.mem_cons.mp he with rfl | he
      · simp [Event.isTradeOf]
      · exact hr.trades e he
    · have := hr.conserved
      simp only [tradedQuantity, List.map_cons, List.sum_cons, Event.tradeQty] at this ⊢
      omega

theorem tradedQuantity_append (xs ys : List Event) :
    tradedQuantity (xs ++ ys) = tradedQuantity xs + tradedQuantity ys := by
  simp [tradedQuantity]

theorem addedQuantity_append (xs ys : List Event) :
    addedQuantity (xs ++ ys) = addedQuantity xs + addedQuantity ys := by
  simp [addedQuantity]

theorem addedQuantity_trades {id : Nat} {xs : List Event}
    (h : ∀ e ∈ xs, e.isTradeOf id = true) : addedQuantity xs = 0 := by
  induction xs with
  | nil => rfl
  | cons x xs ih =>
    have hx := h x (by simp)
    have := ih (fun e he => h e (by simp [he]))
    cases x <;> simp [Event.isTradeOf] at hx
    simp only [addedQuantity, List.map_cons, List.sum_cons, Event.addedQty] at this ⊢
    omega

theorem node_inserted {b : OrderBook} {o : Order} {h : Nat} {fs : List Nat} {l : Level}
    (hlt : h < b.resting_orders_pool.store.length) : (b.inserted o h fs l).node h = o := by
  simp only [OrderBook.node, ObjectPool.read, OrderBook.inserted]
  rw [getD_set_self _ hlt]

theorem level_inserted {b : OrderBook} {o : Order} {h : Nat} {fs : List Nat} {l : Level}
    (hl : (b.levels o.side)[o.price]? = some l) :
    ((b.inserted o h fs l).levels o.side)[o.price]? = some (l.add h o.quantity) := by
  have hlt : o.price < (b.levels o.side).length := (List.getElem?_eq_some.mp hl).1
  unfold OrderBook.inserted OrderBook.levels
  cases hs : o.side <;> rw [hs] at hlt <;> simp [List.getElem?_set, hlt] <;> exact hlt

/-- C2. Conservation of quantity: when `submitOrder` of a valid order returns normally on a
reachable book, the submitted quantity is the sum of the quantities of the trade events plus
the quantity of the added event (0 without one), and when that quantity is positive the
index finds under the submitted id a node that holds the order with exactly this residual
quantity and is linked at the tail of the level at its price on its side. -/
theorem conservation_of_quantity (capacity mp : Nat) (b : OrderBook)
    (hr : Reachable capacity mp b) (o : Order) (hv : (Call.submit o).valid mp b) :
    (submitOrder o b).fault = none
      ∧ o.quantity = tradedQuantity (submitOrder o b).events
          + addedQuantity (submitOrder o b).events
      ∧ (0 < addedQuantity (submitOrder o b).events →
          ∃ (h : Nat) (l : Level), (submitOrder o b).book.find o.id = some h
            ∧ (submitOrder o b).book.node h
                = { o with quantity := addedQuantity (submitOrder o b).events }
            ∧ ((submitOrder o b).book.levels o.side)[o.price]? = some l
            ∧ l.queue.getLast? = some h) := by
  have hwf := hr.wf
  obtain ⟨hq, hq2, hp, hp2, hid, hnf⟩ := hv
  obtain ⟨hpost, hcase⟩ := matchOrder_cases hwf (o := o) (by omega) hp2 hq2 hid
  have hev : LoopEvents o (matchLoop (policyOf o.side) (matchFuel (policyOf o.side) b) o b) :=
    matchLoop_events (policyOf o.side) _ o b hwf (by rw [matchFuel_eq])
  unfold submitOrder at hnf ⊢
  generalize matchLoop (policyOf o.side) (matchFuel (policyOf o.side) b) o b = r at *
  have hadd := addedQuantity_trades hev.trades
  rcases hcase with ⟨hz, h2⟩ | ⟨_, _, h2⟩ | ⟨hpos, fs, h, l, hf, hl, hwf2, h2⟩
  · rw [h2]
    refine ⟨rfl, ?_, ?_⟩
    · have := hev.conserved
      simp only
      omega
    · intro hpos
      simp only at hpos
      omega
  · rw [h2] at hnf
    exact absurd rfl hnf
  · rw [h2]
    have hres : addedQuantity (r.events ++ [Event.added r.order]) = r.order.quantity := by
      rw [addedQuantity_append, hadd]
      simp [addedQuantity, Event.addedQty]
    have hlt : h < r.book.resting_orders_pool.store.length :=
      hpost.wf.core.free_lt h (by simp [hf])
    refine ⟨rfl, ?_, ?_⟩
    · simp only
      rw [hres, tradedQuantity_append]
      have := hev.conserved
      simp only [tradedQuantity, List.map_cons, List.map_nil, List.sum_cons, List.sum_nil,
        Event.tradeQty] at this ⊢
      omega
    · intro _
      simp only
      rw [hres]
      have hl2 : (r.book.levels r.order.side)[r.order.price]? = some l := by
        rw [hpost.side, hpost.price]
        exact hl
      have hlev : ((r.book.inserted r.order h fs l).levels r.order.side)[r.order.price]?
          = some (l.add h r.order.quantity) := level_inserted hl2
      rw [hpost.side, hpost.price] at hlev
      refine ⟨h, l.add h r.order.quantity, ?_, ?_, hlev, ?_⟩
      · show OrderBook.emplace r.book.resting_orders r.order.id h o.id = some h
        rw [hpost.id]
        exact emplace_self (hpost.index _ hid)
      · rw [node_inserted hlt]
        have h1 := hpost.id
        have h2 := hpost.price
        have h3 := hpost.side
        cases hro : r.order
        rw [hro] at h1 h2 h3
        simp only at h1 h2 h3
        subst h1 h2 h3
        rfl
      · simp [Level.add]

set_option maxRecDepth 100000 in
theorem conservation_of_quantity_witness :
    (submitOrder ⟨2, 60, 100, Side.Buy⟩ oneSellBook).events
        = [Event.trade 2 1 100 50, Event.added ⟨2, 10, 100, Side.Buy⟩]
      ∧ (60 : Nat) = tradedQuantity (submitOrder ⟨2, 60, 100, Side.Buy⟩ oneSellBook).events
          + addedQuantity (submitOrder ⟨2, 60, 100, Side.Buy⟩ oneSellBook).events :=
  ⟨by decide,
    (conservation_of_quantity 100 200 oneSellBook oneSellBook_reachable ⟨2, 60, 100, Side.Buy⟩
      (by decide)).2.1⟩

theorem matchLoop_exact {mp : Nat} (pol : Policy) (fuel : Nat) (o : Order) (b : OrderBook)
    (hwf : WF mp b) (hfuel : sideSize (b.levels pol.opp) + 2 ≤ fuel) :
    ExactFill pol o b (matchLoop pol fuel o b) := by
  refine matchLoop_induct pol (ExactFill pol) ?_ ?_ ?_ fuel o b hwf hfuel
  · intro o b _ hc
    refine ⟨fun hz => ⟨rfl, hz⟩, ?_⟩
    intro l h tl hcm hm _ _ _ hq
    exact absurd ⟨hq, hcm, hm⟩ hc
  · intro o b l h tl _ hq _ _ hl hqueue hlt
    refine ⟨fun hz => by omega, ?_⟩
    intro l2 h2 tl2 _ _ hl2 hqueue2 heq _
    rw [hl] at hl2
    have e : l = l2 := Option.some.inj hl2
    subst e
    rw [hqueue] at hqueue2
    have e2 : h = h2 := (List.cons.inj hqueue2).1
    subst e2
    omega
  · intro o b l h tl b1 r _ hq _ _ hl hqueue hle _ _ _ hr
    refine ⟨fun hz => by omega, ?_⟩
    intro l2 h2 tl2 _ _ hl2 hqueue2 heq _
    rw [hl] at hl2
    have e : l = l2 := Option.some.inj hl2
    subst e
    rw [hqueue] at hqueue2
    have e2 : h = h2 := (List.cons.inj hqueue2).1
    subst e2
    have h0 := hr.1 (by simp only; omega)
    refine ⟨?_, h0.2⟩
    show _ :: r.events = _
    rw [h0.1, heq]

/-- C5. Events of a submit: when `submitOrder` is called with a valid order on a reachable
book it returns normally and the listener receives a sequence of trade events, all with the
submitted id as incoming id, followed by one added event iff the residual quantity (the
submitted quantity less the traded quantities) is positive; that event carries the
submitted id, price and side with the residual quantity; no canceled or modified event is
emitted. When the front order of the best opposite level can be matched and has exactly the
submitted quantity, the events are one trade and nothing else. -/
theorem submit_event_sequence (capacity mp : Nat) (b : OrderBook)
    (hr : Reachable capacity mp b) (o : Order) (hv : (Call.submit o).valid mp b) :
    (submitOrder o b).fault = none
      ∧ (∃ trades : List Event, (∀ e ∈ trades, e.isTradeOf o.id = true)
          ∧ (submitOrder o b).events = trades ++
              (if 0 < o.quantity - tradedQuantity trades
               then [Event.added { o with quantity := o.quantity - tradedQuantity trades }]
               else []))
      ∧ (∀ e ∈ (submitOrder o b).events,
          (∀ id : Nat, e ≠ Event.canceled id) ∧ (∀ x : Order, e ≠ Event.modified x))
      ∧ (∀ (l : Level) (h : Nat) (tl : List Nat),
          (policyOf o.side).canMatch o b = true →
          (policyOf o.side).hasMatchingOrders b = true →
          (b.levels (policyOf o.side).opp)[(policyOf o.side).best b]? = some l →
          l.queue = h :: tl → (b.node h).quantity = o.quantity →
          (submitOrder o b).events
            = [Event.trade o.id (b.node h).id (b.node h).price o.quantity]) := by
  have hwf := hr.wf
  obtain ⟨hq, hq2, hp, hp2, hid, hnf⟩ := hv
  obtain ⟨hpost, hcase⟩ := matchOrder_cases hwf (o := o) (by omega) hp2 hq2 hid
  have hev : LoopEvents o (matchLoop (policyOf o.side) (matchFuel (policyOf o.side) b) o b) :=
    matchLoop_events (policyOf o.side) _ o b hwf (by rw [matchFuel_eq])
  have hex : ExactFill (policyOf o.side) o b
      (matchLoop (policyOf o.side) (matchFuel (policyOf o.side) b) o b) :=
    matchLoop_exact (policyOf o.side) _ o b hwf (by rw [matchFuel_eq])
  unfold submitOrder at hnf ⊢
  generalize matchLoop (policyOf o.side) (matchFuel (policyOf o.side) b) o b = r at *
  have hcons := hev.conserved
  have hshape : (matchOrder o (policyOf o.side) b).fault = none
      ∧ (matchOrder o (policyOf o.side) b).events = r.events ++
          (if 0 < o.quantity - tradedQuantity r.events
           then [Event.added { o with quantity := o.quantity - tradedQuantity r.events }]
           else []) := by
    rcases hcase with ⟨hz, h2⟩ | ⟨_, _, h2⟩ | ⟨hpos, fs, h, l, hf, hl, hwf2, h2⟩
    · rw [h2]
      refine ⟨rfl, ?_⟩
      simp only
      rw [if_neg (by omega)]
      simp
    · rw [h2] at hnf
      exact absurd rfl hnf
    · rw [h2]
      refine ⟨rfl, ?_⟩
      simp only
      rw [if_pos (by omega)]
      have hro : r.order = { o with quantity := o.quantity - tradedQuantity r.events } := by
        have h1 := hpost.id
        have h2 := hpost.price
        have h3 := hpost.side
        cases hro : r.order
        rw [hro] at h1 h2 h3 hcons
        simp only at h1 h2 h3 hcons
        subst h1 h2 h3
        congr
        omega
      rw [hro]
  refine ⟨hshape.1, ⟨r.events, hev.trades, hshape.2⟩, ?_, ?_⟩
  · intro e he
    rw [hshape.2] at he
    rcases List.mem_append.mp he with he | he
    · have := hev.trades e he
      cases e with
      | trade i r p q => simp
      | _ => simp [Event.isTradeOf] at this
    · split at he
      · simp at he
        subst he
        simp
      · simp at he
  · intro l h tl hcm hm hl hqueue heq
    obtain ⟨h1, h2⟩ := hex.2 l h tl hcm hm hl hqueue heq hq
    rw [hshape.2, h1]
    have : tradedQuantity [Event.trade o.id (b.node h).id (b.node h).price o.quantity]
        = o.quantity := by simp [tradedQuantity, Event.tradeQty]
    rw [this]
    simp

set_option maxRecDepth 100000 in
theorem submit_event_sequence_witness :
    (submitOrder ⟨2, 50, 100, Side.Buy⟩ oneSellBook).events = [Event.trade 2 1 100 50]
      ∧ (submitOrder ⟨2, 60, 100, Side.Buy⟩ oneSellBook).events
          = [Event.trade 2 1 100 50, Event.added ⟨2, 10, 100, Side.Buy⟩]
      ∧ (submitOrder ⟨2, 50, 100, Side.Buy⟩ oneSellBook).fault = none :=
  ⟨by decide, by decide,
    (submit_event_sequence 100 200 oneSellBook oneSellBook_reachable ⟨2, 50, 100, Side.Buy⟩
      (by decide)).1⟩

/-! ## Level totals -/

theorem overflowBook_reachable : Reachable 2 1 overflowBook :=
  Reachable.step (Call.submit ⟨2, 2147483648, 1, Side.Sell⟩)
    (Reachable.step (Call.submit ⟨1, 2147483648, 1, Side.Sell⟩) Reachable.init (by decide))
    (by decide)

theorem SameUpToCursors.levels_eq {b1 b2 : OrderBook} (h : SameUpToCursors b1 b2) :
    b1.levels = b2.levels := by
  funext s
  cases s
  · exact h.bids
  · exact h.asks

/-- C7, as stated, fails: after two valid submits of `Sell 2^31 @ 1` the level at price 1
holds orders whose quantities add up to `2^32`, and its `total_quantity` is 0. -/
theorem level_sum_counterexample :
    Reachable 2 1 overflowBook
      ∧ (overflowBook.asks[1]?).map Level.total_quantity = some 0
      ∧ (overflowBook.asks[1]?).map
          (fun l => queueSum overflowBook.resting_orders_pool.store l.queue)
          = some 4294967296
      ∧ ¬ (∀ (s : Side) (p : Nat) (l : Level), (overflowBook.levels s)[p]? = some l →
          l.total_quantity = queueSum overflowBook.resting_orders_pool.store l.queue) :=
  ⟨overflowBook_reachable, by decide, by decide,
    fun hall => absurd (hall Side.Sell 1 ⟨[1, 0], 0⟩ (by decide)) (by decide)⟩

/-- C7, amended. In every reachable book the `total_quantity` of each level equals the sum
of the quantities of the orders linked in it modulo `2^32`; and `cancelOrder` of a live
order replaces the total of its level by the `uint32_t` difference of the total and the
quantity of the order, which is the sum of the remaining quantities modulo `2^32`. -/
theorem level_sum_mod (capacity mp : Nat) (b : OrderBook) (hr : Reachable capacity mp b) :
    (∀ (s : Side) (p : Nat) (l : Level), (b.levels s)[p]? = some l →
        l.total_quantity = queueSum b.resting_orders_pool.store l.queue % 2 ^ 32)
      ∧ (∀ (id h : Nat) (l : Level), b.find id = some h →
          (b.levels (b.node h).side)[(b.node h).price]? = some l →
          ∃ l1, ((cancelOrder id b).book.levels (b.node h).side)[(b.node h).price]? = some l1
            ∧ l1.total_quantity = sub32 l.total_quantity (b.node h).quantity
            ∧ l1.total_quantity
                = queueSum b.resting_orders_pool.store (l.queue.erase h) % 2 ^ 32) := by
  have hwf := hr.wf
  refine ⟨hwf.core.total, ?_⟩
  intro id h l hfind hl
  obtain ⟨l0, b1, hl0, hh, _, heq, hwf1, hsame, _⟩ := cancelOrder_spec hwf hfind
  rw [hl] at hl0
  have e : l = l0 := Option.some.inj hl0
  subst e
  rw [heq]
  simp only
  have hlev : (b1.levels (b.node h).side)[(b.node h).price]?
      = some (l.erase h (b.node h).quantity) := by
    rw [hsame.levels_eq, levels_unlinked]
    exact setLevel_get_self hl
  refine ⟨_, hlev, rfl, ?_⟩
  have ht := hwf1.core.total _ _ _ hlev
  rw [ht, hsame.pool]
  rfl

theorem level_sum_mod_witness :
    (overflowBook.asks[1]?).map Level.total_quantity = some 0
      ∧ ∀ (s : Side) (p : Nat) (l : Level), (overflowBook.levels s)[p]? = some l →
        l.total_quantity = queueSum overflowBook.resting_orders_pool.store l.queue % 2 ^ 32 :=
  ⟨by decide, (level_sum_mod 2 1 overflowBook overflowBook_reachable).1⟩

/-! ## Cancel -/

/-- C9. For a live id in a reachable book, `cancelOrder(id)` returns normally and emits
exactly `on_canceled(id)`; afterwards `find(id)` is null, the node is linked in no level and
its slot is in the free list; the stored orders are untouched, every other id is found as
before, and every level holds its former nodes in their former order, less the node. -/
theorem cancel_removes_order (capacity mp : Nat) (b : OrderBook)
    (hr : Reachable capacity mp b) (id h : Nat) (hfind : b.find id = some h) :
    (cancelOrder id b).fault = none
      ∧ (cancelOrder id b).events = [Event.canceled id]
      ∧ (cancelOrder id b).book.find id = none
      ∧ (∀ (s : Side) (p : Nat) (l : Level),
          ((cancelOrder id b).book.levels s)[p]? = some l → h ∉ l.queue)
      ∧ h ∈ (cancelOrder id b).book.resting_orders_pool.free_indices
      ∧ (cancelOrder id b).book.resting_orders_pool.store = b.resting_orders_pool.store
      ∧ (∀ id1 : Nat, id1 ≠ id → (cancelOrder id b).book.find id1 = b.find id1)
      ∧ (∀ (s : Side) (p : Nat) (l : Level), (b.levels s)[p]? = some l →
          ∃ l1, ((cancelOrder id b).book.levels s)[p]? = some l1
            ∧ l1.queue = l.queue.erase h) := by
  have hwf := hr.wf
  obtain ⟨l0, b1, hl0, hh, hid, heq, hwf1, hsame, _⟩ := cancelOrder_spec hwf hfind
  rw [heq]
  have hlv : b1.levels = setLevel b.levels (b.node h).side (b.node h).price
      (l0.erase h (b.node h).quantity) := by
    rw [hsame.levels_eq, levels_unlinked]
  refine ⟨rfl, rfl, ?_, ?_, ?_, ?_, ?_, ?_⟩
  · show b1.resting_orders id = none
    rw [hsame.index]
    simp [OrderBook.unlinked, hid]
  · intro s p l hl hmem
    simp only at hl
    rw [hlv] at hl
    rcases setLevel_cases hl0 hl with ⟨rfl, rfl, rfl⟩ | ⟨hne, h3⟩
    · have hnd := hwf.core.queue_nodup _ _ l0 hl0
      exact (hnd.mem_erase_iff.mp hmem).1 rfl
    · exact hne (hwf.core.level_unique hl0 hh h3 hmem)
  · show h ∈ b1.resting_orders_pool.free_indices
    rw [hsame.pool]
    simp [OrderBook.unlinked]
  · show b1.resting_orders_pool.store = _
    rw [hsame.pool]
    rfl
  · intro id1 hne
    show b1.resting_orders id1 = b.resting_orders id1
    rw [hsame.index]
    simp [OrderBook.unlinked, hid, hne]
  · intro s p l hl
    simp only
    rw [hlv]
    by_cases hc : s = (b.node h).side ∧ p = (b.node h).price
    · obtain ⟨rfl, rfl⟩ := hc
      rw [hl0] at hl
      have e : l0 = l := Option.some.inj hl
      subst e
      exact ⟨_, setLevel_get_self hl0, rfl⟩
    · refine ⟨l, ?_, ?_⟩
      · rw [setLevel_get_other hc]
        exact hl
      · rw [List.erase_of_not_mem]
        intro hmem
        exact hc (hwf.core.level_unique hl0 hh hl hmem)

theorem cancel_removes_order_witness :
    twoSidedBook.find 1 = some 3
      ∧ (cancelOrder 1 twoSidedBook).events = [Event.canceled 1]
      ∧ (cancelOrder 1 twoSidedBook).book.find 1 = none
      ∧ (cancelOrder 1 twoSidedBook).book.min_ask = 6 :=
  ⟨by decide,
    (cancel_removes_order 4 5 twoSidedBook twoSidedBook_reachable 1 3 (by decide)).2.1,
    (cancel_removes_order 4 5 twoSidedBook twoSidedBook_reachable 1 3 (by decide)).2.2.1,
    by decide⟩

/-! ## Submit then cancel -/

theorem BidCursor.unique_bid {mp : Nat} {bids : List Level} {m1 m2 : Nat}
    (h1 : BidCursor mp bids m1) (h2 : BidCursor mp bids m2) : m1 = m2 := by
  by_contra hne
  rcases Nat.lt_or_gt_of_ne hne with hlt | hgt
  · obtain ⟨l, hl, hq⟩ := h2.tight (by omega)
    exact hq (h1.above m2 l hl hlt)
  · obtain ⟨l, hl, hq⟩ := h1.tight (by omega)
    exact hq (h2.above m1 l hl hgt)

theorem AskCursor.unique_ask {mp : Nat} {asks : List Level} {m1 m2 : Nat}
    (h1 : AskCursor mp asks m1) (h2 : AskCursor mp asks m2) : m1 = m2 := by
  by_contra hne
  rcases Nat.lt_or_gt_of_ne hne with hlt | hgt
  · have := h2.le
    obtain ⟨l, hl, hq⟩ := h1.tight (by omega)
    exact hq (h2.below m1 l hl hlt)
  · have := h1.le
    obtain ⟨l, hl, hq⟩ := h2.tight (by omega)
    exact hq (h1.below m2 l hl hgt)

theorem levels_inserted (b : OrderBook) (o : Order) (h : Nat) (fs : List Nat) (l : Level) :
    (b.inserted o h fs l).levels = setLevel b.levels o.side o.price (l.add h o.quantity) := by
  funext s
  unfold OrderBook.inserted OrderBook.levels setLevel
  cases hs : o.side <;> cases s <;> simp

theorem setLevel_setLevel (lv : Side → List Level) (s : Side) (p : Nat) (x y : Level) :
    setLevel (setLevel lv s p x) s p y = setLevel lv s p y := by
  funext s1
  unfold setLevel
  by_cases hs : s1 = s
  · simp [hs, List.set_set]
  · simp [hs]

theorem setLevel_same {lv : Side → List Level} {s : Side} {p : Nat} {l : Level}
    (hl : (lv s)[p]? = some l) : setLevel lv s p l = lv := by
  funext s1
  unfold setLevel
  by_cases hs : s1 = s
  · subst hs
    simp only [if_true]
    apply List.ext_getElem?
    intro n
    rw [List.getElem?_set]
    have hlt : p < (lv s1).length := (List.getElem?_eq_some.mp hl).1
    by_cases hp : p = n
    · subst hp
      simp [hlt, hl]
    · simp [hp]
  · simp [hs]

theorem add_erase_cancel {l : Level} {h q : Nat} (hn : h ∉ l.queue)
    (ht : l.total_quantity < 2 ^ 32) : (l.add h q).erase h q = l := by
  unfold Level.add Level.erase
  simp only
  rw [List.erase_append_right _ hn, sub32_add32_cancel ht]
  simp

theorem matchOrder_nonCrossing {mp : Nat} {b : OrderBook} (hwf : WF mp b) {o : Order}
    (hq : 0 < o.quantity) (hq2 : o.quantity < 2 ^ 32) (hp : 0 < o.price) (hp2 : o.price ≤ mp)
    (hid : b.resting_orders o.id = none)
    (hnf : (submitOrder o b).fault ≠ some Fault.PoolExhausted)
    (hnc : (o.side = Side.Buy ∧ o.price < b.min_ask)
      ∨ (o.side = Side.Sell ∧ b.max_bid < o.price)) :
    ∃ (fs : List Nat) (h : Nat) (l : Level),
      b.resting_orders_pool.free_indices = fs ++ [h]
      ∧ (b.levels o.side)[o.price]? = some l
      ∧ WF mp (b.inserted o h fs l)
      ∧ submitOrder o b =
        { fault := none, book := b.inserted o h fs l, events := [Event.added o] } := by
  have hstop : ¬ (o.quantity > 0 ∧ (policyOf o.side).canMatch o b = true
      ∧ (policyOf o.side).hasMatchingOrders b = true) := by
    rintro ⟨_, hcm, _⟩
    rcases hnc with ⟨hs, hlt⟩ | ⟨hs, hlt⟩
    · rw [hs] at hcm
      simp only [policyOf, Policy.canMatch, OrderBook.bestAsk, decide_eq_true_eq] at hcm
      omega
    · rw [hs] at hcm
      simp only [policyOf, Policy.canMatch, OrderBook.bestBid, decide_eq_true_eq] at hcm
      omega
  have hloop : matchLoop (policyOf o.side) (matchFuel (policyOf o.side) b) o b
      = { fault := none, order := o, book := b, events := [] } := by
    rw [matchFuel_eq]
    exact matchLoop_stop _ _ o b hstop
  obtain ⟨_, hcase⟩ := matchOrder_cases hwf (o := o) hp hp2 hq2 hid
  rw [hloop] at hcase
  unfold submitOrder at hnf ⊢
  rcases hcase with ⟨hz, _⟩ | ⟨_, _, h2⟩ | ⟨_, fs, h, l, hf, hl, hwf2, h2⟩
  · simp only at hz
    omega
  · rw [h2] at hnf
    exact absurd rfl hnf
  · exact ⟨fs, h, l, hf, hl, hwf2, h2⟩

/-- C10. Submit then cancel: on a reachable book, submitting a valid order that does not
cross (Buy below `min_ask`, Sell above `max_bid`) and cancelling it again leaves the book as
it was: the same nodes in the same order with the same total in every level, the same
`max_bid` and `min_ask`, the same id index, the same free list (hence as many free slots),
and the same order in every slot that is not free. -/
theorem submit_cancel_round_trip (capacity mp : Nat) (b : OrderBook)
    (hr : Reachable capacity mp b) (o : Order) (hv : (Call.submit o).valid mp b)
    (hnc : (o.side = Side.Buy ∧ o.price < b.min_ask)
      ∨ (o.side = Side.Sell ∧ b.max_bid < o.price)) :
    (submitOrder o b).fault = none
      ∧ (cancelOrder o.id (submitOrder o b).book).fault = none
      ∧ (cancelOrder o.id (submitOrder o b).book).book.bids = b.bids
      ∧ (cancelOrder o.id (submitOrder o b).book).book.asks = b.asks
      ∧ (cancelOrder o.id (submitOrder o b).book).book.max_bid = b.max_bid
      ∧ (cancelOrder o.id (submitOrder o b).book).book.min_ask = b.min_ask
      ∧ (cancelOrder o.id (submitOrder o b).book).book.resting_orders = b.resting_orders
      ∧ (cancelOrder o.id (submitOrder o b).book).book.resting_orders_pool.free_indices
          = b.resting_orders_pool.free_indices
      ∧ (∀ x : Nat, x ∉ b.resting_orders_pool.free_indices →
          (cancelOrder o.id (submitOrder o b).book).book.node x = b.node x) := by
  have hwf := hr.wf
  obtain ⟨hq, hq2, hp, hp2, hid, hnf⟩ := hv
  obtain ⟨fs, h, l, hf, hl, hwf2, hsub⟩ :=
    matchOrder_nonCrossing hwf hq hq2 (by omega) hp2 hid hnf hnc
  rw [hsub]
  have hlt : h < b.resting_orders_pool.store.length := hwf.core.free_lt h (by simp [hf])
  have hnode : (b.inserted o h fs l).node h = o := node_inserted hlt
  have hfind : (b.inserted o h fs l).find o.id = some h := emplace_self hid
  obtain ⟨l2, b2, hl2, _, _, heq, hwf3, hsame, _⟩ := cancelOrder_spec hwf2 hfind
  rw [hnode] at hl2 hsame
  rw [level_inserted hl] at hl2
  have e : l.add h o.quantity = l2 := Option.some.inj hl2
  subst e
  have heq2 : cancelOrder o.id
      ({ fault := none, book := b.inserted o h fs l, events := [Event.added o] } : Outcome).book
      = { fault := none, book := b2, events := [Event.canceled o.id] } := heq
  rw [heq2]
  have hunl : h ∉ l.queue := fun hm => hwf.core.free_unlinked _ _ l hl h hm (by simp [hf])
  have htot : l.total_quantity < 2 ^ 32 := by
    rw [hwf.core.total _ _ l hl]
    exact Nat.mod_lt _ (by norm_num)
  have hlevels : b2.levels = b.levels := by
    rw [hsame.levels_eq, levels_unlinked, levels_inserted, hnode, setLevel_setLevel,
      add_erase_cancel hunl htot, setLevel_same hl]
  have hbids : b2.bids = b.bids := congrFun hlevels Side.Buy
  have hasks : b2.asks = b.asks := congrFun hlevels Side.Sell
  refine ⟨rfl, rfl, hbids, hasks, ?_, ?_, ?_, ?_, ?_⟩
  · have h1 := hwf3.bid
    rw [hbids] at h1
    exact h1.unique_bid hwf.bid
  · have h1 := hwf3.ask
    rw [hasks] at h1
    exact h1.unique_ask hwf.ask
  · show b2.resting_orders = _
    rw [hsame.index]
    funext id
    simp only [OrderBook.unlinked]
    rw [hnode]
    by_cases hc : id = o.id
    · rw [if_pos hc, hc]
      exact hid.symm
    · rw [if_neg hc]
      exact emplace_other hc
  · show b2.resting_orders_pool.free_indices = _
    rw [hsame.pool]
    simp only [OrderBook.unlinked, OrderBook.inserted]
    exact hf.symm
  · intro x hx
    have hxh : x ≠ h := by
      intro e
      subst e
      exact hx (by simp [hf])
    show b2.node x = b.node x
    simp only [OrderBook.node, ObjectPool.read, hsame.pool, OrderBook.unlinked,
      OrderBook.inserted]
    exact getD_set_ne _ (Ne.symm hxh) _ _

theorem submit_cancel_round_trip_witness :
    (submitOrder ⟨3, 7, 1, Side.Buy⟩ twoSidedBook).events = [Event.added ⟨3, 7, 1, Side.Buy⟩]
      ∧ (cancelOrder 3 (submitOrder ⟨3, 7, 1, Side.Buy⟩ twoSidedBook).book).book.bids
          = twoSidedBook.bids
      ∧ (cancelOrder 3 (submitOrder ⟨3, 7, 1, Side.Buy⟩ twoSidedBook).book).book.max_bid
          = twoSidedBook.max_bid :=
  ⟨by decide,
    (submit_cancel_round_trip 4 5 twoSidedBook twoSidedBook_reachable ⟨3, 7, 1, Side.Buy⟩
      (by decide) (by decide)).2.2.1,
    (submit_cancel_round_trip 4 5 twoSidedBook twoSidedBook_reachable ⟨3, 7, 1, Side.Buy⟩
      (by decide) (by decide)).2.2.2.2.1⟩

/-! ## Priority -/

theorem linked_id_inj {mp : Nat} {b : OrderBook} (hwf : WF mp b) {s1 s2 : Side} {p1 p2 : Nat}
    {l1 l2 : Level} {x c : Nat} (hl1 : (b.levels s1)[p1]? = some l1) (hx : x ∈ l1.queue)
    (hl2 : (b.levels s2)[p2]? = some l2) (hc : c ∈ l2.queue)
    (hid : (b.node x).id = (b.node c).id) : x = c := by
  have e1 : b.resting_orders (b.node x).id = some x := (hwf.core.nodes s1 p1 l1 hl1 x hx).idx
  have e2 : b.resting_orders (b.node c).id = some c := (hwf.core.nodes s2 p2 l2 hl2 c hc).idx
  rw [hid, e2] at e1
  exact (Option.some.inj e1).symm

/-- Nothing has priority over the front node of the best level. -/
theorem head_unpreceded {mp : Nat} {b : OrderBook} (hwf : WF mp b) {pol : Policy}
    {l : Level} {h : Nat} {tl : List Nat} (hl : (b.levels pol.opp)[pol.best b]? = some l)
    (hqueue : l.queue = h :: tl) (x : Nat) : ¬ Precedes b pol x h := by
  rintro ⟨px, pc, lx, lc, hlx, hx, hlc, hc, hor⟩
  have hh : h ∈ l.queue := by simp [hqueue]
  have hpc : pc = pol.best b := (hwf.core.level_unique hl hh hlc hc).2
  subst hpc
  rcases hor with hb | ⟨hpe, pre, mid, post, hq⟩
  · have hempty : lx.queue = [] := by
      cases pol with
      | BuyPolicy => exact hwf.ask.below px lx hlx hb
      | SellPolicy => exact hwf.bid.above px lx hlx hb
    rw [hempty] at hx
    simp at hx
  · subst hpe
    rw [hl] at hlx
    have e : l = lx := Option.some.inj hlx
    subst e
    have hnd := hwf.core.queue_nodup _ _ l hl
    rw [hq] at hnd hqueue
    cases pre with
    | nil =>
      simp only [List.nil_append, List.cons_append] at hnd hqueue
      have e2 : x = h := (List.cons.inj hqueue).1
      subst e2
      have := (List.nodup_cons.mp hnd).1
      exact this (by simp)
    | cons y ys =>
      simp only [List.cons_append] at hnd hqueue
      have e2 : y = h := (List.cons.inj hqueue).1
      subst e2
      have := (List.nodup_cons.mp hnd).1
      exact this (by simp)

theorem tradedAgainst_cons (id : Nat) (e : Event) (evs : List Event) :
    tradedAgainst id (e :: evs) = e.qtyAgainst id + tradedAgainst id evs := by
  simp [tradedAgainst]

theorem tradedAgainst_append (id : Nat) (xs ys : List Event) :
    tradedAgainst id (xs ++ ys) = tradedAgainst id xs + tradedAgainst id ys := by
  simp [tradedAgainst]

theorem tradedAgainst_zero {id : Nat} {evs : List Event}
    (h : ∀ (i rid pr q : Nat), Event.trade i rid pr q ∈ evs → rid ≠ id) :
    tradedAgainst id evs = 0 := by
  induction evs with
  | nil => rfl
  | cons e es ih =>
    rw [tradedAgainst_cons, ih (fun i rid pr q hm => h i rid pr q (by simp [hm]))]
    cases e with
    | trade i rid pr q =>
      have := h i rid pr q (by simp)
      simp [Event.qtyAgainst, this]
    | _ => rfl

theorem afterFull_of_same {b b1 : OrderBook} {pol : Policy} {h : Nat} {l : Level}
    (hsame : SameUpToCursors b1 (b.unlinked pol.opp (pol.best b) h l (zeroed b h))) :
    AfterFull b b1 pol h l := by
  refine ⟨?_, ?_, ?_⟩
  · rw [hsame.levels_eq, levels_unlinked]
  · intro id
    show b1.resting_orders id = _
    rw [hsame.index]
    rfl
  · intro y hy
    show nodeOf b1.resting_orders_pool.store y = _
    rw [hsame.pool]
    exact zeroed_other b h y hy

theorem AfterFull.linked {b b1 : OrderBook} {pol : Policy} {h : Nat} {l : Level}
    {tl : List Nat} (ha : AfterFull b b1 pol h l)
    (hl : (b.levels pol.opp)[pol.best b]? = some l) (hqueue : l.queue = h :: tl)
    {p : Nat} {lx : Level} {x : Nat} (hlx : (b.levels pol.opp)[p]? = some lx)
    (hx : x ∈ lx.queue) (hxh : x ≠ h) :
    ∃ lx1, (b1.levels pol.opp)[p]? = some lx1 ∧ x ∈ lx1.queue
      ∧ (p ≠ pol.best b → lx1 = lx)
      ∧ (p = pol.best b → lx1.queue = tl) := by
  rw [ha.levels]
  by_cases hp : p = pol.best b
  · subst hp
    rw [hl] at hlx
    have e : l = lx := Option.some.inj hlx
    subst e
    refine ⟨_, setLevel_get_self hl, ?_, fun hne => absurd rfl hne, fun _ => ?_⟩
    · simp only [Level.erase]
      exact (List.mem_erase_of_ne hxh).mpr hx
    · simp [Level.erase, hqueue]
  · refine ⟨lx, ?_, hx, fun _ => rfl, fun he => absurd he hp⟩
    rw [setLevel_get_other (fun hc => hp hc.2)]
    exact hlx

/-- Priority between two nodes other than the unlinked one is kept. -/
theorem precedes_after_full {b b1 : OrderBook} {pol : Policy} {h : Nat} {l : Level}
    {tl : List Nat} (ha : AfterFull b b1 pol h l)
    (hl : (b.levels pol.opp)[pol.best b]? = some l) (hqueue : l.queue = h :: tl)
    {x c : Nat} (hxh : x ≠ h) (hch : c ≠ h) (hp : Precedes b pol x c) : Precedes b1 pol x c := by
  obtain ⟨px, pc, lx, lc, hlx, hx, hlc, hc, hor⟩ := hp
  obtain ⟨lx1, hlx1, hx1, hne1, heq1⟩ := ha.linked hl hqueue hlx hx hxh
  obtain ⟨lc1, hlc1, hc1, _, _⟩ := ha.linked hl hqueue hlc hc hch
  refine ⟨px, pc, lx1, lc1, hlx1, hx1, hlc1, hc1, ?_⟩
  rcases hor with hb | ⟨hpe, pre, mid, post, hq⟩
  · exact Or.inl hb
  · right
    refine ⟨hpe, ?_⟩
    by_cases hbest : px = pol.best b
    · subst hbest
      rw [hl] at hlx
      have e : l = lx := Option.some.inj hlx
      subst e
      rw [heq1 rfl]
      rw [hq] at hqueue
      cases pre with
      | nil =>
        simp only [List.nil_append, List.cons_append] at hqueue
        exact absurd (List.cons.inj hqueue).1 hxh
      | cons y ys =>
        simp only [List.cons_append] at hqueue
        exact ⟨ys, mid, post, by simpa using (List.cons.inj hqueue).2.symm⟩
    · rw [hne1 hbest]
      exact ⟨pre, mid, post, hq⟩

theorem matchLoop_priority {mp : Nat} (pol : Policy) (fuel : Nat) (o : Order) (b : OrderBook)
    (hwf : WF mp b) (hfuel : sideSize (b.levels pol.opp) + 2 ≤ fuel) :
    LoopPriority pol b (matchLoop pol fuel o b) := by
  refine matchLoop_induct pol (fun _ b r => LoopPriority pol b r) ?_ ?_ ?_ fuel o b hwf hfuel
  · intro o b _ _
    refine ⟨by simp, ?_⟩
    intro x c _ ev1 i pr q ev2 he
    simp at he
  · intro o b l h tl hwf _ _ _ hl hqueue _
    have hh : h ∈ l.queue := by simp [hqueue]
    have nd := hwf.core.nodes _ _ l hl h hh
    refine ⟨?_, ?_⟩
    · intro i rid pr q hm
      simp only [List.mem_singleton, Event.trade.injEq] at hm
      obtain ⟨_, rfl, rfl, _⟩ := hm
      refine ⟨h, l, nd.idx, ?_, hh⟩
      rw [show (b.node h).price = pol.best b from nd.price]
      exact hl
    · intro x c hp ev1 i pr q ev2 he
      have hev1 : ev1 = [] := by
        cases ev1 with
        | nil => rfl
        | cons e es =>
          have := congrArg List.length he
          simp at this
      subst hev1
      simp only [List.nil_append, List.cons.injEq, Event.trade.injEq] at he
      obtain ⟨⟨_, hid, _, _⟩, _⟩ := he
      obtain ⟨px, pc, lx, lc, hlx, hx, hlc, hc, hor⟩ := hp
      have hch : h = c := linked_id_inj hwf hl hh hlc hc hid
      subst hch
      exact absurd ⟨px, pc, lx, lc, hlx, hx, hlc, hc, hor⟩ (head_unpreceded hwf hl hqueue x)
  · intro o b l h tl b1 r hwf _ _ _ hl hqueue _ hwf1 hsame _ hr
    have hh : h ∈ l.queue := by simp [hqueue]
    have nd := hwf.core.nodes _ _ l hl h hh
    have ha := afterFull_of_same hsame
    -- trades of the rest of the loop are against ids other than that of `h`
    have hother : ∀ (i rid pr q : Nat), Event.trade i rid pr q ∈ r.events →
        rid ≠ (b.node h).id := by
      intro i rid pr q hm hrid
      obtain ⟨x, _, hfind, _, _⟩ := hr.live i rid pr q hm
      rw [ha.find, if_pos hrid] at hfind
      exact Option.noConfusion hfind
    refine ⟨?_, ?_⟩
    · intro i rid pr q hm
      rcases List.mem_cons.mp hm with he | hm
      · simp only [Event.trade.injEq] at he
        obtain ⟨_, rfl, rfl, _⟩ := he
        refine ⟨h, l, nd.idx, ?_, hh⟩
        rw [show (b.node h).price = pol.best b from nd.price]
        exact hl
      · obtain ⟨x, l1, hfind, hl1, hx⟩ := hr.live i rid pr q hm
        rw [ha.find, if_neg (hother i rid pr q hm)] at hfind
        refine ⟨x, ?_⟩
        rw [ha.levels] at hl1
        rcases setLevel_cases hl hl1 with ⟨_, rfl, rfl⟩ | ⟨_, h3⟩
        · refine ⟨l, hfind, hl, ?_⟩
          exact List.mem_of_mem_erase hx
        · exact ⟨l1, hfind, h3, hx⟩
    · intro x c hp ev1 i pr q ev2 he
      obtain ⟨px, pc, lx, lc, hlx, hx, hlc, hc, hor⟩ := hp
      cases ev1 with
      | nil =>
        simp only [List.nil_append, List.cons.injEq, Event.trade.injEq] at he
        obtain ⟨⟨_, hid, _, _⟩, _⟩ := he
        have hch : h = c := linked_id_inj hwf hl hh hlc hc hid
        subst hch
        exact absurd ⟨px, pc, lx, lc, hlx, hx, hlc, hc, hor⟩ (head_unpreceded hwf hl hqueue x)
      | cons e es =>
        simp only [List.cons_append, List.cons.injEq] at he
        obtain ⟨he1, he2⟩ := he
        subst he1
        have hcid : (b.node c).id ≠ (b.node h).id :=
          hother i (b.node c).id pr q (by rw [he2]; simp)
        have hch : c ≠ h := fun e => hcid (by rw [e])
        rw [tradedAgainst_cons]
        by_cases hxh : x = h
        · subst hxh
          have hz : tradedAgainst (b.node x).id es = 0 := by
            apply tradedAgainst_zero
            intro i2 rid pr2 q2 hm
            exact hother i2 rid pr2 q2 (by rw [he2]; simp [hm])
          rw [hz]
          simp [Event.qtyAgainst]
        · have hp1 : Precedes b1 pol x c :=
            precedes_after_full ha hl hqueue hxh hch ⟨px, pc, lx, lc, hlx, hx, hlc, hc, hor⟩
          have := hr.prior x c hp1 es i pr q ev2 (by rw [ha.node c hch]; exact he2)
          rw [ha.node x hxh] at this
          rw [this]
          have hidne : (b.node h).id ≠ (b.node x).id := by
            intro e
            exact hxh (linked_id_inj hwf hl hh hlx hx e).symm
          simp [Event.qtyAgainst, hidne]

theorem Policy.noWorse_refl (pol : Policy) (a : Nat) : pol.noWorse a a := by
  cases pol <;> exact le_refl a

theorem Policy.noWorse_trans {pol : Policy} {a c d : Nat} (h1 : pol.noWorse a c)
    (h2 : pol.noWorse c d) : pol.noWorse a d := by
  cases pol
  · exact le_trans h1 h2
  · exact le_trans h2 h1

theorem noWorse_of_canMatch {pol : Policy} {o : Order} {b : OrderBook}
    (h : pol.canMatch o b = true) : pol.noWorse (pol.best b) o.price := by
  cases pol
  · simpa [Policy.canMatch, OrderBook.bestAsk] using h
  · simpa [Policy.canMatch, OrderBook.bestBid] using h

theorem noWorse_of_advance {pol : Policy} {b b1 : OrderBook} (h : CursorsAdvance pol b b1) :
    pol.noWorse (pol.best b) (pol.best b1) := by
  cases pol
  · exact h.1
  · exact h.1

theorem tradePrices_cons_trade (i rid pr q : Nat) (evs : List Event) :
    tradePrices (Event.trade i rid pr q :: evs) = pr :: tradePrices evs := by
  simp [tradePrices, Event.tradePrice]

theorem matchLoop_prices {mp : Nat} (pol : Policy) (fuel : Nat) (o : Order) (b : OrderBook)
    (hwf : WF mp b) (hfuel : sideSize (b.levels pol.opp) + 2 ≤ fuel) :
    LoopPrices pol o b (matchLoop pol fuel o b) := by
  refine matchLoop_induct pol (LoopPrices pol) ?_ ?_ ?_ fuel o b hwf hfuel
  · intro o b _ _
    exact ⟨by simp [tradePrices], by simp [tradePrices]⟩
  · intro o b l h tl hwf _ hcm _ hl hqueue _
    have hh : h ∈ l.queue := by simp [hqueue]
    have nd := hwf.core.nodes _ _ l hl h hh
    have hpr : (b.node h).price = pol.best b := nd.price
    refine ⟨by simp [tradePrices, Event.tradePrice], ?_⟩
    intro pr hm
    have hm2 : pr ∈ tradePrices
        [Event.trade o.id (b.node h).id (b.node h).price o.quantity] := hm
    rw [tradePrices_cons_trade] at hm2
    have hm3 : pr = (b.node h).price := by simpa [tradePrices] using hm2
    subst hm3
    rw [hpr]
    exact ⟨pol.noWorse_refl _, noWorse_of_canMatch hcm⟩
  · intro o b l h tl b1 r hwf _ hcm _ hl hqueue _ _ _ hadv hr
    have hh : h ∈ l.queue := by simp [hqueue]
    have nd := hwf.core.nodes _ _ l hl h hh
    have hpr : (b.node h).price = pol.best b := nd.price
    have hstep := noWorse_of_advance hadv
    refine ⟨?_, ?_⟩
    · show (tradePrices (_ :: r.events)).Pairwise pol.noWorse
      rw [tradePrices_cons_trade, List.pairwise_cons]
      refine ⟨?_, hr.sorted⟩
      intro pr hm
      rw [hpr]
      exact Policy.noWorse_trans hstep (hr.bounds pr hm).1
    · intro pr hm
      have hm2 : pr ∈ tradePrices (Event.trade o.id (b.node h).id (b.node h).price
          (b.node h).quantity :: r.events) := hm
      rw [tradePrices_cons_trade] at hm2
      rcases List.mem_cons.mp hm2 with e | hm3
      · subst e
        rw [hpr]
        exact ⟨pol.noWorse_refl _, noWorse_of_canMatch hcm⟩
      · have := hr.bounds pr hm3
        exact ⟨Policy.noWorse_trans hstep this.1, this.2⟩

theorem node_requantified_ne {b : OrderBook} {s : Side} {p h t y : Nat} {l : Level}
    (hy : y ≠ h) : (b.requantified s p h t l).node y = b.node y := by
  simp only [OrderBook.node, ObjectPool.read, OrderBook.requantified]
  exact getD_set_ne _ (Ne.symm hy) _ _

theorem matchLoop_front {mp : Nat} (pol : Policy) (fuel : Nat) (o : Order) (b : OrderBook)
    (hwf : WF mp b) (hfuel : sideSize (b.levels pol.opp) + 2 ≤ fuel) :
    LoopFront pol b (matchLoop pol fuel o b) := by
  refine matchLoop_induct pol (fun _ b r => LoopFront pol b r) ?_ ?_ ?_ fuel o b hwf hfuel
  · intro o b _ _
    constructor
    intro p l a tl hl hqueue _
    exact ⟨l, hl, hqueue, by simp [tradedAgainst], rfl⟩
  · intro o b l h tl hwf _ _ _ hl hqueue hlt
    have hh : h ∈ l.queue := by simp [hqueue]
    have nd := hwf.core.nodes _ _ l hl h hh
    constructor
    intro p l2 a tl2 hl2 hqueue2 _
    have ha : a ∈ l2.queue := by simp [hqueue2]
    simp only
    rw [levels_requantified]
    by_cases hah : a = h
    · subst hah
      have hp := (hwf.core.level_unique hl hh hl2 ha).2
      subst hp
      rw [hl] at hl2
      have e : l = l2 := Option.some.inj hl2
      subst e
      refine ⟨_, setLevel_get_self hl, hqueue2, ?_, ?_⟩
      · rw [node_requantified nd.lt]
        simp only [tradedAgainst, List.map_cons, List.map_nil, List.sum_cons, List.sum_nil,
          Event.qtyAgainst, if_true]
        omega
      · rw [node_requantified nd.lt]
    · have hp : p ≠ pol.best b := by
        intro e
        subst e
        rw [hl] at hl2
        have e2 : l = l2 := Option.some.inj hl2
        subst e2
        rw [hqueue] at hqueue2
        exact hah (List.cons.inj hqueue2).1.symm
      have hidne : (b.node h).id ≠ (b.node a).id := fun e =>
        hah (linked_id_inj hwf hl hh hl2 ha e).symm
      refine ⟨l2, ?_, hqueue2, ?_, ?_⟩
      · rw [setLevel_get_other (fun hc => hp hc.2)]
        exact hl2
      · rw [node_requantified_ne hah]
        simp [tradedAgainst, Event.qtyAgainst, hidne]
      · rw [node_requantified_ne hah]
  · intro o b l h tl b1 r hwf _ _ _ hl hqueue _ _ hsame _ hr
    have hh : h ∈ l.queue := by simp [hqueue]
    have hfull := afterFull_of_same hsame
    constructor
    intro p l2 a tl2 hl2 hqueue2 hlt2
    have ha : a ∈ l2.queue := by simp [hqueue2]
    have hlt3 : tradedAgainst (b.node a).id (Event.trade o.id (b.node h).id (b.node h).price
        (b.node h).quantity :: r.events) < (b.node a).quantity := hlt2
    rw [tradedAgainst_cons] at hlt3
    show ∃ l1, (r.book.levels pol.opp)[p]? = some l1 ∧ l1.queue = a :: tl2
      ∧ (r.book.node a).quantity + tradedAgainst (b.node a).id (Event.trade o.id (b.node h).id
          (b.node h).price (b.node h).quantity :: r.events) = (b.node a).quantity
      ∧ (r.book.node a).id = (b.node a).id
    rw [tradedAgainst_cons]
    by_cases hah : a = h
    · subst hah
      simp only [Event.qtyAgainst, if_true] at hlt3
      omega
    · have hp : p ≠ pol.best b := by
        intro e
        subst e
        rw [hl] at hl2
        have e2 : l = l2 := Option.some.inj hl2
        subst e2
        rw [hqueue] at hqueue2
        exact hah (List.cons.inj hqueue2).1.symm
      have hidne : (b.node h).id ≠ (b.node a).id := fun e =>
        hah (linked_id_inj hwf hl hh hl2 ha e).symm
      have hz : (Event.trade o.id (b.node h).id (b.node h).price (b.node h).quantity).qtyAgainst
          (b.node a).id = 0 := by simp [Event.qtyAgainst, hidne]
      rw [hz] at hlt3 ⊢
      obtain ⟨l3, hl3, _, hne, _⟩ := hfull.linked hl hqueue hl2 ha hah
      rw [hne hp] at hl3
      have := hr.front p l2 a tl2 hl3 hqueue2 (by
        rw [hfull.node a hah]
        omega)
      rw [hfull.node a hah] at this
      obtain ⟨l1, h1, h2, h3, h4⟩ := this
      exact ⟨l1, h1, h2, by omega, h4⟩

/-! ## Submit: the loop and the insertion of the remainder -/

theorem opp_of_ne {s : Side} {o : Order} (h : s ≠ o.side) : s = (policyOf o.side).opp := by
  cases s <;> cases hs : o.side <;> simp_all [policyOf, Policy.opp]

theorem opp_ne_side (o : Order) : (policyOf o.side).opp ≠ o.side := by
  cases hs : o.side <;> simp [policyOf, Policy.opp]

/-- A valid `submitOrder` on a well-formed book: the result of the loop of `match`, with
what is known about it, and how the outcome of the call derives from it. -/
theorem submit_run {mp : Nat} {b : OrderBook} (hwf : WF mp b) {o : Order}
    (hv : (Call.submit o).valid mp b) :
    ∃ r : LoopResult, LoopPost mp (policyOf o.side) o b r ∧ LoopEvents o r
      ∧ LoopPriority (policyOf o.side) b r ∧ LoopPrices (policyOf o.side) o b r
      ∧ LoopFront (policyOf o.side) b r
      ∧ (((submitOrder o b).events = r.events ∧ (submitOrder o b).book = r.book)
        ∨ ∃ (fs : List Nat) (h : Nat) (l : Level),
            r.book.resting_orders_pool.free_indices = fs ++ [h]
            ∧ (submitOrder o b).events = r.events ++ [Event.added r.order]
            ∧ (submitOrder o b).book = r.book.inserted r.order h fs l) := by
  obtain ⟨_, hq2, hp, hp2, hid, hnf⟩ := hv
  obtain ⟨hpost, hcase⟩ := matchOrder_cases hwf (o := o) (by omega) hp2 hq2 hid
  have hfuel : sideSize (b.levels (policyOf o.side).opp) + 2 ≤ matchFuel (policyOf o.side) b := by
    rw [matchFuel_eq]
  refine ⟨_, hpost, matchLoop_events _ _ o b hwf hfuel, matchLoop_priority _ _ o b hwf hfuel,
    matchLoop_prices _ _ o b hwf hfuel, matchLoop_front _ _ o b hwf hfuel, ?_⟩
  unfold submitOrder at hnf ⊢
  rcases hcase with ⟨_, h2⟩ | ⟨_, _, h2⟩ | ⟨_, fs, h, l, hf, _, _, h2⟩
  · rw [h2]
    exact Or.inl ⟨rfl, rfl⟩
  · rw [h2] at hnf
    exact absurd rfl hnf
  · rw [h2]
    exact Or.inr ⟨fs, h, l, hf, rfl, rfl⟩

theorem split_before_added {evs ev1 ev2 : List Event} {x : Order} {i rid pr q : Nat}
    (h : evs ++ [Event.added x] = ev1 ++ Event.trade i rid pr q :: ev2) :
    ∃ ev3, evs = ev1 ++ Event.trade i rid pr q :: ev3 := by
  rcases List.eq_nil_or_concat ev2 with e | ⟨ev3, y, e⟩
  · subst e
    have h1 : evs ++ [Event.added x] = (ev1 ++ []) ++ [Event.trade i rid pr q] := by
      rw [h]
      simp
    have := List.append_inj_right' h1 rfl
    simp at this
  · rw [List.concat_eq_append] at e
    subst e
    have h1 : evs ++ [Event.added x] = (ev1 ++ Event.trade i rid pr q :: ev3) ++ [y] := by
      rw [h]
      simp
    exact ⟨ev3, List.append_inj_left' h1 rfl⟩

theorem tradedAgainst_added (id : Nat) (evs : List Event) (x : Order) :
    tradedAgainst id (evs ++ [Event.added x]) = tradedAgainst id evs := by
  rw [tradedAgainst_append]
  simp [tradedAgainst, Event.qtyAgainst]

theorem tradePrices_added (evs : List Event) (x : Order) :
    tradePrices (evs ++ [Event.added x]) = tradePrices evs := by
  simp [tradePrices, Event.tradePrice]

theorem levels_inserted_other {b : OrderBook} {o : Order} {h : Nat} {fs : List Nat} {l : Level}
    {s : Side} (hs : s ≠ o.side) : (b.inserted o h fs l).levels s = b.levels s := by
  rw [levels_inserted]
  simp [setLevel, hs]

theorem node_inserted_ne {b : OrderBook} {o : Order} {h y : Nat} {fs : List Nat} {l : Level}
    (hy : y ≠ h) : (b.inserted o h fs l).node y = b.node y := by
  simp only [OrderBook.node, ObjectPool.read, OrderBook.inserted]
  exact getD_set_ne _ (Ne.symm hy) _ _

theorem fifoBook_reachable : Reachable 4 5 fifoBook :=
  Reachable.step (Call.submit ⟨2, 5, 3, Side.Sell⟩)
    (Reachable.step (Call.submit ⟨1, 5, 3, Side.Sell⟩) Reachable.init (by decide)) (by decide)

/-- C3. Strict FIFO within a level. On a reachable book where node `a` is linked before
node `c` in a level of the side opposite to a valid incoming order, every trade of
`submitOrder` against the order of `c` comes after trades against the order of `a` that add
up to the entire quantity of `a`. And a front node against which less than its quantity was
traded is still the front of its level after the call, the queue of the level unchanged,
holding the same id with its quantity lowered by the traded amount. -/
theorem fifo_within_level (capacity mp : Nat) (b : OrderBook)
    (hr : Reachable capacity mp b) (o : Order) (hv : (Call.submit o).valid mp b) :
    (∀ (s : Side) (p : Nat) (l : Level) (pre : List Nat) (a : Nat) (mid : List Nat) (c : Nat)
        (post : List Nat), s ≠ o.side → (b.levels s)[p]? = some l →
        l.queue = pre ++ a :: mid ++ c :: post →
        ∀ (ev1 : List Event) (i pr q : Nat) (ev2 : List Event),
          (submitOrder o b).events = ev1 ++ Event.trade i (b.node c).id pr q :: ev2 →
          tradedAgainst (b.node a).id ev1 = (b.node a).quantity)
      ∧ (∀ (s : Side) (p : Nat) (l : Level) (a : Nat) (tl : List Nat), s ≠ o.side →
          (b.levels s)[p]? = some l → l.queue = a :: tl →
          tradedAgainst (b.node a).id (submitOrder o b).events < (b.node a).quantity →
          ∃ l1, ((submitOrder o b).book.levels s)[p]? = some l1 ∧ l1.queue = a :: tl
            ∧ ((submitOrder o b).book.node a).quantity
                + tradedAgainst (b.node a).id (submitOrder o b).events = (b.node a).quantity
            ∧ ((submitOrder o b).book.node a).id = (b.node a).id) := by
  have hwf := hr.wf
  obtain ⟨r, hpost, _, hprio, _, hfront, hout⟩ := submit_run hwf hv
  refine ⟨?_, ?_⟩
  · intro s p l pre a mid c post hs hl hqueue ev1 i pr q ev2 hev
    have hs2 := opp_of_ne hs
    subst hs2
    have hprec : Precedes b (policyOf o.side) a c :=
      ⟨p, p, l, l, hl, by simp [hqueue], hl, by simp [hqueue], Or.inr ⟨rfl, pre, mid, post, hqueue⟩⟩
    rcases hout with ⟨he, _⟩ | ⟨fs, h, l2, _, he, _⟩
    · rw [he] at hev
      exact hprio.prior a c hprec ev1 i pr q ev2 hev
    · rw [he] at hev
      obtain ⟨ev3, hev3⟩ := split_before_added hev
      exact hprio.prior a c hprec ev1 i pr q ev3 hev3
  · intro s p l a tl hs hl hqueue hlt
    have hs2 := opp_of_ne hs
    subst hs2
    rcases hout with ⟨he, hb⟩ | ⟨fs, h, l2, hf, he, hb⟩
    · rw [he] at hlt ⊢
      rw [hb]
      exact hfront.front p l a tl hl hqueue hlt
    · rw [he, tradedAgainst_added] at hlt ⊢
      rw [hb]
      obtain ⟨l1, h1, h2, h3, h4⟩ := hfront.front p l a tl hl hqueue hlt
      have hside : (policyOf o.side).opp ≠ r.order.side := by
        rw [hpost.side]
        exact opp_ne_side o
      have hah : a ≠ h := by
        intro e
        subst e
        exact hpost.wf.core.free_unlinked _ _ l1 h1 a (by simp [h2]) (by simp [hf])
      rw [levels_inserted_other hside, node_inserted_ne hah]
      exact ⟨l1, h1, h2, h3, h4⟩

theorem fifo_within_level_witness :
    (fifoBook.asks[3]?).map Level.queue = some [3, 2]
      ∧ (submitOrder ⟨3, 7, 3, Side.Buy⟩ fifoBook).events
          = [Event.trade 3 1 3 5, Event.trade 3 2 3 2]
      ∧ tradedAgainst (fifoBook.node 3).id [Event.trade 3 1 3 5] = (fifoBook.node 3).quantity :=
  ⟨by decide, by decide,
    (fifo_within_level 4 5 fifoBook fifoBook_reachable ⟨3, 7, 3, Side.Buy⟩ (by decide)).1
      Side.Sell 3 ⟨[3, 2], 10⟩ [] 3 [] 2 [] (by decide) (by decide) (by decide)
      [Event.trade 3 1 3 5] 3 3 2 [] (by decide)⟩

set_option maxRecDepth 100000 in
theorem sweepBook_reachable : Reachable 100 200 sweepBook :=
  Reachable.step (Call.submit ⟨3, 10, 102, Side.Sell⟩)
    (Reachable.step (Call.submit ⟨2, 10, 101, Side.Sell⟩)
      (Reachable.step (Call.submit ⟨1, 10, 100, Side.Sell⟩) Reachable.init (by decide))
      (by decide))
    (by decide)

theorem mem_before_added {evs : List Event} {x : Order} {i rid pr q : Nat}
    (h : Event.trade i rid pr q ∈ evs ++ [Event.added x]) : Event.trade i rid pr q ∈ evs := by
  rcases List.mem_append.mp h with h | h
  · exact h
  · simp at h

/-- C4. Price priority and trade price. For a valid `submitOrder` on a reachable book:
every trade event carries the submitted id and the price of the resting order it names,
an order of the opposite side that was live before the call; the trade prices of an
incoming Buy never decrease and never exceed its limit (of a Sell: never increase, never
below its limit); and every trade against a resting order comes after trades that add up to
the entire quantity of any resting order of that side at a strictly better price. -/
theorem price_priority (capacity mp : Nat) (b : OrderBook)
    (hr : Reachable capacity mp b) (o : Order) (hv : (Call.submit o).valid mp b) :
    (∀ (i rid pr q : Nat), Event.trade i rid pr q ∈ (submitOrder o b).events →
        i = o.id ∧ ∃ x, b.find rid = some x ∧ (b.node x).price = pr
          ∧ (b.node x).side ≠ o.side)
      ∧ (o.side = Side.Buy →
          (tradePrices (submitOrder o b).events).Pairwise (fun p1 p2 => p1 ≤ p2)
            ∧ ∀ pr ∈ tradePrices (submitOrder o b).events, pr ≤ o.price)
      ∧ (o.side = Side.Sell →
          (tradePrices (submitOrder o b).events).Pairwise (fun p1 p2 => p2 ≤ p1)
            ∧ ∀ pr ∈ tradePrices (submitOrder o b).events, o.price ≤ pr)
      ∧ (∀ (idx idc x c : Nat), b.find idx = some x → b.find idc = some c →
          (b.node x).side ≠ o.side → (b.node c).side ≠ o.side →
          (o.side = Side.Buy → (b.node x).price < (b.node c).price) →
          (o.side = Side.Sell → (b.node c).price < (b.node x).price) →
          ∀ (ev1 : List Event) (i pr q : Nat) (ev2 : List Event),
            (submitOrder o b).events = ev1 ++ Event.trade i idc pr q :: ev2 →
            tradedAgainst idx ev1 = (b.node x).quantity) := by
  have hwf := hr.wf
  obtain ⟨r, hpost, hevs, hprio, hprices, _, hout⟩ := submit_run hwf hv
  have hmem : ∀ (i rid pr q : Nat), Event.trade i rid pr q ∈ (submitOrder o b).events →
      Event.trade i rid pr q ∈ r.events := by
    intro i rid pr q hm
    rcases hout with ⟨he, _⟩ | ⟨fs, h, l2, _, he, _⟩
    · rw [he] at hm
      exact hm
    · rw [he] at hm
      exact mem_before_added hm
  have hprs : tradePrices (submitOrder o b).events = tradePrices r.events := by
    rcases hout with ⟨he, _⟩ | ⟨fs, h, l2, _, he, _⟩
    · rw [he]
    · rw [he, tradePrices_added]
  refine ⟨?_, ?_, ?_, ?_⟩
  · intro i rid pr q hm
    have hm2 := hmem i rid pr q hm
    have hi := hevs.trades _ hm2
    simp only [Event.isTradeOf, decide_eq_true_eq] at hi
    obtain ⟨x, l, hfind, hl, hx⟩ := hprio.live i rid pr q hm2
    have nd := hwf.core.nodes _ _ l hl x hx
    refine ⟨hi, x, hfind, nd.price, ?_⟩
    rw [show (b.node x).side = (policyOf o.side).opp from nd.side]
    exact opp_ne_side o
  · intro hs
    rw [hprs]
    have h1 := hprices.sorted
    have h2 := hprices.bounds
    rw [hs] at h1 h2
    exact ⟨h1.imp (fun h => h), fun pr hm => (h2 pr hm).2⟩
  · intro hs
    rw [hprs]
    have h1 := hprices.sorted
    have h2 := hprices.bounds
    rw [hs] at h1 h2
    exact ⟨h1.imp (fun h => h), fun pr hm => (h2 pr hm).2⟩
  · intro idx idc x c hfx hfc hsx hsc hbuy hsell ev1 i pr q ev2 hev
    obtain ⟨hidx, lx, hlx, hx⟩ := hwf.core.index idx x hfx
    obtain ⟨hidc, lc, hlc, hc⟩ := hwf.core.index idc c hfc
    have hidx2 : (b.node x).id = idx := hidx
    have hidc2 : (b.node c).id = idc := hidc
    have hsx2 : (b.node x).side = (policyOf o.side).opp := opp_of_ne hsx
    have hsc2 : (b.node c).side = (policyOf o.side).opp := opp_of_ne hsc
    have hlx2 : (b.levels (policyOf o.side).opp)[(b.node x).price]? = some lx := by
      rw [← hsx2]
      exact hlx
    have hlc2 : (b.levels (policyOf o.side).opp)[(b.node c).price]? = some lc := by
      rw [← hsc2]
      exact hlc
    have hbetter : (policyOf o.side).better (b.node x).price (b.node c).price := by
      cases hs : o.side with
      | Buy => exact hbuy hs
      | Sell => exact hsell hs
    have hprec : Precedes b (policyOf o.side) x c :=
      ⟨_, _, lx, lc, hlx2, hx, hlc2, hc, Or.inl hbetter⟩
    rw [← hidx2]
    rw [← hidc2] at hev
    rcases hout with ⟨he, _⟩ | ⟨fs, h, l2, _, he, _⟩
    · rw [he] at hev
      exact hprio.prior x c hprec ev1 i pr q ev2 hev
    · rw [he] at hev
      obtain ⟨ev3, hev3⟩ := split_before_added hev
      exact hprio.prior x c hprec ev1 i pr q ev3 hev3

set_option maxRecDepth 100000 in
theorem price_priority_witness :
    (submitOrder ⟨4, 25, 101, Side.Buy⟩ sweepBook).events
        = [Event.trade 4 1 100 10, Event.trade 4 2 101 10, Event.added ⟨4, 5, 101, Side.Buy⟩]
      ∧ (submitOrder ⟨4, 25, 101, Side.Buy⟩ sweepBook).book.max_bid = 101
      ∧ (submitOrder ⟨4, 25, 101, Side.Buy⟩ sweepBook).book.min_ask = 102
      ∧ ((tradePrices (submitOrder ⟨4, 25, 101, Side.Buy⟩ sweepBook).events).Pairwise
            (fun p1 p2 => p1 ≤ p2)
          ∧ ∀ pr ∈ tradePrices (submitOrder ⟨4, 25, 101, Side.Buy⟩ sweepBook).events,
              pr ≤ 101) :=
  ⟨by decide, by decide, by decide,
    (price_priority 100 200 sweepBook sweepBook_reachable ⟨4, 25, 101, Side.Buy⟩
      (by decide)).2.1 rfl⟩

/-! ## Modify in place -/

/-- C11, as stated, fails where a level total has wrapped: in the book with two orders
`Sell 2^31 @ 1` the level total is 0 and `modifyOrder(1, 1, 1)`, an in-place decrement by
`2^31 - 1`, leaves the total `2^31 + 1`, which is not lower. -/
theorem inplace_total_counterexample :
    Reachable 2 1 overflowBook
      ∧ overflowBook.find 1 = some 1
      ∧ (overflowBook.node 1).price = 1 ∧ (overflowBook.node 1).quantity = 2147483648
      ∧ (overflowBook.asks[1]?).map Level.total_quantity = some 0
      ∧ ((modifyOrder 1 1 1 overflowBook).book.asks[1]?).map Level.total_quantity
          = some 2147483649
      ∧ (modifyOrder 1 1 1 overflowBook).events = [Event.modified ⟨1, 1, 1, Side.Sell⟩]
      ∧ ((modifyOrder 1 1 1 overflowBook).book.asks[1]?).map
          (fun l => l.total_quantity + (2147483648 - 1))
          ≠ (overflowBook.asks[1]?).map Level.total_quantity :=
  ⟨overflowBook_reachable, by decide, by decide, by decide, by decide, by decide, by decide,
    by decide⟩

/-- C11, amended. In a reachable book, for a live order with price `p` and quantity `q` and
a new quantity `q'` with `0 < q' < q`, `modifyOrder(id, p, q')` returns normally and emits
exactly one event, `on_modified` carrying the order with quantity `q'`. Afterwards the node
holds the order with quantity `q'` and is found under its id; every other slot, the index,
the free list and both cursors are as before; every level has the same queue of nodes as
before, the levels that do not hold the node are unchanged, and the total of its level is
the `uint32_t` difference of the former total and `q - q'`, which is lower by `q - q'`
when the quantities linked in the level add up to less than `2^32`. -/
theorem inplace_decrement (capacity mp : Nat) (b : OrderBook) (hr : Reachable capacity mp b)
    (id h q1 : Nat) (hfind : b.find id = some h) (hq0 : 0 < q1)
    (hq : q1 < (b.node h).quantity) :
    ∃ b1 : OrderBook,
      modifyOrder id (b.node h).price q1 b
        = { fault := none, book := b1,
            events := [Event.modified { b.node h with quantity := q1 }] }
      ∧ b1.find id = some h
      ∧ b1.node h = { b.node h with quantity := q1 }
      ∧ (∀ x : Nat, x ≠ h → b1.node x = b.node x)
      ∧ b1.resting_orders = b.resting_orders
      ∧ b1.resting_orders_pool.free_indices = b.resting_orders_pool.free_indices
      ∧ b1.max_bid = b.max_bid ∧ b1.min_ask = b.min_ask
      ∧ (∀ (s : Side) (p : Nat) (l : Level), (b.levels s)[p]? = some l →
          ∃ l1, (b1.levels s)[p]? = some l1 ∧ l1.queue = l.queue
            ∧ (h ∉ l.queue → l1 = l)
            ∧ (h ∈ l.queue →
                l1.total_quantity = sub32 l.total_quantity ((b.node h).quantity - q1)
                ∧ (queueSum b.resting_orders_pool.store l.queue < 2 ^ 32 →
                    l1.total_quantity + ((b.node h).quantity - q1) = l.total_quantity))) := by
  have hwf := hr.wf
  obtain ⟨l0, hl0, hh0, heq⟩ := modifyOrder_inplace hwf hfind rfl hq0 hq
  have nd := hwf.core.nodes _ _ l0 hl0 h hh0
  refine ⟨_, heq, ?_, ?_, ?_, rfl, rfl, rfl, rfl, ?_⟩
  · exact hfind
  · rw [node_requantified nd.lt]
    have : (b.node h).quantity - ((b.node h).quantity - q1) = q1 := by omega
    rw [this]
  · intro x hx
    exact node_requantified_ne hx
  · intro s p l hl
    rw [levels_requantified]
    by_cases hc : s = (b.node h).side ∧ p = (b.node h).price
    · obtain ⟨rfl, rfl⟩ := hc
      rw [hl0] at hl
      have e : l0 = l := Option.some.inj hl
      subst e
      refine ⟨_, setLevel_get_self hl0, rfl, fun hn => absurd hh0 hn, fun _ => ⟨rfl, ?_⟩⟩
      intro hsum
      have htot := hwf.core.total _ _ l0 hl0
      rw [Nat.mod_eq_of_lt hsum] at htot
      have hle := queueSum_le_of_mem b.resting_orders_pool.store hh0
      have hle2 : (b.node h).quantity ≤ queueSum b.resting_orders_pool.store l0.queue := hle
      simp only [Level.reduceQuantity]
      rw [sub32_of_le (by omega) (by omega)]
      omega
    · refine ⟨l, ?_, rfl, fun _ => rfl, fun hm => ?_⟩
      · rw [setLevel_get_other hc]
        exact hl
      · exact absurd (hwf.core.level_unique hl0 hh0 hl hm) hc

theorem inplace_decrement_witness :
    ∃ b1 : OrderBook,
      modifyOrder 1 (twoSidedBook.node 3).price 4 twoSidedBook
        = { fault := none, book := b1,
            events := [Event.modified { twoSidedBook.node 3 with quantity := 4 }] }
      ∧ b1.find 1 = some 3
      ∧ b1.node 3 = { twoSidedBook.node 3 with quantity := 4 } :=
  match inplace_decrement 4 5 twoSidedBook twoSidedBook_reachable 1 3 4 (by decide) (by decide)
      (by decide) with
  | ⟨b1, h1, h2, h3, _⟩ => ⟨b1, h1, h2, h3⟩

/-! ## Modify by re-insertion -/

theorem matchLoop_trades_if_crossed {mp : Nat} (pol : Policy) (fuel : Nat) (o : Order)
    (b : OrderBook) (hwf : WF mp b) (hfuel : sideSize (b.levels pol.opp) + 2 ≤ fuel) :
    (o.quantity > 0 ∧ pol.canMatch o b = true ∧ pol.hasMatchingOrders b = true) →
      (matchLoop pol fuel o b).events ≠ [] := by
  refine matchLoop_induct pol
    (fun o b r => (o.quantity > 0 ∧ pol.canMatch o b = true ∧ pol.hasMatchingOrders b = true) →
      r.events ≠ []) ?_ ?_ ?_ fuel o b hwf hfuel
  · intro o b _ hc h
    exact absurd h hc
  · intro o b l h tl _ _ _ _ _ _ _ _
    simp
  · intro o b l h tl b1 r _ _ _ _ _ _ _ _ _ _ _ _
    simp

/-- Outcome of `match` on a well-formed book with a free slot, for an order with a price in
range and an id that is not live: normal return, trades of the incoming id followed by
`on_added` iff a remainder is left, at least one trade when the order crosses, and the
remainder linked at the tail of the level at its price. -/
theorem matchOrder_summary {mp : Nat} {b : OrderBook} (hwf : WF mp b) {o : Order}
    (hp : 0 < o.price) (hp2 : o.price ≤ mp) (hq2 : o.quantity < 2 ^ 32)
    (hid : b.resting_orders o.id = none)
    (hfree : b.resting_orders_pool.free_indices ≠ []) :
    (matchOrder o (policyOf o.side) b).fault = none
      ∧ WF mp (matchOrder o (policyOf o.side) b).book
      ∧ ∃ trades : List Event, (∀ e ∈ trades, e.isTradeOf o.id = true)
        ∧ (matchOrder o (policyOf o.side) b).events = trades ++
            (if 0 < o.quantity - tradedQuantity trades
             then [Event.added { o with quantity := o.quantity - tradedQuantity trades }]
             else [])
        ∧ ((o.quantity > 0 ∧ (policyOf o.side).canMatch o b = true
            ∧ (policyOf o.side).hasMatchingOrders b = true) → trades ≠ [])
        ∧ (0 < o.quantity - tradedQuantity trades →
            ∃ (h : Nat) (l : Level), (matchOrder o (policyOf o.side) b).book.find o.id = some h
              ∧ (matchOrder o (policyOf o.side) b).book.node h
                  = { o with quantity := o.quantity - tradedQuantity trades }
              ∧ ((matchOrder o (policyOf o.side) b).book.levels o.side)[o.price]? = some l
              ∧ l.queue.getLast? = some h) := by
  obtain ⟨hpost, hcase⟩ := matchOrder_cases hwf (o := o) hp hp2 hq2 hid
  have hfuel : sideSize (b.levels (policyOf o.side).opp) + 2 ≤ matchFuel (policyOf o.side) b := by
    rw [matchFuel_eq]
  have hev : LoopEvents o (matchLoop (policyOf o.side) (matchFuel (policyOf o.side) b) o b) :=
    matchLoop_events (policyOf o.side) _ o b hwf hfuel
  have hcr := matchLoop_trades_if_crossed (policyOf o.side) _ o b hwf hfuel
  generalize matchLoop (policyOf o.side) (matchFuel (policyOf o.side) b) o b = r at *
  have hcons := hev.conserved
  rcases hcase with ⟨hz, h2⟩ | ⟨_, hf, _⟩ | ⟨hpos, fs, h, l, hf, hl, hwf2, h2⟩
  · rw [h2]
    refine ⟨rfl, hpost.wf, r.events, hev.trades, ?_, hcr, ?_⟩
    · simp only
      rw [if_neg (by omega)]
      simp
    · intro hres
      omega
  · have := hpost.free
    rw [hf] at this
    simp at this
    exact absurd this hfree
  · rw [h2]
    have hro : r.order = { o with quantity := o.quantity - tradedQuantity r.events } := by
      have h1 := hpost.id
      have h2 := hpost.price
      have h3 := hpost.side
      cases hro : r.order
      rw [hro] at h1 h2 h3 hcons
      simp only at h1 h2 h3 hcons
      subst h1 h2 h3
      congr
      omega
    have hlt : h < r.book.resting_orders_pool.store.length :=
      hpost.wf.core.free_lt h (by simp [hf])
    refine ⟨rfl, hwf2, r.events, hev.trades, ?_, hcr, ?_⟩
    · simp only
      rw [if_pos (by omega), hro]
    · intro _
      have hl2 : (r.book.levels r.order.side)[r.order.price]? = some l := by
        rw [hpost.side, hpost.price]
        exact hl
      have hlev : ((r.book.inserted r.order h fs l).levels r.order.side)[r.order.price]?
          = some (l.add h r.order.quantity) := level_inserted hl2
      rw [hpost.side, hpost.price] at hlev
      refine ⟨h, l.add h r.order.quantity, ?_, ?_, hlev, ?_⟩
      · show OrderBook.emplace r.book.resting_orders r.order.id h o.id = some h
        rw [hpost.id]
        exact emplace_self (hpost.index _ hid)
      · simp only
        rw [node_inserted hlt]
        exact hro
      · simp [Level.add]

set_option maxRecDepth 100000 in
theorem spreadBook_reachable : Reachable 100 200 spreadBook :=
  Reachable.step (Call.submit ⟨2, 50, 90, Side.Buy⟩)
    (Reachable.step (Call.submit ⟨1, 50, 100, Side.Sell⟩) Reachable.init (by decide))
    (by decide)

/-- C12. Amend = cancel + new. In a reachable book, for a live id and a new price
different from the resting price or a new quantity not below the resting quantity,
`modifyOrder` has the same outcome (fault, book, events) as removing the node silently
with `removeBid` / `removeAsk` and submitting `{id, quantity, price, original side}` to the
book that results. When the new price is in `[1, max_price]` and the new quantity fits
`uint32_t`, the call returns normally; its events are trades of the id followed by
`on_added` iff a remainder is left; there is at least one trade when the order has a
positive quantity and crosses the book left by the removal; and a remainder rests under
the id as the last node of the level at the new price on the original side. -/
theorem amend_is_cancel_plus_new (capacity mp : Nat) (b : OrderBook)
    (hr : Reachable capacity mp b) (id h p q : Nat) (hfind : b.find id = some h)
    (hbranch : p ≠ (b.node h).price ∨ (b.node h).quantity ≤ q) :
    modifyOrder id p q b = cancelThenSubmit id p q b
      ∧ ∃ b1 : OrderBook, (policyOf (b.node h).side).cancel b h = Except.ok b1
        ∧ modifyOrder id p q b = submitOrder ⟨id, q, p, (b.node h).side⟩ b1
        ∧ (0 < p → p ≤ mp → q < 2 ^ 32 →
            (modifyOrder id p q b).fault = none
            ∧ ∃ trades : List Event, (∀ e ∈ trades, e.isTradeOf id = true)
              ∧ (modifyOrder id p q b).events = trades ++
                  (if 0 < q - tradedQuantity trades
                   then [Event.added ⟨id, q - tradedQuantity trades, p, (b.node h).side⟩]
                   else [])
              ∧ ((q > 0
                  ∧ (policyOf (b.node h).side).canMatch ⟨id, q, p, (b.node h).side⟩ b1 = true
                  ∧ (policyOf (b.node h).side).hasMatchingOrders b1 = true) → trades ≠ [])
              ∧ (0 < q - tradedQuantity trades →
                  ∃ (h1 : Nat) (l : Level), (modifyOrder id p q b).book.find id = some h1
                    ∧ (modifyOrder id p q b).book.node h1
                        = ⟨id, q - tradedQuantity trades, p, (b.node h).side⟩
                    ∧ ((modifyOrder id p q b).book.levels (b.node h).side)[p]? = some l
                    ∧ l.queue.getLast? = some h1)) := by
  have hwf := hr.wf
  obtain ⟨hid, l0, hl0, hh0⟩ := hwf.core.index id h hfind
  have hid2 : (b.node h).id = id := hid
  obtain ⟨b1, hcan, hwf1, hsame, _⟩ := remove_spec hwf hl0 hh0
  have hc : ¬ (p = (b.node h).price ∧ q < (b.node h).quantity) := by
    rintro ⟨h1, h2⟩
    rcases hbranch with h3 | h3
    · exact h3 h1
    · omega
  have hord : ({ b.node h with price := p, quantity := q } : Order)
      = ⟨id, q, p, (b.node h).side⟩ := by
    rw [← hid2]
  have hmod : modifyOrder id p q b = submitOrder ⟨id, q, p, (b.node h).side⟩ b1 := by
    unfold modifyOrder submitOrder
    rw [hfind]
    simp only [MatchingEngine.modify]
    rw [if_neg hc, hcan, hord]
  refine ⟨?_, b1, hcan, hmod, ?_⟩
  · rw [hmod]
    unfold cancelThenSubmit
    rw [hfind]
    simp only
    have hrem : (match (b.node h).side with
        | Side.Buy => b.removeBid h
        | Side.Sell => b.removeAsk h) = Except.ok b1 := by
      rw [← hcan]
      cases (b.node h).side <;> rfl
    rw [hrem]
  · intro hp hp2 hq2
    rw [hmod]
    unfold submitOrder
    have hidx : b1.resting_orders (⟨id, q, p, (b.node h).side⟩ : Order).id = none := by
      rw [hsame.index]
      simp [OrderBook.unlinked, hid2]
    have hfree : b1.resting_orders_pool.free_indices ≠ [] := by
      rw [hsame.pool]
      simp [OrderBook.unlinked]
    obtain ⟨h1, _, trades, h3, h4, h5, h6⟩ :=
      matchOrder_summary hwf1 (o := ⟨id, q, p, (b.node h).side⟩) hp hp2 hq2 hidx hfree
    exact ⟨h1, trades, h3, h4, h5, h6⟩

set_option maxRecDepth 100000 in
theorem amend_is_cancel_plus_new_witness :
    (modifyOrder 2 102 50 spreadBook).events = [Event.trade 2 1 100 50]
      ∧ spreadBook.find 2 = some 98
      ∧ modifyOrder 2 102 50 spreadBook = cancelThenSubmit 2 102 50 spreadBook :=
  ⟨by decide, by decide,
    (amend_is_cancel_plus_new 100 200 spreadBook spreadBook_reachable 2 98 102 50 (by decide)
      (by decide)).1⟩

/-! ## Events of a modify in place, error kinds -/

set_option maxRecDepth 100000 in
/-- C13, evaluated on the input of the test: after `Sell 100 @ 100` (id 1),
`modifyOrder(1, 100, 80)` makes exactly one listener call, `onOrderModified` with the order
at quantity 80; it makes no `onOrderAdded` call. -/
theorem modify_inplace_event_is_modified :
    (modifyOrder 1 100 80 restingSellBook).fault = none
      ∧ (modifyOrder 1 100 80 restingSellBook).events
          = [Event.modified ⟨1, 80, 100, Side.Sell⟩]
      ∧ ∀ o : Order, Event.added o ∉ (modifyOrder 1 100 80 restingSellBook).events :=
  ⟨by decide, by decide, by
    have h : (modifyOrder 1 100 80 restingSellBook).events
        = [Event.modified ⟨1, 80, 100, Side.Sell⟩] := by decide
    intro o
    rw [h]
    simp⟩

/-- C14, as stated, fails: `cancelOrder` and `modifyOrder` of an id that is not live do not
fail with `UnknownOrder` (the calls end in the dereference of the null result of `find`),
and neither does the second cancel of an id. -/
theorem unknown_order_counterexample :
    Reachable 4 5 twoSidedBook
      ∧ twoSidedBook.find 9 = none
      ∧ (cancelOrder 9 twoSidedBook).errorKind ≠ some ErrorKind.UnknownOrder
      ∧ (cancelOrder 9 twoSidedBook).fault = some Fault.NullDereference
      ∧ (modifyOrder 9 3 5 twoSidedBook).errorKind ≠ some ErrorKind.UnknownOrder
      ∧ (modifyOrder 9 3 5 twoSidedBook).fault = some Fault.NullDereference
      ∧ twoSidedBook.find 1 = some 3
      ∧ (cancelOrder 1 twoSidedBook).fault = none
      ∧ (cancelOrder 1 (cancelOrder 1 twoSidedBook).book).errorKind
          ≠ some ErrorKind.UnknownOrder :=
  ⟨twoSidedBook_reachable, by decide, by decide, by decide, by decide, by decide, by decide,
    by decide, by decide⟩

/-- C14, amended. In a reachable book, for an id that is not live, `cancelOrder(id)` and
`modifyOrder(id, price, quantity)` emit no event and leave the book unchanged, and they do
not fail with `UnknownOrder`: they end where the null result of `find` is read. After
`cancelOrder` of a live id the id is not live, so the same holds for a second cancel. -/
theorem unknown_id_no_event_no_change (capacity mp : Nat) (b : OrderBook)
    (hr : Reachable capacity mp b) :
    (∀ id : Nat, b.find id = none →
        (cancelOrder id b).events = [] ∧ (cancelOrder id b).book = b
          ∧ (cancelOrder id b).errorKind ≠ some ErrorKind.UnknownOrder
          ∧ (cancelOrder id b).fault = some Fault.NullDereference
          ∧ ∀ p q : Nat, (modifyOrder id p q b).events = []
              ∧ (modifyOrder id p q b).book = b
              ∧ (modifyOrder id p q b).errorKind ≠ some ErrorKind.UnknownOrder
              ∧ (modifyOrder id p q b).fault = some Fault.NullDereference)
      ∧ (∀ id h : Nat, b.find id = some h →
          (cancelOrder id b).fault = none
            ∧ (cancelOrder id b).book.find id = none
            ∧ (cancelOrder id (cancelOrder id b).book).events = []
            ∧ (cancelOrder id (cancelOrder id b).book).book = (cancelOrder id b).book
            ∧ (cancelOrder id (cancelOrder id b).book).errorKind
                ≠ some ErrorKind.UnknownOrder) := by
  have hwf := hr.wf
  have hnone : ∀ (b0 : OrderBook) (id : Nat), b0.find id = none →
      cancelOrder id b0 = { fault := some Fault.NullDereference, book := b0, events := [] }
        ∧ ∀ p q : Nat, modifyOrder id p q b0
            = { fault := some Fault.NullDereference, book := b0, events := [] } := by
    intro b0 id hf
    refine ⟨?_, fun p q => ?_⟩
    · unfold cancelOrder
      rw [hf]
    · unfold modifyOrder
      rw [hf]
  refine ⟨?_, ?_⟩
  · intro id hf
    obtain ⟨h1, h2⟩ := hnone b id hf
    rw [h1]
    refine ⟨rfl, rfl, by simp [Outcome.errorKind, Fault.errorKind], rfl, fun p q => ?_⟩
    rw [h2 p q]
    exact ⟨rfl, rfl, by simp [Outcome.errorKind, Fault.errorKind], rfl⟩
  · intro id h hf
    obtain ⟨l, b1, _, _, hid, heq, _, hsame, _⟩ := cancelOrder_spec hwf hf
    have hgone : b1.find id = none := by
      show b1.resting_orders id = none
      rw [hsame.index]
      simp [OrderBook.unlinked, hid]
    rw [heq]
    obtain ⟨h1, _⟩ := hnone b1 id hgone
    refine ⟨rfl, hgone, ?_, ?_, ?_⟩
    · show (cancelOrder id b1).events = []
      rw [h1]
    · show (cancelOrder id b1).book = b1
      rw [h1]
    · show (cancelOrder id b1).errorKind ≠ some ErrorKind.UnknownOrder
      rw [h1]
      simp [Outcome.errorKind, Fault.errorKind]

theorem unknown_id_no_event_no_change_witness :
    twoSidedBook.find 9 = none
      ∧ (cancelOrder 9 twoSidedBook).events = [] ∧ (cancelOrder 9 twoSidedBook).book = twoSidedBook :=
  ⟨by decide,
    ((unknown_id_no_event_no_change 4 5 twoSidedBook twoSidedBook_reachable).1 9
      (by decide)).1,
    ((unknown_id_no_event_no_change 4 5 twoSidedBook twoSidedBook_reachable).1 9
      (by decide)).2.1⟩

/-! ## Submit: no validation, failure by pool exhaustion -/

theorem errorKind_cases (out : Outcome) :
    out.errorKind = none ∨ out.errorKind = some ErrorKind.PoolExhausted := by
  unfold Outcome.errorKind
  cases out.fault with
  | none => exact Or.inl rfl
  | some f => cases f <;> simp [Fault.errorKind]

theorem submitOrder_zero_quantity (o : Order) (b : OrderBook) (hz : o.quantity = 0) :
    submitOrder o b = { fault := none, book := b, events := [] } := by
  unfold submitOrder matchOrder matchFuel
  rw [matchLoop_stop _ _ o b (by omega)]
  simp only
  rw [if_neg (by omega)]

/-- C15, as stated, fails: in the book with `Sell 10 @ 3` (id 1) and `Buy 10 @ 2` (id 2),
price bound 5, `submitOrder` accepts an order whose id is live (it is linked and reported
by `on_added`), an order with price 0, and lets a Buy with price 6 trade; an order with
quantity 0 returns normally. None of the four calls fails with `InvalidOrder`. -/
theorem invalid_order_counterexample :
    Reachable 4 5 twoSidedBook
      ∧ twoSidedBook.find 1 = some 3
      ∧ (submitOrder ⟨1, 5, 4, Side.Sell⟩ twoSidedBook).fault = none
      ∧ (submitOrder ⟨1, 5, 4, Side.Sell⟩ twoSidedBook).events
          = [Event.added ⟨1, 5, 4, Side.Sell⟩]
      ∧ (submitOrder ⟨1, 5, 4, Side.Sell⟩ twoSidedBook).book.asks ≠ twoSidedBook.asks
      ∧ (submitOrder ⟨7, 5, 0, Side.Buy⟩ twoSidedBook).fault = none
      ∧ (submitOrder ⟨7, 5, 0, Side.Buy⟩ twoSidedBook).events
          = [Event.added ⟨7, 5, 0, Side.Buy⟩]
      ∧ (submitOrder ⟨7, 5, 6, Side.Buy⟩ twoSidedBook).fault = none
      ∧ (submitOrder ⟨7, 5, 6, Side.Buy⟩ twoSidedBook).events = [Event.trade 7 1 3 5]
      ∧ (submitOrder ⟨7, 0, 3, Side.Buy⟩ twoSidedBook).errorKind
          ≠ some ErrorKind.InvalidOrder :=
  ⟨twoSidedBook_reachable, by decide, by decide, by decide, by decide, by decide, by decide,
    by decide, by decide, by decide⟩

/-- C15, amended. `submitOrder` never fails with `InvalidOrder`. On a reachable book, an
order with quantity 0 returns normally, emits no event and leaves the book unchanged; and
an order with a quantity in `[1, 2^32)`, a price in `[1, max_price]` and an id that is not
live is not rejected: the call returns normally unless the pool is exhausted. -/
theorem submit_never_invalid_order (capacity mp : Nat) (b : OrderBook)
    (hr : Reachable capacity mp b) :
    (∀ o : Order, (submitOrder o b).errorKind ≠ some ErrorKind.InvalidOrder)
      ∧ (∀ o : Order, o.quantity = 0 →
          submitOrder o b = { fault := none, book := b, events := [] })
      ∧ (∀ o : Order, 0 < o.quantity → o.quantity < 2 ^ 32 → 1 ≤ o.price → o.price ≤ mp →
          b.find o.id = none →
          (submitOrder o b).fault = none
            ∨ (submitOrder o b).fault = some Fault.PoolExhausted) := by
  have hwf := hr.wf
  refine ⟨?_, fun o hz => submitOrder_zero_quantity o b hz, ?_⟩
  · intro o
    rcases errorKind_cases (submitOrder o b) with h | h <;> rw [h] <;> simp
  · intro o _ hq2 hp hp2 hid
    exact (matchOrder_wf hwf (o := o) (by omega) hp2 hq2 hid).2.1

theorem submit_never_invalid_order_witness :
    submitOrder ⟨7, 0, 3, Side.Buy⟩ twoSidedBook
        = { fault := none, book := twoSidedBook, events := [] }
      ∧ (submitOrder ⟨7, 5, 3, Side.Buy⟩ twoSidedBook).fault = none :=
  ⟨(submit_never_invalid_order 4 5 twoSidedBook twoSidedBook_reachable).2.1 ⟨7, 0, 3, Side.Buy⟩
      rfl,
    by decide⟩

theorem matchLoop_untouched_or_slot {mp : Nat} (pol : Policy) (fuel : Nat) (o : Order)
    (b : OrderBook) (hwf : WF mp b) (hfuel : sideSize (b.levels pol.opp) + 2 ≤ fuel) :
    UntouchedOrSlot o b (matchLoop pol fuel o b) := by
  refine matchLoop_induct pol UntouchedOrSlot ?_ ?_ ?_ fuel o b hwf hfuel
  · intro o b _ _
    exact Or.inl ⟨rfl, rfl, rfl⟩
  · intro o b l h tl _ _ _ _ _ _ _
    exact Or.inr (Or.inl rfl)
  · intro o b l h tl b1 r _ _ _ _ _ _ _ _ hsame _ hr
    have hfree : b1.resting_orders_pool.free_indices ≠ [] := by
      rw [hsame.pool]
      simp [OrderBook.unlinked]
    rcases hr with ⟨_, hb, _⟩ | hz | hf
    · right
      right
      show r.book.resting_orders_pool.free_indices ≠ []
      rw [hb]
      exact hfree
    · exact Or.inr (Or.inl hz)
    · exact Or.inr (Or.inr hf)

theorem fullPoolBook_reachable : Reachable 1 5 fullPoolBook :=
  Reachable.step (Call.submit ⟨1, 10, 3, Side.Sell⟩) Reachable.init (by decide)

/-- C16. Atomicity on pool exhaustion. On a reachable book, when `submitOrder` of an order
with a quantity below `2^32`, a price in `[1, max_price]` and an id that is not live fails
because `allocate` throws, the call has emitted no event and the book is the book before
the call: a trade that leaves a remainder has filled a resting order entirely and freed
its slot. -/
theorem pool_exhaustion_is_atomic (capacity mp : Nat) (b : OrderBook)
    (hr : Reachable capacity mp b) (o : Order)
    (hq2 : o.quantity < 2 ^ 32) (hp : 1 ≤ o.price) (hp2 : o.price ≤ mp)
    (hid : b.find o.id = none)
    (hfail : (submitOrder o b).fault = some Fault.PoolExhausted) :
    (submitOrder o b).events = [] ∧ (submitOrder o b).book = b := by
  have hwf := hr.wf
  obtain ⟨_, hcase⟩ := matchOrder_cases hwf (o := o) (by omega) hp2 hq2 hid
  have hun : UntouchedOrSlot o b
      (matchLoop (policyOf o.side) (matchFuel (policyOf o.side) b) o b) :=
    matchLoop_untouched_or_slot (policyOf o.side) _ o b hwf (by rw [matchFuel_eq])
  unfold submitOrder at hfail ⊢
  generalize matchLoop (policyOf o.side) (matchFuel (policyOf o.side) b) o b = r at *
  rcases hcase with ⟨_, h2⟩ | ⟨hpos, hf, h2⟩ | ⟨_, fs, h, l, _, _, _, h2⟩
  · rw [h2] at hfail
    exact absurd hfail (by simp)
  · rw [h2]
    rcases hun with ⟨he, hb, _⟩ | hz | hne
    · exact ⟨he, hb⟩
    · omega
    · exact absurd hf hne
  · rw [h2] at hfail
    exact absurd hfail (by simp)

theorem pool_exhaustion_is_atomic_witness :
    (submitOrder ⟨2, 5, 4, Side.Sell⟩ fullPoolBook).fault = some Fault.PoolExhausted
      ∧ (submitOrder ⟨2, 5, 4, Side.Sell⟩ fullPoolBook).events = []
      ∧ (submitOrder ⟨2, 5, 4, Side.Sell⟩ fullPoolBook).book = fullPoolBook :=
  ⟨by decide,
    (pool_exhaustion_is_atomic 1 5 fullPoolBook fullPoolBook_reachable ⟨2, 5, 4, Side.Sell⟩
      (by decide) (by decide) (by decide) (by decide) (by decide)).1,
    (pool_exhaustion_is_atomic 1 5 fullPoolBook fullPoolBook_reachable ⟨2, 5, 4, Side.Sell⟩
      (by decide) (by decide) (by decide) (by decide) (by decide)).2⟩

/-! ## The object pool -/

theorem allocate_eq_ok {α : Type} {pool pool1 : ObjectPool α} {h : Nat}
    (ha : pool.allocate = Except.ok (h, pool1)) :
    ∃ fs, pool.free_indices = fs ++ [h] ∧ pool1 = { pool with free_indices := fs } := by
  unfold ObjectPool.allocate at ha
  cases hl : pool.free_indices.getLast? with
  | none =>
    rw [hl] at ha
    exact Except.noConfusion ha
  | some x =>
    rw [hl] at ha
    simp only [Except.ok.injEq, Prod.mk.injEq] at ha
    obtain ⟨rfl, rfl⟩ := ha
    obtain ⟨fs, hfs⟩ := List.getLast?_eq_some_iff.mp hl
    refine ⟨fs, hfs, ?_⟩
    rw [hfs, List.dropLast_concat]

theorem allocate_error_iff {α : Type} (pool : ObjectPool α) :
    pool.allocate = Except.error Fault.PoolExhausted ↔ pool.free_indices = [] := by
  unfold ObjectPool.allocate
  cases hl : pool.free_indices.getLast? with
  | none =>
    simp only [true_iff]
    exact List.getLast?_eq_none_iff.mp hl
  | some x =>
    constructor
    · intro he
      exact Except.noConfusion he
    · intro he
      rw [he] at hl
      simp at hl

theorem PoolReach.inv {α : Type} [Inhabited α] {n : Nat} {pool : ObjectPool α}
    {out : List Nat} (hr : PoolReach n pool out) : PoolInv n pool out := by
  induction hr with
  | fresh =>
    refine ⟨?_, ?_, ?_, ?_⟩
    · simp [ObjectPool.init]
    · simp [ObjectPool.init, List.nodup_range]
    · intro h hh
      simpa [ObjectPool.init] using hh
    · simp [ObjectPool.init]
  | acquire _ ha ih =>
    obtain ⟨fs, hfs, rfl⟩ := allocate_eq_ok ha
    have hnd := ih.nodup
    have hb := ih.bound
    have hc := ih.count
    rw [hfs] at hnd hb hc
    refine ⟨ih.size, ?_, ?_, ?_⟩
    · simp only
      have : (fs ++ [_] ++ _).Nodup := hnd
      rw [List.append_assoc] at this
      simpa using this
    · intro x hx
      apply hb
      simp only [List.mem_append, List.mem_cons] at hx ⊢
      simp only [List.mem_singleton, List.not_mem_nil, or_false]
      tauto
    · simp only [List.length_append, List.length_cons, List.length_nil] at hc ⊢
      omega
  | release _ hm ih =>
    have hnd := ih.nodup
    have hnd2 := List.nodup_append.mp hnd
    refine ⟨ih.size, ?_, ?_, ?_⟩
    · simp only [ObjectPool.deallocate]
      rw [List.append_assoc]
      apply List.Nodup.append hnd2.1
      · simp only [List.singleton_append, List.nodup_cons]
        exact ⟨fun hx => (hnd2.2.1.mem_erase_iff.mp hx).1 rfl, hnd2.2.1.erase _⟩
      · intro x hx1 hx2
        rcases List.mem_append.mp hx2 with hx2 | hx2
        · simp only [List.mem_singleton] at hx2
          subst hx2
          exact hnd2.2.2 hx1 hm
        · exact hnd2.2.2 hx1 (List.mem_of_mem_erase hx2)
    · intro x hx
      apply ih.bound
      simp only [ObjectPool.deallocate, List.mem_append, List.mem_singleton] at hx ⊢
      rcases hx with (hx | hx) | hx
      · exact Or.inl hx
      · subst hx
        exact Or.inr hm
      · exact Or.inr (List.mem_of_mem_erase hx)
    · have := ih.count
      have h1 := List.length_erase_of_mem hm
      have h2 := List.length_pos_of_mem hm
      simp only [ObjectPool.deallocate, List.length_append, List.length_cons,
        List.length_nil]
      omega
  | store v _ _ ih =>
    exact ⟨by simpa [ObjectPool.write] using ih.size, ih.nodup, ih.bound, ih.count⟩

theorem allocateMany_ok {α : Type} [Inhabited α] {n : Nat} :
    ∀ (k : Nat) (pool : ObjectPool α) (out : List Nat), PoolReach n pool out →
      k + out.length ≤ n →
      ∃ (hs : List Nat) (pool1 : ObjectPool α),
        pool.allocateMany k = Except.ok (hs, pool1) ∧ hs.length = k
          ∧ PoolReach n pool1 (hs.reverse ++ out) := by
  intro k
  induction k with
  | zero =>
    intro pool out hr _
    exact ⟨[], pool, rfl, rfl, by simpa using hr⟩
  | succ k ih =>
    intro pool out hr hle
    have hinv := hr.inv
    have hne : pool.free_indices ≠ [] := by
      intro he
      have := hinv.count
      rw [he] at this
      simp at this
      omega
    obtain ⟨fs, h, hfs⟩ := (List.eq_nil_or_concat pool.free_indices).resolve_left hne
    rw [List.concat_eq_append] at hfs
    have ha := allocate_of_free hfs
    obtain ⟨hs, pool1, h1, h2, h3⟩ := ih _ (h :: out) (PoolReach.acquire hr ha)
      (by simp only [List.length_cons]; omega)
    refine ⟨h :: hs, pool1, ?_, by simp [h2], ?_⟩
    · simp only [ObjectPool.allocateMany, ha, h1]
    · simpa using h3

theorem allocateMany_exhausted {α : Type} [Inhabited α] {n : Nat} :
    ∀ (k : Nat) (pool : ObjectPool α) (out : List Nat), PoolReach n pool out →
      n < k + out.length → pool.allocateMany k = Except.error Fault.PoolExhausted := by
  intro k
  induction k with
  | zero =>
    intro pool out hr hlt
    have := hr.inv.count
    omega
  | succ k ih =>
    intro pool out hr hlt
    rcases List.eq_nil_or_concat pool.free_indices with he | ⟨fs, h, hfs⟩
    · have := (allocate_error_iff pool).mpr he
      simp only [ObjectPool.allocateMany, this]
    · rw [List.concat_eq_append] at hfs
      have ha := allocate_of_free hfs
      have := ih _ (h :: out) (PoolReach.acquire hr ha) (by simp only [List.length_cons]; omega)
      simp only [ObjectPool.allocateMany, ha, this]

/-- C17. For a pool built with size `n` and used under the discipline that only outstanding
handles are released, `allocate()` throws (the pool-exhausted error) iff exactly `n` handles
are outstanding; otherwise it returns a slot of the pool (an index below the size of the
store, which is `n`). On a fresh pool `n` allocations in a row succeed and one more
fails. -/
theorem allocate_fails_iff_all_outstanding {α : Type} [Inhabited α] (n : Nat)
    (pool : ObjectPool α) (out : List Nat) (hr : PoolReach n pool out) :
    (pool.allocate = Except.error Fault.PoolExhausted ↔ out.length = n)
      ∧ (out.length ≠ n →
          ∃ (h : Nat) (pool1 : ObjectPool α), pool.allocate = Except.ok (h, pool1)
            ∧ h < pool.store.length ∧ pool.store.length = n)
      ∧ (∃ (hs : List Nat) (pool1 : ObjectPool α),
          (ObjectPool.init n : ObjectPool α).allocateMany n = Except.ok (hs, pool1)
            ∧ hs.length = n ∧ hs.Nodup
            ∧ pool1.allocate = Except.error Fault.PoolExhausted)
      ∧ (ObjectPool.init n : ObjectPool α).allocateMany (n + 1)
          = Except.error Fault.PoolExhausted := by
  have hinv := hr.inv
  have hiff : pool.allocate = Except.error Fault.PoolExhausted ↔ out.length = n := by
    rw [allocate_error_iff]
    constructor
    · intro he
      have := hinv.count
      rw [he] at this
      simpa using this
    · intro he
      have := hinv.count
      rw [he] at this
      exact List.length_eq_zero.mp (by omega)
  refine ⟨hiff, ?_, ?_, ?_⟩
  · intro hne
    have hfree : pool.free_indices ≠ [] := by
      intro he
      exact hne (hiff.mp ((allocate_error_iff pool).mpr he))
    obtain ⟨fs, h, hfs⟩ := (List.eq_nil_or_concat pool.free_indices).resolve_left hfree
    rw [List.concat_eq_append] at hfs
    refine ⟨h, _, allocate_of_free hfs, ?_, hinv.size⟩
    rw [hinv.size]
    exact hinv.bound h (by simp [hfs])
  · obtain ⟨hs, pool1, h1, h2, h3⟩ :=
      allocateMany_ok (α := α) n (ObjectPool.init n) [] PoolReach.fresh (by simp)
    have hinv1 := h3.inv
    refine ⟨hs, pool1, h1, h2, ?_, ?_⟩
    · have := (List.nodup_append.mp hinv1.nodup).2.1
      simpa using this
    · rw [allocate_error_iff]
      have := hinv1.count
      simp only [List.append_nil, List.length_reverse, h2] at this
      exact List.length_eq_zero.mp (by omega)
  · exact allocateMany_exhausted (n + 1) (ObjectPool.init n) [] PoolReach.fresh (by simp)

theorem allocate_fails_iff_all_outstanding_witness :
    (ObjectPool.init 1 : ObjectPool Nat).allocate
        = Except.ok (0, { store := [0], free_indices := [] })
      ∧ ((({ store := [0], free_indices := [] } : ObjectPool Nat).allocate
          = Except.error Fault.PoolExhausted) ↔ [0].length = 1) :=
  ⟨rfl,
    (allocate_fails_iff_all_outstanding 1 ({ store := [0], free_indices := [] } : ObjectPool Nat)
      [0] (PoolReach.acquire PoolReach.fresh rfl)).1⟩

theorem deallocate_allocate {α : Type} (pool : ObjectPool α) (h : Nat) :
    (pool.deallocate h).allocate = Except.ok (h, pool) := by
  have : (pool.deallocate h).free_indices = pool.free_indices ++ [h] := rfl
  rw [allocate_of_free this]
  rfl

theorem reusePool_reach : PoolReach 2 reusePool [0, 1] := by
  have h0 : PoolReach 2 (ObjectPool.init 2 : ObjectPool Nat) [] := PoolReach.fresh
  have h1 : PoolReach 2 ({ store := [0, 0], free_indices := [0] } : ObjectPool Nat) [1] :=
    PoolReach.acquire h0 rfl
  have h2 : PoolReach 2 ({ store := [0, 0], free_indices := [] } : ObjectPool Nat) [0, 1] :=
    PoolReach.acquire h1 rfl
  exact PoolReach.store (h := 1) 1 h2 (by decide)

/-- C18. Handles do not alias and slots are reused. For a pool used under the discipline
that only outstanding handles are released: the outstanding handles are pairwise distinct;
`allocate()` returns a handle that is not outstanding and leaves every slot as it was; and
`deallocate(h)` of an outstanding handle followed at once by `allocate()` returns `h` again
and gives back the pool as it was before the release, so the slot holds what it held at
the release. -/
theorem handles_do_not_alias {α : Type} [Inhabited α] (n : Nat) (pool : ObjectPool α)
    (out : List Nat) (hr : PoolReach n pool out) :
    out.Nodup
      ∧ (∀ (h : Nat) (pool1 : ObjectPool α), pool.allocate = Except.ok (h, pool1) →
          h ∉ out ∧ h < pool.store.length ∧ pool1.store = pool.store)
      ∧ (∀ h : Nat, h ∈ out →
          (pool.deallocate h).allocate = Except.ok (h, pool)
            ∧ ∀ pool1 : ObjectPool α, (pool.deallocate h).allocate = Except.ok (h, pool1) →
                pool1.read h = pool.read h) := by
  have hinv := hr.inv
  have hnd := List.nodup_append.mp hinv.nodup
  refine ⟨hnd.2.1, ?_, ?_⟩
  · intro h pool1 ha
    obtain ⟨fs, hfs, rfl⟩ := allocate_eq_ok ha
    refine ⟨?_, ?_, rfl⟩
    · intro hm
      exact hnd.2.2 (by simp [hfs]) hm
    · rw [hinv.size]
      exact hinv.bound h (by simp [hfs])
  · intro h _
    refine ⟨deallocate_allocate pool h, ?_⟩
    intro pool1 ha
    rw [deallocate_allocate pool h] at ha
    simp only [Except.ok.injEq, Prod.mk.injEq, true_and] at ha
    rw [← ha]

theorem handles_do_not_alias_witness :
    [0, 1].Nodup
      ∧ (reusePool.deallocate 1).allocate = Except.ok (1, reusePool)
      ∧ reusePool.read 1 = 1 :=
  ⟨(handles_do_not_alias 2 reusePool [0, 1] reusePool_reach).1,
    ((handles_do_not_alias 2 reusePool [0, 1] reusePool_reach).2.2 1 (by decide)).1,
    rfl⟩

/-! ## The ring buffer, run sequentially -/

theorem ring_succ {h n : Nat} (hlt : h < n) :
    (h + 1) % n = if h + 1 = n then 0 else h + 1 := by
  split
  · next e => rw [e, Nat.mod_self]
  · next e => exact Nat.mod_eq_of_lt (by omega)

theorem ring_add {t i n : Nat} (ht : t < n) (hi : i < n) :
    (t + i) % n = if t + i < n then t + i else t + i - n := by
  split
  · next e => exact Nat.mod_eq_of_lt e
  · next e =>
    have h1 : t + i = (t + i - n) + n := by omega
    rw [h1, Nat.add_mod_right]
    have h2 : t + i - n + n - n = t + i - n := by omega
    rw [h2]
    exact Nat.mod_eq_of_lt (by omega)

theorem ring_count {h t n : Nat} (hh : h < n) (ht : t < n) :
    (h + n - t) % n = if t ≤ h then h - t else h + n - t := by
  split
  · next e =>
    have h1 : h + n - t = (h - t) + n := by omega
    rw [h1, Nat.add_mod_right]
    exact Nat.mod_eq_of_lt (by omega)
  · next e => exact Nat.mod_eq_of_lt (by omega)

theorem QueueInv.count_eq {α : Type} {n : Nat} {q : LockFreeQueue α} (hi : QueueInv n q) :
    q.count = if q.tail ≤ q.head then q.head - q.tail else q.head + n - q.tail := by
  unfold LockFreeQueue.count
  rw [hi.size]
  exact ring_count hi.head_lt hi.tail_lt

theorem queueInv_fresh {α : Type} [Inhabited α] {n : Nat} (hn : 0 < n) :
    QueueInv n (LockFreeQueue.init n : LockFreeQueue α) :=
  ⟨by simp [LockFreeQueue.init], hn, hn⟩

theorem contents_init {α : Type} [Inhabited α] {n : Nat} (hn : 0 < n) :
    (LockFreeQueue.init n : LockFreeQueue α).contents = [] := by
  have hi : QueueInv n (LockFreeQueue.init n : LockFreeQueue α) := queueInv_fresh hn
  unfold LockFreeQueue.contents
  rw [hi.count_eq]
  simp [LockFreeQueue.init]

theorem contents_length {α : Type} [Inhabited α] (q : LockFreeQueue α) :
    q.contents.length = q.count := by
  simp [LockFreeQueue.contents]

/-- `push` on the ring buffer of size `n` is `push` on its contents with capacity `n - 1`. -/
theorem push_simulates {α : Type} [Inhabited α] {n : Nat} {q : LockFreeQueue α}
    (hi : QueueInv n q) (item : α) :
    QueueInv n (q.push item).2
      ∧ (q.push item).1 = (BoundedFifo.push (n - 1) q.contents item).1
      ∧ (q.push item).2.contents = (BoundedFifo.push (n - 1) q.contents item).2 := by
  have hh := hi.head_lt
  have ht := hi.tail_lt
  have hc := hi.count_eq
  have hs := ring_succ hh
  unfold LockFreeQueue.push BoundedFifo.push
  simp only [hi.size, contents_length]
  by_cases hfull : (q.head + 1) % n = q.tail
  · have hcount : q.count = n - 1 := by
      rw [hc]
      rw [hs] at hfull
      split at hfull <;> split <;> omega
    rw [if_pos hfull, if_pos hcount]
    exact ⟨hi, rfl, rfl⟩
  · have hcount : q.count ≠ n - 1 := by
      rw [hc]
      rw [hs] at hfull
      split at hfull <;> split <;> omega
    rw [if_neg hfull, if_neg hcount]
    have hi2 : QueueInv n
        { q with buffer := q.buffer.set q.head item, head := (q.head + 1) % n } :=
      ⟨by simp [hi.size], Nat.mod_lt _ (by omega), ht⟩
    refine ⟨hi2, rfl, ?_⟩
    have hc2 := hi2.count_eq
    simp only at hc2
    have hcnt : LockFreeQueue.count
        { q with buffer := q.buffer.set q.head item, head := (q.head + 1) % n }
        = q.count + 1 := by
      rw [hc2, hc, hs]
      rw [hc] at hcount
      rw [hs] at hfull
      split_ifs at hfull hcount ⊢ <;> omega
    simp only
    unfold LockFreeQueue.contents
    rw [hcnt, List.range_succ, List.map_append]
    simp only [List.length_set, hi.size, List.map_cons, List.map_nil]
    congr 1
    · apply List.map_congr_left
      intro i him
      have hilt : i < q.count := List.mem_range.mp him
      have hne : q.head ≠ (q.tail + i) % n := by
        have hin : i < n := by
          rw [hc] at hilt
          split at hilt <;> omega
        rw [ring_add ht hin]
        rw [hc] at hilt
        split at hilt <;> split <;> omega
      simp [List.getD_eq_getElem?_getD, List.getElem?_set_ne hne]
    · have hidx : (q.tail + q.count) % n = q.head := by
        have hcn : q.count < n := by
          rw [hc]
          split <;> omega
        rw [ring_add ht hcn, hc]
        split <;> split <;> omega
      rw [hidx]
      simp [List.getD_eq_getElem?_getD, List.getElem?_set, hi.size, hh]

/-- `pop` on the ring buffer is `pop` on its contents. -/
theorem pop_simulates {α : Type} [Inhabited α] {n : Nat} {q : LockFreeQueue α}
    (hi : QueueInv n q) (item : α) :
    QueueInv n (q.pop item).2.2
      ∧ (q.pop item).1 = (BoundedFifo.pop q.contents item).1
      ∧ (q.pop item).2.1 = (BoundedFifo.pop q.contents item).2.1
      ∧ (q.pop item).2.2.contents = (BoundedFifo.pop q.contents item).2.2 := by
  have hh := hi.head_lt
  have ht := hi.tail_lt
  have hc := hi.count_eq
  have hs := ring_succ ht
  unfold LockFreeQueue.pop
  by_cases hempty : q.tail = q.head
  · have hcount : q.count = 0 := by
      rw [hc]
      split <;> omega
    have hnil : q.contents = [] := by
      unfold LockFreeQueue.contents
      rw [hcount]
      rfl
    rw [if_pos hempty, hnil]
    exact ⟨hi, rfl, rfl, rfl⟩
  · rw [if_neg hempty]
    simp only [hi.size]
    have hi2 : QueueInv n { q with tail := (q.tail + 1) % n } :=
      ⟨hi.size, hh, Nat.mod_lt _ (by omega)⟩
    have hc2 := hi2.count_eq
    simp only at hc2
    obtain ⟨k, hk⟩ : ∃ k, q.count = k + 1 := by
      refine ⟨q.count - 1, ?_⟩
      rw [hc]
      split <;> omega
    have hcnt : LockFreeQueue.count { q with tail := (q.tail + 1) % n } = k := by
      rw [hc2, hs]
      rw [hc] at hk
      split_ifs at hk ⊢ <;> omega
    have hcont : q.contents = q.buffer.getD q.tail default
        :: LockFreeQueue.contents { q with tail := (q.tail + 1) % n } := by
      unfold LockFreeQueue.contents
      rw [hcnt, hk, List.range_succ_eq_map, List.map_cons, List.map_map]
      simp only [hi.size, Nat.add_zero, Nat.mod_eq_of_lt ht]
      congr 1
      apply List.map_congr_left
      intro i him
      have hilt : i < k := List.mem_range.mp him
      have hkn : k + 1 < n + 1 := by
        rw [← hk, hc]
        split <;> omega
      simp only [Function.comp]
      congr 1
      rw [ring_add ht (by omega : i + 1 < n), hs]
      by_cases e : q.tail + 1 = n
      · rw [if_pos e, Nat.zero_add, Nat.mod_eq_of_lt (by omega)]
        split_ifs <;> omega
      · rw [if_neg e, ring_add (by omega : q.tail + 1 < n) (by omega : i < n)]
        split_ifs <;> omega
    rw [hcont]
    exact ⟨hi2, rfl, rfl, rfl⟩

theorem run_simulates {α : Type} [Inhabited α] {n : Nat} (ops : List (QueueOp α)) :
    ∀ q : LockFreeQueue α, QueueInv n q → q.run ops = BoundedFifo.run (n - 1) q.contents ops := by
  induction ops with
  | nil =>
    intro q _
    rfl
  | cons op ops ih =>
    intro q hi
    cases op with
    | push item =>
      obtain ⟨h1, h2, h3⟩ := push_simulates hi item
      simp only [LockFreeQueue.run, BoundedFifo.run]
      rw [ih _ h1, h2, h3]
    | pop item =>
      obtain ⟨h1, h2, h3, h4⟩ := pop_simulates hi item
      simp only [LockFreeQueue.run, BoundedFifo.run]
      rw [ih _ h1, h2, h3, h4]

theorem QueueReach.queueInv {α : Type} [Inhabited α] {n : Nat} (hn : 0 < n) {q : LockFreeQueue α}
    (hr : QueueReach n q) : QueueInv n q := by
  induction hr with
  | fresh => exact queueInv_fresh hn
  | pushed item _ ih => exact (push_simulates ih item).1
  | popped item _ ih => exact (pop_simulates ih item).1

/-- C19. Run sequentially, a `LockFreeQueue` built with size `n >= 2` behaves as a bounded
FIFO queue of capacity `n - 1`. Every sequence of `push` and `pop` calls on a fresh queue
gives the results (values returned, output arguments) of the same calls on the empty FIFO
queue. In every queue reached, with `contents` the values pushed and not yet popped,
oldest first: at most `n - 1` values are stored; `pop` returns false, leaving its output
argument and the queue untouched, iff the contents are empty, and else returns true with
the oldest value and leaves the rest; `push` returns false, leaving the queue unchanged,
iff `n - 1` values are stored, and else returns true and appends the value. -/
theorem queue_is_bounded_fifo {α : Type} [Inhabited α] (n : Nat) (hn : 2 ≤ n) :
    (∀ ops : List (QueueOp α),
        (LockFreeQueue.init n : LockFreeQueue α).run ops = BoundedFifo.run (n - 1) [] ops)
      ∧ (LockFreeQueue.init n : LockFreeQueue α).contents = []
      ∧ ∀ q : LockFreeQueue α, QueueReach n q →
          q.contents.length ≤ n - 1
          ∧ (∀ item : α,
              ((q.pop item).1 = false ↔ q.contents = [])
              ∧ (q.contents = [] → (q.pop item).2.1 = item ∧ (q.pop item).2.2 = q)
              ∧ (∀ (oldest : α) (rest : List α), q.contents = oldest :: rest →
                  (q.pop item).1 = true ∧ (q.pop item).2.1 = oldest
                    ∧ (q.pop item).2.2.contents = rest))
          ∧ (∀ item : α,
              ((q.push item).1 = false ↔ q.contents.length = n - 1)
              ∧ (q.contents.length = n - 1 → (q.push item).2 = q)
              ∧ (q.contents.length ≠ n - 1 →
                  (q.push item).1 = true ∧ (q.push item).2.contents = q.contents ++ [item])) := by
  have hpos : 0 < n := by omega
  refine ⟨?_, contents_init hpos, ?_⟩
  · intro ops
    have := run_simulates ops (LockFreeQueue.init n : LockFreeQueue α) (queueInv_fresh hpos)
    rw [contents_init hpos] at this
    exact this
  · intro q hr
    have hi := hr.queueInv hpos
    refine ⟨?_, ?_, ?_⟩
    · rw [contents_length, hi.count_eq]
      have hh := hi.head_lt
      have ht := hi.tail_lt
      split_ifs <;> omega
    · intro item
      obtain ⟨_, h2, h3, h4⟩ := pop_simulates hi item
      refine ⟨?_, ?_, ?_⟩
      · rw [h2]
        cases q.contents <;> simp [BoundedFifo.pop]
      · intro he
        have hcount : q.count = 0 := by
          rw [← contents_length, he]
          rfl
        have hth : q.tail = q.head := by
          have hcq := hi.count_eq
          rw [hcount] at hcq
          have hh := hi.head_lt
          have ht := hi.tail_lt
          split_ifs at hcq <;> omega
        unfold LockFreeQueue.pop
        rw [if_pos hth]
        exact ⟨rfl, rfl⟩
      · intro oldest rest he
        rw [h2, h3, h4, he]
        exact ⟨rfl, rfl, rfl⟩
    · intro item
      obtain ⟨_, h2, h3⟩ := push_simulates hi item
      refine ⟨?_, ?_, ?_⟩
      · rw [h2]
        unfold BoundedFifo.push
        split <;> simp_all
      · intro he
        have hfull : (q.head + 1) % q.buffer.length = q.tail := by
          rw [hi.size]
          have hc := hi.count_eq
          rw [contents_length] at he
          rw [he] at hc
          have hh := hi.head_lt
          have ht := hi.tail_lt
          rw [ring_succ hi.head_lt]
          split_ifs at hc ⊢ <;> omega
        unfold LockFreeQueue.push
        simp only
        rw [if_pos hfull]
      · intro hne
        rw [h2, h3]
        unfold BoundedFifo.push
        rw [if_neg hne]
        exact ⟨rfl, rfl⟩

theorem queue_is_bounded_fifo_witness :
    (LockFreeQueue.init 3 : LockFreeQueue Nat).run
        [QueueOp.pop 9, QueueOp.push 5, QueueOp.push 6, QueueOp.push 7, QueueOp.pop 9,
          QueueOp.push 8, QueueOp.pop 9, QueueOp.pop 9, QueueOp.pop 9]
        = [(false, 9), (true, 5), (true, 6), (false, 7), (true, 5), (true, 8), (true, 6),
            (true, 8), (false, 9)]
      ∧ (LockFreeQueue.init 3 : LockFreeQueue Nat).run
          [QueueOp.pop 9, QueueOp.push 5, QueueOp.push 6, QueueOp.push 7, QueueOp.pop 9]
          = BoundedFifo.run 2 []
              [QueueOp.pop 9, QueueOp.push 5, QueueOp.push 6, QueueOp.push 7, QueueOp.pop 9] :=
  ⟨by decide,
    (queue_is_bounded_fifo 3 (by decide)).1
      [QueueOp.pop 9, QueueOp.push 5, QueueOp.push 6, QueueOp.push 7, QueueOp.pop 9]⟩

/-! ## Decrement to zero -/

theorem fillAskOrder_not_front {b : OrderBook} {p h a : Nat} {l : Level} {rest : List Nat}
    (hl : b.asks[p]? = some l) (hlt : h < b.resting_orders_pool.store.length)
    (hq : (b.node h).quantity < 2 ^ 32) (hhead : l.queue = a :: rest) (hne : a ≠ h)
    (hqa : (b.node a).quantity ≠ 0) :
    b.fillAskOrder p h (b.node h).quantity = Except.error Fault.AssertionFailed := by
  unfold OrderBook.fillAskOrder
  simp only [levelAt_of_get hl, ObjectPool.write, ObjectPool.read]
  rw [getD_set_self _ hlt]
  simp only
  rw [sub32_of_le (le_refl _) hq]
  simp only [Nat.sub_self, if_true]
  simp only [Level.pop, Level.reduceQuantity, hhead]
  rw [getD_set_ne _ (Ne.symm hne)]
  have hqa2 : (b.resting_orders_pool.store.getD a default).quantity ≠ 0 := hqa
  rw [if_neg hqa2]

theorem fillBidOrder_not_front {b : OrderBook} {p h a : Nat} {l : Level} {rest : List Nat}
    (hl : b.bids[p]? = some l) (hlt : h < b.resting_orders_pool.store.length)
    (hq : (b.node h).quantity < 2 ^ 32) (hhead : l.queue = a :: rest) (hne : a ≠ h)
    (hqa : (b.node a).quantity ≠ 0) :
    b.fillBidOrder p h (b.node h).quantity = Except.error Fault.AssertionFailed := by
  unfold OrderBook.fillBidOrder
  simp only [levelAt_of_get hl, ObjectPool.write, ObjectPool.read]
  rw [getD_set_self _ hlt]
  simp only
  rw [sub32_of_le (le_refl _) hq]
  simp only [Nat.sub_self, if_true]
  simp only [Level.pop, Level.reduceQuantity, hhead]
  rw [getD_set_ne _ (Ne.symm hne)]
  have hqa2 : (b.resting_orders_pool.store.getD a default).quantity ≠ 0 := hqa
  rw [if_neg hqa2]

/-- Filling the front node of its level entirely, on the side of the node. -/
theorem fillResting_full {mp : Nat} {b : OrderBook} (hwf : WF mp b) {h : Nat} {l : Level}
    {rest : List Nat} (hl : (b.levels (b.node h).side)[(b.node h).price]? = some l)
    (hq : l.queue = h :: rest) :
    ∃ b1, (policyOf (b.node h).side).fillRestingOrder b (b.node h).price h (b.node h).quantity
        = Except.ok b1
      ∧ WF mp b1
      ∧ SameUpToCursors b1
        (b.unlinked (b.node h).side (b.node h).price h l (zeroed b h)) := by
  have hh : h ∈ l.queue := by simp [hq]
  have n := hwf.core.nodes _ _ l hl h hh
  cases hs : (b.node h).side with
  | Buy =>
    rw [hs] at hl
    have hl2 : b.bids[(b.node h).price]? = some l := hl
    obtain ⟨m, h1, _, h3⟩ := hwf.unlinked_bid hl2 hh (zeroed_length b h) (zeroed_other b h)
    refine ⟨_, ?_, h3, ⟨rfl, rfl, rfl, rfl⟩⟩
    show b.fillBidOrder (b.node h).price h (b.node h).quantity = _
    rw [fillBidOrder_full hl2 n.lt n.qlt hq, h1]
  | Sell =>
    rw [hs] at hl
    have hl2 : b.asks[(b.node h).price]? = some l := hl
    have := hwf.unlinked_ask hl2 hh (zeroed_length b h) (zeroed_other b h)
    exact ⟨_, fillAskOrder_full hl2 n.lt n.qlt hq, this.1, ⟨rfl, rfl, rfl, rfl⟩⟩

/-- Filling entirely a node that is not the front of its level fails in `Level::pop`. -/
theorem fillResting_not_front {mp : Nat} {b : OrderBook} (hwf : WF mp b) {h a : Nat} {l : Level}
    {rest : List Nat} (hl : (b.levels (b.node h).side)[(b.node h).price]? = some l)
    (hh : h ∈ l.queue) (hq : l.queue = a :: rest) (hne : a ≠ h) :
    (policyOf (b.node h).side).fillRestingOrder b (b.node h).price h (b.node h).quantity
      = Except.error Fault.AssertionFailed := by
  have n := hwf.core.nodes _ _ l hl h hh
  have na := hwf.core.nodes _ _ l hl a (by simp [hq])
  have hqa : (b.node a).quantity ≠ 0 := Nat.pos_iff_ne_zero.mp na.qpos
  cases hs : (b.node h).side with
  | Buy =>
    rw [hs] at hl
    exact fillBidOrder_not_front hl n.lt n.qlt hq hne hqa
  | Sell =>
    rw [hs] at hl
    exact fillAskOrder_not_front hl n.lt n.qlt hq hne hqa

/-- C20. `modifyOrder(id, p, 0)` at the price `p` of a live order, on a reachable book whose
level at that price and side has the queue `front :: rest`. When the order is the front of
its level the call is a cancel: it returns normally with the one event `on_modified` of
quantity 0, the id is no longer found, the slot is in the free list, the level holds `rest`
with its total lowered (in `uint32_t`) by the quantity of the order, every other level and
every other stored order is as before, and every total is the sum of the linked quantities
modulo `2^32`. When another order is in front, the call fails on
`assert(head->order.quantity == 0)` of `Level::pop`, which unlinks the head of the level and
not the order that was filled: the claim does not hold for an order that is not at the
front. -/
theorem zero_decrement_pops_the_front (capacity mp : Nat) (b : OrderBook)
    (hr : Reachable capacity mp b) (id h : Nat) (hfind : b.find id = some h)
    (l : Level) (front : Nat) (rest : List Nat)
    (hl : (b.levels (b.node h).side)[(b.node h).price]? = some l)
    (hq : l.queue = front :: rest) :
    (front = h →
        (modifyOrder id (b.node h).price 0 b).fault = none
        ∧ (modifyOrder id (b.node h).price 0 b).events
            = [Event.modified { b.node h with quantity := 0 }]
        ∧ (modifyOrder id (b.node h).price 0 b).book.find id = none
        ∧ h ∈ (modifyOrder id (b.node h).price 0 b).book.resting_orders_pool.free_indices
        ∧ ((modifyOrder id (b.node h).price 0 b).book.levels (b.node h).side)[(b.node h).price]?
            = some { queue := rest
                     total_quantity := sub32 l.total_quantity (b.node h).quantity }
        ∧ (∀ (s : Side) (p : Nat), ¬ (s = (b.node h).side ∧ p = (b.node h).price) →
            ((modifyOrder id (b.node h).price 0 b).book.levels s)[p]? = (b.levels s)[p]?)
        ∧ (∀ x : Nat, x ≠ h → (modifyOrder id (b.node h).price 0 b).book.node x = b.node x)
        ∧ (∀ id1 : Nat, id1 ≠ id →
            (modifyOrder id (b.node h).price 0 b).book.find id1 = b.find id1)
        ∧ ∀ (s : Side) (p : Nat) (l1 : Level),
            ((modifyOrder id (b.node h).price 0 b).book.levels s)[p]? = some l1 →
            l1.total_quantity
              = queueSum (modifyOrder id (b.node h).price 0 b).book.resting_orders_pool.store
                  l1.queue % 2 ^ 32)
      ∧ (front ≠ h →
          modifyOrder id (b.node h).price 0 b
            = { fault := some Fault.AssertionFailed, book := b, events := [] }) := by
  have hwf := hr.wf
  obtain ⟨hid0, l0, hl0, hh⟩ := hwf.core.index id h hfind
  have hid : (b.node h).id = id := hid0
  have e0 : l0 = l := Option.some.inj (hl0.symm.trans hl)
  subst e0
  have n := hwf.core.nodes _ _ l0 hl h hh
  have hpos : 0 < (b.node h).quantity := n.qpos
  obtain ⟨hlev, _⟩ := fillResting_rest hwf hl hh (t := 0) hpos
  have hok : ∀ book1, (policyOf (b.node h).side).fillRestingOrder b (b.node h).price h
        (b.node h).quantity = Except.ok book1 →
      modifyOrder id (b.node h).price 0 b
        = { fault := none, book := book1, events := [Event.modified (book1.node h)] } := by
    intro book1 hr1
    unfold modifyOrder
    rw [hfind]
    simp only [MatchingEngine.modify]
    rw [if_pos ⟨trivial, hpos⟩, hlev]
    simp only [Nat.sub_zero, hr1]
  have herr : ∀ f, (policyOf (b.node h).side).fillRestingOrder b (b.node h).price h
        (b.node h).quantity = Except.error f →
      modifyOrder id (b.node h).price 0 b = { fault := some f, book := b, events := [] } := by
    intro f hr1
    unfold modifyOrder
    rw [hfind]
    simp only [MatchingEngine.modify]
    rw [if_pos ⟨trivial, hpos⟩, hlev]
    simp only [Nat.sub_zero, hr1]
  constructor
  · intro hf
    subst hf
    obtain ⟨b1, h1, hwf1, hsame⟩ := fillResting_full hwf hl hq
    rw [hok _ h1]
    have hlv : b1.levels = setLevel b.levels (b.node front).side (b.node front).price
        (l0.erase front (b.node front).quantity) := by
      rw [hsame.levels_eq, levels_unlinked]
    have hnode : b1.node front = { b.node front with quantity := 0 } :=
      node_zeroed n.lt (by rw [hsame.pool]; rfl)
    refine ⟨rfl, ?_, ?_, ?_, ?_, ?_, ?_, ?_, ?_⟩
    · show [Event.modified (b1.node front)] = _
      rw [hnode]
    · show b1.resting_orders id = none
      rw [hsame.index]
      simp [OrderBook.unlinked, hid]
    · show front ∈ b1.resting_orders_pool.free_indices
      rw [hsame.pool]
      simp [OrderBook.unlinked]
    · show (b1.levels (b.node front).side)[(b.node front).price]? = _
      rw [hlv, setLevel_get_self hl]
      simp [Level.erase, hq]
    · intro s p hc
      show (b1.levels s)[p]? = _
      rw [hlv, setLevel_get_other hc]
    · intro x hx
      show b1.node x = b.node x
      simp only [OrderBook.node, ObjectPool.read, hsame.pool, OrderBook.unlinked]
      exact zeroed_other b front x hx
    · intro id1 hne
      show b1.resting_orders id1 = b.resting_orders id1
      rw [hsame.index]
      simp [OrderBook.unlinked, hid, hne]
    · intro s p l1 hl1
      exact hwf1.core.total s p l1 hl1
  · intro hf
    exact herr _ (fillResting_not_front hwf hl hh hq hf)

theorem zero_decrement_pops_the_front_witness :
    fifoBook.find 2 = some 2
      ∧ (fifoBook.asks[3]?).map Level.queue = some [3, 2]
      ∧ modifyOrder 2 3 0 fifoBook
          = { fault := some Fault.AssertionFailed, book := fifoBook, events := [] }
      ∧ (modifyOrder 1 3 0 fifoBook).events = [Event.modified ⟨1, 0, 3, Side.Sell⟩] :=
  ⟨by decide, by decide,
    (zero_decrement_pops_the_front 4 5 fifoBook fifoBook_reachable 2 2 (by decide)
      { queue := [3, 2], total_quantity := 10 } 3 [2] (by decide) (by decide)).2 (by decide),
    by decide⟩

/-! ## No undefined access -/

theorem matchesLive_front {mp : Nat} {b : OrderBook} (hwf : WF mp b) {s : Side} {p h : Nat}
    {l : Level} (hl : (b.levels s)[p]? = some l) (hh : h ∈ l.queue) (i q : Nat)
    (hq0 : 0 < q) (hq : q ≤ (b.node h).quantity) :
    (Event.trade i (b.node h).id (b.node h).price q).matchesLive mp b := by
  have n := hwf.core.nodes s p l hl h hh
  have hfind : b.find (b.node h).id = some h := n.idx
  have hlt : p < (b.levels s).length := (List.getElem?_eq_some.mp hl).1
  rw [hwf.core.len s] at hlt
  have hprice : (b.node h).price = p := n.price
  have hppos : 0 < p := n.ppos
  simp only [Event.matchesLive, hfind]
  refine ⟨trivial, trivial, ?_, ?_, hq0, hq⟩ <;> omega

/-- A trade against a resting order of the book left by unlinking node `h0` is a trade
against a resting order of the book before. -/
theorem matchesLive_of_unlinked {mp : Nat} {b b1 : OrderBook} (hwf : WF mp b) {s : Side}
    {p h0 : Nat} {l : Level} {store1 : List Order}
    (hsame : SameUpToCursors b1 (b.unlinked s p h0 l store1))
    (hother : ∀ x, x ≠ h0 → nodeOf store1 x = nodeOf b.resting_orders_pool.store x)
    {e : Event} (he : e.matchesLive mp b1) : e.matchesLive mp b := by
  cases e with
  | trade i rid price qty =>
    simp only [Event.matchesLive] at he ⊢
    have hfind : b1.find rid = if rid = (b.node h0).id then none else b.find rid := by
      show b1.resting_orders rid = _
      rw [hsame.index]
      rfl
    by_cases hc : rid = (b.node h0).id
    · rw [hfind, if_pos hc] at he
      exact he.elim
    · rw [hfind, if_neg hc] at he
      cases hf : b.find rid with
      | none =>
        rw [hf] at he
        exact he.elim
      | some h1 =>
        rw [hf] at he
        have hne : h1 ≠ h0 := by
          intro e1
          subst e1
          exact hc (hwf.core.index rid h1 hf).1.symm
        have hnode : b1.node h1 = b.node h1 := by
          simp only [OrderBook.node, ObjectPool.read, hsame.pool, OrderBook.unlinked]
          exact hother h1 hne
        simp only at he ⊢
        rw [hnode] at he
        exact he
  | added o => trivial
  | canceled id => trivial
  | modified o => trivial

/-- Every trade of the loop of `match` is made against a resting order of the book the loop
started from. -/
theorem matchLoop_live {mp : Nat} (pol : Policy) (fuel : Nat) (o : Order) (b : OrderBook)
    (hwf : WF mp b) (hfuel : sideSize (b.levels pol.opp) + 2 ≤ fuel) :
    ∀ e ∈ (matchLoop pol fuel o b).events, e.matchesLive mp b := by
  refine matchLoop_induct pol (fun _ b r => ∀ e ∈ r.events, e.matchesLive mp b)
    ?_ ?_ ?_ fuel o b hwf hfuel
  · intro o b _ _ e he
    simp at he
  · intro o b l h tl hwf hq _ _ hl hq2 hlt e he
    simp only [List.mem_singleton] at he
    subst he
    exact matchesLive_front hwf hl (by simp [hq2]) _ _ hq (le_of_lt hlt)
  · intro o b l h tl b1 r hwf _ _ _ hl hq2 _ _ hsame _ ih e he
    have hh : h ∈ l.queue := by simp [hq2]
    have n := hwf.core.nodes _ _ l hl h hh
    simp only [List.mem_cons] at he
    rcases he with rfl | he
    · exact matchesLive_front hwf hl hh _ _ n.qpos (le_refl _)
    · exact matchesLive_of_unlinked hwf hsame (zeroed_other b h) (ih e he)

/-- Every trade of `match` is made against a resting order of the book before. -/
theorem matchOrder_live {mp : Nat} {b : OrderBook} (hwf : WF mp b) {o : Order}
    (hp : 0 < o.price) (hp2 : o.price ≤ mp) (hq2 : o.quantity < 2 ^ 32)
    (hid : b.resting_orders o.id = none) :
    ∀ e ∈ (matchOrder o (policyOf o.side) b).events, e.matchesLive mp b := by
  obtain ⟨_, hcase⟩ := matchOrder_cases hwf hp hp2 hq2 hid
  have hlive := matchLoop_live (policyOf o.side) (matchFuel (policyOf o.side) b) o b hwf
    (by rw [matchFuel_eq])
  rcases hcase with ⟨_, h2⟩ | ⟨_, _, h2⟩ | ⟨_, fs, h, l, _, _, _, h2⟩
  · rw [h2]
    exact hlive
  · rw [h2]
    exact hlive
  · rw [h2]
    intro e he
    simp only [List.mem_append, List.mem_singleton] at he
    rcases he with he | rfl
    · exact hlive e he
    · trivial

/-- On a well-formed book with orders to match against, `matchLevel()` is a level inside the
vector, `top()` is its first node, a resting order of positive quantity, and filling it by
any quantity up to its own succeeds (both assertions of `pop` hold when it is emptied). -/
theorem match_step_defined {mp : Nat} {b : OrderBook} (hwf : WF mp b) (pol : Policy)
    (hm : pol.hasMatchingOrders b = true) :
    ∃ (l : Level) (h : Nat) (rest : List Nat),
      pol.best b ≤ mp ∧ pol.matchLevel b = Except.ok (pol.best b, l)
      ∧ l.queue = h :: rest ∧ l.top = some h ∧ 0 < (b.node h).quantity
      ∧ ∀ t, t ≤ (b.node h).quantity →
          ∃ b1, pol.fillOppositeOrder b (pol.best b) h t = Except.ok b1 := by
  obtain ⟨l, h, rest, hl, hq, hml⟩ := match_front hwf hm
  have hh : h ∈ l.queue := by simp [hq]
  have n := hwf.core.nodes pol.opp (pol.best b) l hl h hh
  have hlt : pol.best b < (b.levels pol.opp).length := (List.getElem?_eq_some.mp hl).1
  rw [hwf.core.len pol.opp] at hlt
  refine ⟨l, h, rest, by omega, hml, hq, by simp [Level.top, hq], n.qpos, ?_⟩
  intro t ht
  by_cases hc : t < (b.node h).quantity
  · exact ⟨_, fillOpposite_rest hwf hl hh hc⟩
  · have e : t = (b.node h).quantity := by omega
    subst e
    obtain ⟨b1, h1, _⟩ := fillOpposite_full hwf hl hq
    exact ⟨b1, h1⟩

/-- C21. No undefined access on valid input. For every book reachable from the empty book
and every call that meets its preconditions (for a submit: quantity in `[1, 2^32)`, price
in `[1, max_price]`, id not live; for a cancel: a live id; for a modify: a live id and the
same ranges), the call ends without any fault of the model other than the exception of a
full pool, which only a submit can meet: no index into `bids` or `asks` is beyond
`max_price` (`OutOfRange`), `top()` is never evaluated on an empty level (`SentinelRead`),
no assertion of `Level::pop` fails (`AssertionFailed`), no null pointer is read, and the loop
of `match` ends within its bound. A call that returns normally leaves a reachable book, so
the same holds of the next call. Every trade reported is made against a node that is a
resting order of the book before the call, found in the index under the id reported, at a
price in `[1, max_price]`, for a positive quantity that is at most the quantity of the node.
And in the book itself, whenever the side to match against is not empty, the best level is
inside the vector, its `top()` is a linked node of positive quantity, and filling that node by
any quantity up to its own succeeds. -/
theorem no_undefined_access (capacity mp : Nat) (b : OrderBook)
    (hr : Reachable capacity mp b) (c : Call) (hpre : c.precondition mp b) :
    ((c.run b).fault = none
        ∨ ((c.run b).fault = some Fault.PoolExhausted ∧ ∃ o, c = Call.submit o))
      ∧ ((c.run b).fault = none → Reachable capacity mp (c.run b).book)
      ∧ (∀ e ∈ (c.run b).events, e.matchesLive mp b)
      ∧ ∀ pol : Policy, pol.hasMatchingOrders b = true →
          ∃ (l : Level) (h : Nat) (rest : List Nat),
            pol.best b ≤ mp ∧ pol.matchLevel b = Except.ok (pol.best b, l)
            ∧ l.queue = h :: rest ∧ l.top = some h ∧ 0 < (b.node h).quantity
            ∧ ∀ t, t ≤ (b.node h).quantity →
                ∃ b1, pol.fillOppositeOrder b (pol.best b) h t = Except.ok b1 := by
  have hwf := hr.wf
  refine ⟨?_, ?_, ?_, fun pol hm => match_step_defined hwf pol hm⟩
  · cases c with
    | submit o =>
      obtain ⟨_, hq2, hp, hp2, hid⟩ := hpre
      obtain ⟨_, h2, _⟩ := matchOrder_wf hwf (o := o) (by omega) hp2 hq2 hid
      rcases h2 with h2 | h2
      · exact Or.inl h2
      · exact Or.inr ⟨h2, o, rfl⟩
    | cancel id => exact Or.inl (Call.run_wf hwf (c := Call.cancel id) hpre).1
    | modify id p q => exact Or.inl (Call.run_wf hwf (c := Call.modify id p q) hpre).1
  · intro hf
    refine Reachable.step c hr ?_
    cases c with
    | submit o =>
      obtain ⟨hq, hq2, hp, hp2, hid⟩ := hpre
      refine ⟨hq, hq2, hp, hp2, hid, ?_⟩
      have hf2 : (submitOrder o b).fault = none := hf
      rw [hf2]
      simp
    | cancel id => exact hpre
    | modify id p q => exact hpre
  · cases c with
    | submit o =>
      obtain ⟨_, hq2, hp, hp2, hid⟩ := hpre
      exact matchOrder_live hwf (by omega) hp2 hq2 hid
    | cancel id =>
      have hv2 : (b.find id).isSome = true := hpre
      obtain ⟨h, hfind⟩ := Option.isSome_iff_exists.mp hv2
      obtain ⟨l, b1, _, _, _, heq, _, _, _⟩ := cancelOrder_spec hwf hfind
      have hrun : (Call.cancel id).run b = cancelOrder id b := rfl
      rw [hrun, heq]
      intro e he
      simp only [List.mem_singleton] at he
      subst he
      trivial
    | modify id p q =>
      obtain ⟨hv2, hq0, hq2, hp, hp2⟩ := hpre
      obtain ⟨h, hfind⟩ := Option.isSome_iff_exists.mp hv2
      have hrun : (Call.modify id p q).run b = modifyOrder id p q b := rfl
      rw [hrun]
      by_cases hc : p = (b.node h).price ∧ q < (b.node h).quantity
      · obtain ⟨l, _, _, heq⟩ := modifyOrder_inplace hwf hfind hc.1 hq0 hc.2
        rw [heq]
        intro e he
        simp only [List.mem_singleton] at he
        subst he
        trivial
      · obtain ⟨l, b1, _, _, hwf1, hsame, _, heq⟩ := modifyOrder_reinsert hwf hfind hc
        rw [heq]
        have hside : (b.node h).side
            = ({ b.node h with price := p, quantity := q } : Order).side := rfl
        rw [hside]
        have hidx : b1.resting_orders
            ({ b.node h with price := p, quantity := q } : Order).id = none := by
          rw [hsame.index]
          simp [OrderBook.unlinked]
        intro e he
        exact matchesLive_of_unlinked hwf hsame (fun _ _ => rfl)
          (matchOrder_live hwf1 (Nat.lt_of_lt_of_le Nat.zero_lt_one hp) hp2 hq2 hidx e he)

theorem no_undefined_access_witness :
    (Call.submit ⟨3, 7, 4, Side.Buy⟩).precondition 5 fifoBook
      ∧ ((Call.submit ⟨3, 7, 4, Side.Buy⟩).run fifoBook).events
          = [Event.trade 3 1 3 5, Event.trade 3 2 3 2]
      ∧ (((Call.submit ⟨3, 7, 4, Side.Buy⟩).run fifoBook).fault = none
          ∨ (((Call.submit ⟨3, 7, 4, Side.Buy⟩).run fifoBook).fault = some Fault.PoolExhausted
            ∧ ∃ o, Call.submit ⟨3, 7, 4, Side.Buy⟩ = Call.submit o))
      ∧ ∀ e ∈ ((Call.submit ⟨3, 7, 4, Side.Buy⟩).run fifoBook).events,
          e.matchesLive 5 fifoBook :=
  ⟨by decide, by decide,
    (no_undefined_access 4 5 fifoBook fifoBook_reachable (Call.submit ⟨3, 7, 4, Side.Buy⟩)
      (by decide)).1,
    (no_undefined_access 4 5 fifoBook fifoBook_reachable (Call.submit ⟨3, 7, 4, Side.Buy⟩)
      (by decide)).2.2.1⟩

/-! ## The pool under modify -/

theorem matchLoop_store_length {mp : Nat} (pol : Policy) (fuel : Nat) (o : Order)
    (b : OrderBook) (hwf : WF mp b) (hfuel : sideSize (b.levels pol.opp) + 2 ≤ fuel) :
    (matchLoop pol fuel o b).book.resting_orders_pool.store.length
      = b.resting_orders_pool.store.length := by
  refine matchLoop_induct pol
    (fun _ b r => r.book.resting_orders_pool.store.length = b.resting_orders_pool.store.length)
    ?_ ?_ ?_ fuel o b hwf hfuel
  · intro o b _ _
    rfl
  · intro o b l h tl _ _ _ _ _ _ _
    simp [OrderBook.requantified]
  · intro o b l h tl b1 r _ _ _ _ _ _ _ _ hsame _ ih
    have h1 : b1.resting_orders_pool.store.length = b.resting_orders_pool.store.length := by
      rw [hsame.pool]
      exact zeroed_length b h
    show r.book.resting_orders_pool.store.length = _
    rw [← h1]
    exact ih

theorem matchOrder_store_length {mp : Nat} {b : OrderBook} (hwf : WF mp b) {o : Order}
    (hp : 0 < o.price) (hp2 : o.price ≤ mp) (hq2 : o.quantity < 2 ^ 32)
    (hid : b.resting_orders o.id = none) :
    (matchOrder o (policyOf o.side) b).book.resting_orders_pool.store.length
      = b.resting_orders_pool.store.length := by
  obtain ⟨_, hcase⟩ := matchOrder_cases hwf hp hp2 hq2 hid
  have hlen := matchLoop_store_length (policyOf o.side) (matchFuel (policyOf o.side) b) o b hwf
    (by rw [matchFuel_eq])
  rcases hcase with ⟨_, h2⟩ | ⟨_, _, h2⟩ | ⟨_, fs, h, l, _, _, _, h2⟩
  · rw [h2]
    exact hlen
  · rw [h2]
    exact hlen
  · rw [h2]
    simp only [OrderBook.inserted, List.length_set]
    exact hlen

theorem Call.run_store_length {mp : Nat} {b : OrderBook} (hwf : WF mp b) {c : Call}
    (hv : c.valid mp b) :
    (c.run b).book.resting_orders_pool.store.length = b.resting_orders_pool.store.length := by
  cases c with
  | submit o =>
    obtain ⟨_, hq2, hp, hp2, hid, _⟩ := hv
    exact matchOrder_store_length hwf (by omega) hp2 hq2 hid
  | cancel id =>
    have hv2 : (b.find id).isSome = true := hv
    obtain ⟨h, hfind⟩ := Option.isSome_iff_exists.mp hv2
    obtain ⟨l, b1, _, _, _, heq, _, hsame, _⟩ := cancelOrder_spec hwf hfind
    have hrun : (Call.cancel id).run b = cancelOrder id b := rfl
    rw [hrun, heq]
    show b1.resting_orders_pool.store.length = _
    rw [hsame.pool]
    rfl
  | modify id p q =>
    obtain ⟨hv2, hq0, hq2, hp, hp2⟩ := hv
    obtain ⟨h, hfind⟩ := Option.isSome_iff_exists.mp hv2
    have hrun : (Call.modify id p q).run b = modifyOrder id p q b := rfl
    rw [hrun]
    by_cases hc : p = (b.node h).price ∧ q < (b.node h).quantity
    · obtain ⟨l, _, _, heq⟩ := modifyOrder_inplace hwf hfind hc.1 hq0 hc.2
      rw [heq]
      simp [OrderBook.requantified]
    · obtain ⟨l, b1, _, _, hwf1, hsame, _, heq⟩ := modifyOrder_reinsert hwf hfind hc
      rw [heq]
      have hside : (b.node h).side
          = ({ b.node h with price := p, quantity := q } : Order).side := rfl
      rw [hside]
      have hidx : b1.resting_orders
          ({ b.node h with price := p, quantity := q } : Order).id = none := by
        rw [hsame.index]
        simp [OrderBook.unlinked]
      rw [matchOrder_store_length hwf1 (Nat.lt_of_lt_of_le Nat.zero_lt_one hp) hp2 hq2 hidx,
        hsame.pool]
      rfl

/-- The pool of a reachable book has as many slots as the capacity the book was built
with. -/
theorem Reachable.store_length {capacity mp : Nat} {b : OrderBook}
    (hr : Reachable capacity mp b) : b.resting_orders_pool.store.length = capacity := by
  induction hr with
  | init => simp [OrderBook.init, ObjectPool.init]
  | step c hr1 hv ih =>
    rw [Call.run_store_length hr1.wf hv]
    exact ih

/-- In a well-formed book the free slots and the resting orders add up to the slots of the
pool. -/
theorem WF.free_count {mp : Nat} {b : OrderBook} (hwf : WF mp b) :
    b.resting_orders_pool.free_indices.length + b.restingCount
      = b.resting_orders_pool.store.length := by
  have := hwf.core.count
  simp only [OrderBook.levels] at this
  unfold OrderBook.restingCount
  omega

/-- C22. `modifyOrder` never exhausts the pool. In a reachable book of any capacity, the
pool full or not, for a live id, a new price in `[1, max_price]` and a new quantity in
`[1, 2^32)`, `modifyOrder` returns normally. Before and after the call the number of free
slots plus the number of resting orders is the capacity. The in-place branch leaves the free
list as it was. In the re-insert branch removing the order succeeds and puts its slot at the
back of the free list, where again free slots plus resting orders is the capacity, and
`modifyOrder` is `match` of the amended order on that book, whose free list is not
empty. -/
theorem modify_never_exhausts_pool (capacity mp : Nat) (b : OrderBook)
    (hr : Reachable capacity mp b) (id h p q : Nat) (hfind : b.find id = some h)
    (hp : 1 ≤ p) (hp2 : p ≤ mp) (hq0 : 0 < q) (hq2 : q < 2 ^ 32) :
    (modifyOrder id p q b).fault = none
      ∧ b.resting_orders_pool.free_indices.length + b.restingCount = capacity
      ∧ (modifyOrder id p q b).book.resting_orders_pool.free_indices.length
          + (modifyOrder id p q b).book.restingCount = capacity
      ∧ ((p = (b.node h).price ∧ q < (b.node h).quantity) →
          (modifyOrder id p q b).book.resting_orders_pool.free_indices
            = b.resting_orders_pool.free_indices)
      ∧ (¬ (p = (b.node h).price ∧ q < (b.node h).quantity) →
          ∃ b1, (policyOf (b.node h).side).cancel b h = Except.ok b1
            ∧ b1.resting_orders_pool.free_indices = b.resting_orders_pool.free_indices ++ [h]
            ∧ b1.resting_orders_pool.free_indices.length + b1.restingCount = capacity
            ∧ modifyOrder id p q b
                = matchOrder { b.node h with price := p, quantity := q }
                    (policyOf (b.node h).side) b1) := by
  have hwf := hr.wf
  have hlive : (b.find id).isSome = true := by rw [hfind]; rfl
  have hv : (Call.modify id p q).valid mp b := ⟨hlive, hq0, hq2, hp, hp2⟩
  have hr1 : Reachable capacity mp (modifyOrder id p q b).book := Reachable.step _ hr hv
  refine ⟨(modifyOrder_wf hwf hfind (by omega) hp2 hq0 hq2).1, ?_, ?_, ?_, ?_⟩
  · rw [hwf.free_count, hr.store_length]
  · rw [hr1.wf.free_count, hr1.store_length]
  · intro hc
    obtain ⟨l, _, _, heq⟩ := modifyOrder_inplace hwf hfind hc.1 hq0 hc.2
    rw [heq]
    rfl
  · intro hc
    obtain ⟨hid, l, hl, hh⟩ := hwf.core.index id h hfind
    obtain ⟨b1, h1, hwf1, hsame, _⟩ := remove_spec hwf hl hh
    refine ⟨b1, h1, ?_, ?_, ?_⟩
    · rw [hsame.pool]
      rfl
    · rw [hwf1.free_count, hsame.pool]
      exact hr.store_length
    · unfold modifyOrder
      rw [hfind]
      simp only [MatchingEngine.modify]
      rw [if_neg hc, h1]

theorem modify_never_exhausts_pool_witness :
    fullPoolBook.resting_orders_pool.free_indices = []
      ∧ fullPoolBook.find 1 = some 0
      ∧ (modifyOrder 1 4 10 fullPoolBook).fault = none
      ∧ (modifyOrder 1 4 10 fullPoolBook).book.resting_orders_pool.free_indices.length
          + (modifyOrder 1 4 10 fullPoolBook).book.restingCount = 1 :=
  ⟨by decide, by decide,
    (modify_never_exhausts_pool 1 5 fullPoolBook fullPoolBook_reachable 1 0 4 10 (by decide)
      (by decide) (by decide) (by decide) (by decide)).1,
    (modify_never_exhausts_pool 1 5 fullPoolBook fullPoolBook_reachable 1 0 4 10 (by decide)
      (by decide) (by decide) (by decide) (by decide)).2.2.1⟩
